import Mathlib

/-!
# Ciphers: Caesar and substitution cipher transforms, breaker and scorer

A shallow embedding of `src/ciphers.cpp` and theorems about it.

* A C++ `char` is a Lean `Char`, a `std::string` is a `List Char` and a
  `std::vector<T>` is a `List T`.
* `isalpha`, `isspace` and `toupper` are the C library functions in the "C"
  locale, which is the locale the program runs in (it never calls `setlocale`).
* `int` values are `Int`; where `rot(char, int)` adds `pos` and `amount` the
  model checks the sum against the 32 bit range and reports
  `Fault.undefined_behaviour` outside it. The counters (`count`,
  `decryptionsOuput`) are bounded by a container size and are `Nat`.
* A function that can throw or hit undefined behaviour returns `Except Fault _`.
* `double` values are kept abstract (`DoubleArith`, `DoubleOrder`); of the
  comparison `>` only irreflexivity and transitivity are used (`GtLaws`).
* The random source of `utils.h`, which is not among the sources, is a
  parameter (`RandomSource`): each call returns its value and the generator
  state after the call.
* The two loops without a bound of their own (the retry for a second position
  and the `while` of the climb) take fuel; `none` is "fuel ran out", and the
  theorems show that the result does not depend on the fuel and that enough
  fuel exists.
-/

namespace Ciphers

/-! ## Faults -/

/-- The two ways a call can fail to return a value: a `std::out_of_range`
exception (`string::at`, `string::substr`) or undefined behaviour (signed
overflow, unchecked `vector::operator[]` outside the vector). -/
inductive Fault where
  | out_of_range
  | undefined_behaviour
  deriving DecidableEq, Repr

instance instDecidableEqExcept {ε α : Type} [DecidableEq ε] [DecidableEq α] :
    DecidableEq (Except ε α)
  | .ok a, .ok b =>
    if h : a = b then isTrue (by rw [h]) else isFalse (fun e => h (Except.ok.inj e))
  | .error a, .error b =>
    if h : a = b then isTrue (by rw [h]) else isFalse (fun e => h (Except.error.inj e))
  | .ok _, .error _ => isFalse (fun e => Except.noConfusion e)
  | .error _, .ok _ => isFalse (fun e => Except.noConfusion e)

/-! ## The C library character functions ("C" locale) -/

/-- The function `isalpha` of `<cctype>`: the 52 ASCII letters. -/
def isalpha (c : Char) : Bool :=
  (65 ≤ c.toNat && c.toNat ≤ 90) || (97 ≤ c.toNat && c.toNat ≤ 122)

/-- The function `isspace` of `<cctype>`: space, `\t`, `\n`, `\v`, `\f`, `\r`. -/
def isspace (c : Char) : Bool :=
  c.toNat == 32 || (9 ≤ c.toNat && c.toNat ≤ 13)

/-- The function `toupper` of `<cctype>`: `a`..`z` go to `A`..`Z`, everything else is unchanged. -/
def toupper (c : Char) : Char :=
  if 97 ≤ c.toNat ∧ c.toNat ≤ 122 then Char.ofNat (c.toNat - 32) else c

/-! ## `int` range -/

def INT_MIN : Int := -2147483648

def INT_MAX : Int := 2147483647

/-! ## Caesar encryption (`#pragma region CaesarEnc`) -/

/-- The constant `const string ALPHABET = "ABCDEFGHIJKLMNOPQRSTUVWXYZ";` -/
def ALPHABET : List Char := "ABCDEFGHIJKLMNOPQRSTUVWXYZ".toList

/-- The call `int pos = ALPHABET.find(c);` the index of the first occurrence of `c`, and
`string::npos` converted to `int`, which is `-1`, when `c` does not occur. -/
def ALPHABET_find (c : Char) : Int :=
  if ALPHABET.indexOf c < ALPHABET.length then (ALPHABET.indexOf c : Int) else -1

/-- The call `ALPHABET.at(pos)` with `pos` an `int`: the argument is converted to
`size_t`, so a negative `pos` becomes a huge index; `at` throws
`std::out_of_range` for every index that is not below the length. -/
def ALPHABET_at (pos : Int) : Except Fault Char :=
  if 0 ≤ pos ∧ pos < ALPHABET.length then .ok (ALPHABET.getD pos.toNat 'A')
  else .error .out_of_range

/-- The function `char rot(char c, int amount)` (lines 187-194). `%` on `int` truncates
towards zero (`Int.tmod`). -/
def rotChar (c : Char) (amount : Int) : Except Fault Char :=
  let pos : Int := ALPHABET_find c
  if pos + amount < INT_MIN ∨ INT_MAX < pos + amount then .error .undefined_behaviour
  else
    let pos : Int := Int.tmod (pos + amount) 26
    ALPHABET_at pos

/-- The function `string rot(const string& line, int amount)` (lines 196-213). -/
def rot : List Char → Int → Except Fault (List Char)
  | [], _ => .ok []
  | c :: line, amount =>
    if isalpha c then do
      let capitalized := toupper c
      let r ← rotChar capitalized amount
      let result ← rot line amount
      pure (r :: result)
    else if isspace c then do
      let result ← rot line amount
      pure (c :: result)
    else rot line amount

/-! ## Caesar decryption (`#pragma region CaesarDec`) -/

/-- The function `void rot(vector<string>& strings, int amount)` (lines 234-238); the
rotated vector is returned instead of being written through the reference. -/
def rotStrings : List (List Char) → Int → Except Fault (List (List Char))
  | [], _ => .ok []
  | s :: strings, amount => do
    let s' ← rot s amount
    let rest ← rotStrings strings amount
    pure (s' :: rest)

/-- The function `string clean(const string& s)` (lines 240-248). -/
def clean : List Char → List Char
  | [] => []
  | c :: s => if isalpha c then toupper c :: clean s else clean s

/-- The loop of `splitBySpaces` (lines 255-264) with its two locals `words`
and `current_word`, followed by the final push (lines 266-269). -/
def splitBySpacesLoop : List Char → List (List Char) → List Char → List (List Char)
  | [], words, current_word =>
    if current_word ≠ [] then words ++ [current_word] else words
  | c :: s, words, current_word =>
    if isspace c then
      if current_word ≠ [] then splitBySpacesLoop s (words ++ [current_word]) []
      else splitBySpacesLoop s words current_word
    else splitBySpacesLoop s words (current_word ++ [c])

/-- The function `vector<string> splitBySpaces(const string& s)` (lines 251-270). -/
def splitBySpaces (s : List Char) : List (List Char) :=
  splitBySpacesLoop s [] []

/-- One pass of the loop of `joinWithSpaces` (lines 276-279) for index `i`. -/
def joinWithSpacesStep (words : List (List Char)) (result : List Char) (i : Nat) :
    List Char :=
  let result := result ++ words.getD i []
  if i < words.length - 1 then result ++ [' '] else result

/-- The function `string joinWithSpaces(const vector<string>& words)` (lines 273-282): the
loop over `i = 0 .. words.size() - 1`. -/
def joinWithSpaces (words : List (List Char)) : List Char :=
  (List.range words.length).foldl (joinWithSpacesStep words) []

/-- The inner loop of `numWordsIn` (lines 288-293) for one `word`: the count
after the loop, which stops at the first equal dictionary entry. -/
def numWordsInDict (word : List Char) : List (List Char) → Nat → Nat
  | [], count => count
  | dict_word :: dict, count =>
    if word = dict_word then count + 1 else numWordsInDict word dict count

/-- The function `int numWordsIn(const vector<string>& words, const vector<string>& dict)`
(lines 285-296). -/
def numWordsIn (words dict : List (List Char)) : Nat :=
  words.foldl (fun count word => numWordsInDict word dict count) 0

/-- The line `No good decryptions found` (line 325). -/
def noGoodDecryptions : List Char := "No good decryptions found".toList

/-- One pass of the loop of `caesarDecryptCommand` (lines 313-321) for rotation
`i`. The state is the list of lines written to `cout` so far and the counter
`decryptionsOuput`. -/
def caesarDecryptStep (dict words : List (List Char))
    (st : List (List Char) × Nat) (i : Nat) : Except Fault (List (List Char) × Nat) := do
  let rotated_words ← rotStrings words (i : Int)
  if numWordsIn rotated_words dict > rotated_words.length / 2 then
    pure (st.1 ++ [joinWithSpaces rotated_words], st.2 + 1)
  else
    pure st

/-- The function `void caesarDecryptCommand(const vector<string>& dict)` (lines 299-327) as a
function of the line `text` read from `cin`; the result is the list of lines
written to `cout`. -/
def caesarDecryptCommand (dict : List (List Char)) (text : List Char) :
    Except Fault (List (List Char)) := do
  let words := (splitBySpaces text).map clean
  let st ← (List.range 26).foldlM (caesarDecryptStep dict words) ([], 0)
  if st.2 = 0 then pure (st.1 ++ [noGoodDecryptions]) else pure st.1

/-! ## Substitution encryption (`#pragma region SubstEnc`) -/

/-- The access `cipher[pos]` on a `vector<char>` with an `int` index: unchecked, so an
index outside the vector is undefined behaviour. -/
def cipherAt (cipher : List Char) (pos : Int) : Except Fault Char :=
  if 0 ≤ pos ∧ pos < cipher.length then .ok (cipher.getD pos.toNat 'A')
  else .error .undefined_behaviour

/-- The function `string applySubstCipher(const vector<char>& cipher, const string& s)`
(lines 334-348). -/
def applySubstCipher (cipher : List Char) : List Char → Except Fault (List Char)
  | [] => .ok []
  | c :: s =>
    if isalpha c then do
      let capitalized := toupper c
      let pos : Int := (capitalized.toNat : Int) - ('A'.toNat : Int)
      let r ← cipherAt cipher pos
      let result ← applySubstCipher cipher s
      pure (r :: result)
    else do
      let result ← applySubstCipher cipher s
      pure (c :: result)

/-! ## Scoring (`#pragma region SubstDec`) -/

/-- The `double` operations `scoreString` uses. The type of doubles and its
addition are left abstract, so every theorem holds for IEEE arithmetic as for
any other reading. -/
class DoubleArith (D : Type) where
  /-- The literal `0.0`. -/
  zero : D
  /-- The literal `-1000.0`. -/
  negThousand : D
  /-- The `+` of `scores += ...`. -/
  add : D → D → D

/-- The call `cleanedString.substr(i, n)`: throws `std::out_of_range` when `i` is past
the end of the string. -/
def substr (s : List Char) (i n : Nat) : Except Fault (List Char) :=
  if i > s.length then .error .out_of_range else .ok ((s.drop i).take n)

/-- One pass of the loop of `scoreString` (lines 405-409). The state is
`scores` and the list of quadgrams handed to `scorer.getScore` so far. -/
def scoreStep {D : Type} [DoubleArith D] (getScore : List Char → D)
    (cleanedString : List Char) (st : D × List (List Char)) (i : Nat) :
    Except Fault (D × List (List Char)) := do
  let quadgram ← substr cleanedString i 4
  pure (DoubleArith.add st.1 (getScore quadgram), st.2 ++ [quadgram])

/-- The function `double scoreString(const QuadgramScorer& scorer, const string& s)` (lines
389-412), with `scorer.getScore` as the parameter `getScore`. Lines 393-398
repeat the body of `clean`. The result is the returned score together with the
quadgrams on which `getScore` was called, in call order. -/
def scoreStringRun {D : Type} [DoubleArith D] (getScore : List Char → D)
    (s : List Char) : Except Fault (D × List (List Char)) :=
  let cleanedString := clean s
  if cleanedString.length < 4 then .ok (DoubleArith.negThousand, [])
  else
    (List.range (cleanedString.length - 4 + 1)).foldlM
      (scoreStep getScore cleanedString) (DoubleArith.zero, [])

/-- The value `scoreString` returns. -/
def scoreString {D : Type} [DoubleArith D] (getScore : List Char → D)
    (s : List Char) : Except Fault D :=
  (scoreStringRun getScore s).map Prod.fst

/-- Doubles read as integers: the reading used to evaluate `scoreString` on
concrete inputs. -/
instance instDoubleArithInt : DoubleArith Int where
  zero := 0
  negThousand := -1000
  add := fun a b => a + b

/-! ## Specification-side vocabulary

The functions below are not in the source. They say, in the words of the
specification, what the source functions are claimed to compute. -/

/-- The alphabet index of the uppercased form of a letter (`A` and `a` are 0). -/
def letterIndex (c : Char) : Nat := (toupper c).toNat - 65

/-- The uppercase letter with alphabet index `k`. -/
def letter (k : Nat) : Char := ALPHABET.getD k 'A'

/-- A character is an uppercase letter `A`..`Z`. -/
def isUpperLetter (c : Char) : Bool := 65 ≤ c.toNat && c.toNat ≤ 90

/-- The specification of `rotate(text, amount)`: scan left to right, replace a
letter by the uppercase letter of index `(index + amount) mod 26`, copy a space
(any character `isspace` accepts), drop everything else. -/
def rotateSpec (text : List Char) (amount : Int) : List Char :=
  text.filterMap fun c =>
    if isalpha c then some (letter (((letterIndex c : Int) + amount) % 26).toNat)
    else if isspace c then some c
    else none

/-- The clean-and-rotate identity: letters uppercased, spaces kept, every
other character removed. -/
def cleanKeepSpaces (text : List Char) : List Char :=
  text.filterMap fun c =>
    if isalpha c then some (toupper c) else if isspace c then some c else none

/-- The specification of cleaning: strip the non-letters, uppercase the rest. -/
def cleanSpec (s : List Char) : List Char := (s.filter isalpha).map toupper

/-- The specification of `substitute(key, text)`: a letter becomes
`key[letterIndex]`, every other character stays. -/
def substituteSpec (key text : List Char) : List Char :=
  text.map fun c => if isalpha c then key.getD (letterIndex c) 'A' else c

/-- The Caesar key of a rotation amount: `key[i]` is the letter of index
`(i + amount) mod 26`. -/
def caesarKey (amount : Nat) : List Char :=
  (List.range 26).map fun i => letter ((i + amount) % 26)

/-- The inverse of a key: the 26 entry key that sends the letter `K[i]` back to
the `i`-th letter of the alphabet. -/
def inverseKey (K : List Char) : List Char :=
  (List.range 26).map fun j => letter (K.indexOf (letter j))

/-- The whitespace-separated tokens of a text: the non-empty pieces between
whitespace characters. -/
def tokens (text : List Char) : List (List Char) :=
  (text.splitOnP isspace).filter fun w => decide (w ≠ [])

/-- The words of a ciphertext: its tokens, each cleaned. -/
def cleanedWords (text : List Char) : List (List Char) :=
  (tokens text).map cleanSpec

/-- The words of a ciphertext rotated by `i`. -/
def rotatedWords (text : List Char) (i : Nat) : List (List Char) :=
  (cleanedWords text).map fun w => rotateSpec w (i : Int)

/-- How many of the words are equal to some dictionary entry. -/
def matchCount (dict words : List (List Char)) : Nat :=
  words.countP fun w => decide (w ∈ dict)

/-- Rotation `i` qualifies: strictly more than `wordCount / 2` rotated words
are dictionary entries. -/
def qualifies (dict : List (List Char)) (text : List Char) (i : Nat) : Bool :=
  decide (matchCount dict (rotatedWords text i) > (cleanedWords text).length / 2)

/-- The candidate texts of a ciphertext: for each qualifying rotation in
increasing order, the rotated words joined by single spaces. -/
def candidates (dict : List (List Char)) (text : List Char) : List (List Char) :=
  ((List.range 26).filter (qualifies dict text)).map
    fun i => [' '].intercalate (rotatedWords text i)

/-- The composition `rot(rot(T, a), b)`: the second call runs on what the first one returned. -/
def rotTwice (T : List Char) (a b : Int) : Except Fault (List Char) :=
  rot T a >>= fun s => rot s b

/-- The composition `applySubstCipher(K2, applySubstCipher(K1, T))`. -/
def applySubstCipherTwice (K1 K2 T : List Char) : Except Fault (List Char) :=
  applySubstCipher K1 T >>= fun s => applySubstCipher K2 s

/-- The overlapping windows of 4 letters of a cleaned text at stride 1: the
window at `i` is `c[i .. i+3]`, for `i = 0 .. n - 4`. -/
def quadgrams (c : List Char) : List (List Char) :=
  (List.range (c.length - 3)).map fun i => (c.drop i).take 4

/-- The specification of `scoreText`: the floor `-1000.0` for a cleaned text of
fewer than 4 letters, otherwise the sum, from `0.0` and in window order, of
the scores of the windows of the cleaned text. -/
def scoreSpec {D : Type} [DoubleArith D] (getScore : List Char → D) (text : List Char) : D :=
  if (cleanSpec text).length < 4 then DoubleArith.negThousand
  else ((quadgrams (cleanSpec text)).map getScore).foldl DoubleArith.add DoubleArith.zero

/-! ## Substitution decryption: the hill climb (`decryptSubstCipher`)

`utils.h` is not among the sources. Its random source enters as a parameter:
a type `G` of generator states and, for each call, the value returned together
with the generator state after the call. -/

/-- The comparison and the constant on `double` that the hill climb uses, kept
abstract like the arithmetic. -/
class DoubleOrder (D : Type) extends DoubleArith D where
  /-- The comparison `a > b`. -/
  gt : D → D → Bool
  /-- The constant `-INFINITY`. -/
  negInfinity : D

/-- The two facts about `>` on doubles that the theorems use. The comparison of
IEEE doubles has both, also in the presence of NaN and of infinities. -/
structure GtLaws (D : Type) [DoubleOrder D] : Prop where
  irrefl : ∀ a : D, DoubleOrder.gt a a = false
  trans : ∀ a b c : D, DoubleOrder.gt a b = true → DoubleOrder.gt b c = true →
    DoubleOrder.gt a c = true

/-- The random source of `utils.h` as a parameter: `Random::randInt(max)` and
`genRandomSubstCipher()`, each returning its value and the generator state
after the call. -/
structure RandomSource (G : Type) where
  randInt : G → Int → Int × G
  genRandomSubstCipher : G → List Char × G

/-- The call `swap(newCipherKey[pos1], newCipherKey[pos2])` (line 457): the accesses
are unchecked, so a position outside the vector is undefined behaviour. -/
def swapAt (key : List Char) (pos1 pos2 : Int) : Except Fault (List Char) :=
  if 0 ≤ pos1 ∧ pos1 < key.length ∧ 0 ≤ pos2 ∧ pos2 < key.length then
    .ok ((key.set pos1.toNat (key.getD pos2.toNat 'A')).set pos2.toNat
      (key.getD pos1.toNat 'A'))
  else .error .undefined_behaviour

/-- The `do ... while` loop of lines 453-455: draw `random_letter_pos2` until it
differs from `random_letter_pos1`. The loop has no bound of its own; `fuel`
bounds the number of draws and `none` means that all of them were equal to
`pos1`. -/
def drawSecondPos {G : Type} (R : RandomSource G) (pos1 : Int) : Nat → G → Option (Int × G)
  | 0, _ => none
  | fuel + 1, g =>
    let d := R.randInt g 25
    if d.1 = pos1 then drawSecondPos R pos1 fuel d.2 else some d

/-- The record of one trial of the climb: the key and score that were the best
when it started, the two positions, the candidate key and its score, and
whether the candidate was accepted. The records are not in the source; the
model keeps them to state what happened during a climb. -/
structure Trial (D : Type) where
  current : List Char
  currentScore : D
  pos1 : Int
  pos2 : Int
  candidate : List Char
  candidateScore : D
  accepted : Bool

/-- The locals of `decryptSubstCipher` during the loop (`bestCipherKey`,
`bestScore`, `trials`), the generator state, and the records of the trials
made so far, oldest first. -/
structure ClimbState (D G : Type) where
  bestCipherKey : List Char
  bestScore : D
  trials : Nat
  rng : G
  history : List (Trial D)

/-- The body of the `while` loop of `decryptSubstCipher` once the two positions
are drawn (lines 449, 457-468); `g` is the generator state after the draws. -/
def climbTrial {D G : Type} [DoubleOrder D] (getScore : List Char → D)
    (ciphertext : List Char) (st : ClimbState D G) (pos1 pos2 : Int) (g : G) :
    Except Fault (ClimbState D G) := do
  let newCipherKey ← swapAt st.bestCipherKey pos1 pos2
  let newDescryption ← applySubstCipher newCipherKey ciphertext
  let newScore ← scoreString getScore newDescryption
  if DoubleOrder.gt newScore st.bestScore then
    pure { bestCipherKey := newCipherKey, bestScore := newScore, trials := 0, rng := g,
           history := st.history ++ [⟨st.bestCipherKey, st.bestScore, pos1, pos2,
             newCipherKey, newScore, true⟩] }
  else
    pure { bestCipherKey := st.bestCipherKey, bestScore := st.bestScore,
           trials := st.trials + 1, rng := g,
           history := st.history ++ [⟨st.bestCipherKey, st.bestScore, pos1, pos2,
             newCipherKey, newScore, false⟩] }

/-- The `while (trials < 1000)` loop of `decryptSubstCipher` (lines 448-469). The
loop has no bound of its own; `fuel` bounds the number of passes (and the draws
of each pass), and `none` means that the fuel ran out before the loop ended. -/
def climbLoop {D G : Type} [DoubleOrder D] (R : RandomSource G) (getScore : List Char → D)
    (ciphertext : List Char) : Nat → ClimbState D G → Option (Except Fault (ClimbState D G))
  | 0, _ => none
  | fuel + 1, st =>
    if st.trials < 1000 then
      let d1 := R.randInt st.rng 25
      match drawSecondPos R d1.1 fuel d1.2 with
      | none => none
      | some d2 =>
        match climbTrial getScore ciphertext st d1.1 d2.1 d2.2 with
        | .error e => some (.error e)
        | .ok st' => climbLoop R getScore ciphertext fuel st'
    else some (.ok st)

/-- The state of the climb when the loop is entered (lines 443-447), from the
generator state `g` at the call. -/
def climbStart {D G : Type} [DoubleOrder D] (R : RandomSource G) (getScore : List Char → D)
    (ciphertext : List Char) (g : G) : Except Fault (ClimbState D G) := do
  let k := R.genRandomSubstCipher g
  let bestDescryption ← applySubstCipher k.1 ciphertext
  let bestScore ← scoreString getScore bestDescryption
  pure { bestCipherKey := k.1, bestScore := bestScore, trials := 0, rng := k.2,
         history := [] }

/-- The function `vector<char> decryptSubstCipher(const QuadgramScorer& scorer, const
string& ciphertext)` (lines 433-472), called with the generator in state `g`.
The result is the state at the `return`: the returned vector is its
`bestCipherKey` and the generator is left in its `rng`. -/
def decryptSubstCipher {D G : Type} [DoubleOrder D] (R : RandomSource G)
    (getScore : List Char → D) (fuel : Nat) (ciphertext : List Char) (g : G) :
    Option (Except Fault (ClimbState D G)) :=
  match climbStart R getScore ciphertext g with
  | .error e => some (.error e)
  | .ok st => climbLoop R getScore ciphertext fuel st

/-! ## Substitution decryption: the restarts (`decryptSubstCipherCommand`) -/

/-- The record of one of the runs of the command: the generator state it
started from, the state its climb returned, and the decryption and score of
the returned key. As for `Trial`, the records are not in the source. -/
structure Run (D G : Type) where
  start : G
  climb : ClimbState D G
  descryption : List Char
  score : D

/-- The locals of `decryptSubstCipherCommand` during the loop (`bestCipherKey`,
`bestDescryption`, `bestScore`), the generator state, and the records of the
runs made so far, oldest first. -/
structure CommandState (D G : Type) where
  bestCipherKey : List Char
  bestDescryption : List Char
  bestScore : D
  rng : G
  runs : List (Run D G)

/-- One pass of the loop of `decryptSubstCipherCommand` (lines 488-503). -/
def commandPass {D G : Type} [DoubleOrder D] (R : RandomSource G) (getScore : List Char → D)
    (fuel : Nat) (text : List Char) (st : CommandState D G) :
    Option (Except Fault (CommandState D G)) :=
  match decryptSubstCipher R getScore fuel text st.rng with
  | none => none
  | some (.error e) => some (.error e)
  | some (.ok c) =>
    match applySubstCipher c.bestCipherKey text with
    | .error e => some (.error e)
    | .ok descryption =>
      match scoreString getScore descryption with
      | .error e => some (.error e)
      | .ok score =>
        if DoubleOrder.gt score st.bestScore then
          some (.ok { bestCipherKey := c.bestCipherKey, bestDescryption := descryption,
                      bestScore := score, rng := c.rng,
                      runs := st.runs ++ [⟨st.rng, c, descryption, score⟩] })
        else
          some (.ok { bestCipherKey := st.bestCipherKey,
                      bestDescryption := st.bestDescryption, bestScore := st.bestScore,
                      rng := c.rng,
                      runs := st.runs ++ [⟨st.rng, c, descryption, score⟩] })

/-- The loop `for (int i = 0; i < 25; i++)` of the command, with the number of
passes still to make as its first argument. -/
def commandLoop {D G : Type} [DoubleOrder D] (R : RandomSource G) (getScore : List Char → D)
    (fuel : Nat) (text : List Char) :
    Nat → CommandState D G → Option (Except Fault (CommandState D G))
  | 0, st => some (.ok st)
  | n + 1, st =>
    match commandPass R getScore fuel text st with
    | none => none
    | some (.error e) => some (.error e)
    | some (.ok st') => commandLoop R getScore fuel text n st'

/-- The function `void decryptSubstCipherCommand(const QuadgramScorer& scorer)` (lines
477-507) as a function of the line `text` read from `cin` and of the generator
state `g`; the line written to `cout` is the `bestDescryption` of the result.
The loop of `decryptSubstCipherFileCommand` (lines 534-554) is the same, run
on the contents of the file. `fuel` is the fuel given to each climb. -/
def decryptSubstCipherCommand {D G : Type} [DoubleOrder D] (R : RandomSource G)
    (getScore : List Char → D) (fuel : Nat) (text : List Char) (g : G) :
    Option (Except Fault (CommandState D G)) :=
  commandLoop R getScore fuel text 25
    { bestCipherKey := [], bestDescryption := [], bestScore := DoubleOrder.negInfinity,
      rng := g, runs := [] }

/-- Doubles read as integers, with `-INFINITY` read as an integer below every
score of the examples. -/
instance instDoubleOrderInt : DoubleOrder Int where
  gt := fun a b => decide (b < a)
  negInfinity := -1000000000000

/-- A random source for examples: the generator state is a counter `g`,
`randInt` returns `g mod 26` and `genRandomSubstCipher` returns the alphabet. -/
def counterSource : RandomSource Nat where
  randInt := fun g _ => (((g % 26 : Nat) : Int), g + 1)
  genRandomSubstCipher := fun g => (ALPHABET, g)
/-- The key `key` with the symbols at positions `i` and `j` exchanged. -/
def swapSpec (key : List Char) (i j : Nat) : List Char :=
  (key.set i (key.getD j 'A')).set j (key.getD i 'A')

/-- The score of the decryption of a ciphertext with a key: the score the
specification gives to `substitute(key, ciphertext)`. -/
def scoreOf {D : Type} [DoubleArith D] (getScore : List Char → D) (ciphertext key : List Char) :
    D :=
  scoreSpec getScore (substituteSpec key ciphertext)

/-- The best key and score after a sequence of trials, from the best key and
score before it: an accepted trial replaces both by its candidate, a rejected
trial changes neither. -/
def bestAfter {D : Type} (b : List Char × D) (history : List (Trial D)) : List Char × D :=
  history.foldl (fun b t => if t.accepted then (t.candidate, t.candidateScore) else b) b

/-- The scores of the accepted candidates, in the order of acceptance. -/
def acceptedScores {D : Type} (history : List (Trial D)) : List D :=
  (history.filter fun t => t.accepted).map fun t => t.candidateScore

/-- The number of rejected trials at the end of a sequence of trials: the
consecutive non-improving trials. -/
def stall {D : Type} (history : List (Trial D)) : Nat :=
  (history.reverse.takeWhile fun t => !t.accepted).length
/-- What holds of the record of a trial of a climb that started from the key
`K0`: the current key and the candidate are permutations of `K0`, the two
positions are inside the key and distinct, the candidate is the current key
with the symbols at the two positions exchanged, the two scores are the scores
of the decryptions with the two keys, and the candidate was accepted exactly
when its score is greater. -/
structure TrialOk {D : Type} [DoubleOrder D] (getScore : List Char → D)
    (ciphertext K0 : List Char) (t : Trial D) : Prop where
  current_perm : t.current.Perm K0
  currentScore_eq : t.currentScore = scoreOf getScore ciphertext t.current
  pos1_range : 0 ≤ t.pos1 ∧ t.pos1 < K0.length
  pos2_range : 0 ≤ t.pos2 ∧ t.pos2 < K0.length
  pos_ne : t.pos1 ≠ t.pos2
  candidate_eq : t.candidate = swapSpec t.current t.pos1.toNat t.pos2.toNat
  candidate_perm : t.candidate.Perm K0
  candidateScore_eq : t.candidateScore = scoreOf getScore ciphertext t.candidate
  accepted_eq : t.accepted = DoubleOrder.gt t.candidateScore t.currentScore

/-- The invariant of the loop of a climb that started from the key `K0` with
score `s0`. -/
structure ClimbInv {D G : Type} [DoubleOrder D] (getScore : List Char → D)
    (ciphertext K0 : List Char) (s0 : D) (st : ClimbState D G) : Prop where
  key_perm : st.bestCipherKey.Perm K0
  score_eq : st.bestScore = scoreOf getScore ciphertext st.bestCipherKey
  best_eq : (st.bestCipherKey, st.bestScore) = bestAfter (K0, s0) st.history
  trials_ok : ∀ t ∈ st.history, TrialOk getScore ciphertext K0 t
  linked : ∀ (n : Nat) (h : n < st.history.length),
    (st.history[n].current, st.history[n].currentScore)
      = bestAfter (K0, s0) (st.history.take n)
  trials_eq : st.trials = stall st.history
  trials_le : st.trials ≤ 1000
  no_early_stall : ∀ n, n < st.history.length → stall (st.history.take n) < 1000
  count : st.history.length ≤ 1000 * (acceptedScores st.history).length + st.trials
  chain : List.Chain' (fun a b => DoubleOrder.gt b a = true)
    (s0 :: acceptedScores st.history)
  last : (s0 :: acceptedScores st.history).getLast? = some st.bestScore

/-- The number of keys, among the permutations of `K0`, whose decryption scores
more than `s`. -/
def betterKeys {D : Type} [DoubleOrder D] (getScore : List Char → D)
    (ciphertext K0 : List Char) (s : D) : Nat :=
  K0.permutations.countP fun k => DoubleOrder.gt (scoreOf getScore ciphertext k) s
/-- The key a climb called in generator state `g` starts from. -/
def initialKey {G : Type} (R : RandomSource G) (g : G) : List Char :=
  (R.genRandomSubstCipher g).1

/-- The random source keeps its contract: `randInt(25)` returns a value in
`[0, 25]` and `genRandomSubstCipher` returns a key of 26 entries. -/
def InRange {G : Type} (R : RandomSource G) : Prop :=
  (∀ g, 0 ≤ (R.randInt g 25).1 ∧ (R.randInt g 25).1 ≤ 25)
    ∧ ∀ g, (R.genRandomSubstCipher g).1.length = 26

/-- Each reject-and-retry for a distinct second position eventually succeeds:
from every generator state and for every first position some number of draws
yields a different position. -/
def RetrySucceeds {G : Type} (R : RandomSource G) : Prop :=
  ∀ (g : G) (pos1 : Int), ∃ fuel d, drawSecondPos R pos1 fuel g = some d
/-- The generator state after a sequence of runs that started in state `g`. -/
def rngAfter {D G : Type} (g : G) (runs : List (Run D G)) : G :=
  (runs.getLast?.map fun r => r.climb.rng).getD g

/-- The scores are finite on a ciphertext: the score of its decryption with
whatever key is greater than `-INFINITY` (so it is neither `-INFINITY` nor
NaN). -/
def FiniteScores {D : Type} [DoubleOrder D] (getScore : List Char → D) (text : List Char) :
    Prop :=
  ∀ key, DoubleOrder.gt (scoreOf getScore text key) DoubleOrder.negInfinity = true

/-- What holds of the record of a run of the command on `text` with the given
fuel: the climb called in the state `start` returned the state `climb`, and
the decryption and the score are those of the returned key. -/
structure RunOk {D G : Type} [DoubleOrder D] (R : RandomSource G) (getScore : List Char → D)
    (fuel : Nat) (text : List Char) (r : Run D G) : Prop where
  climb_eq : decryptSubstCipher R getScore fuel text r.start = some (.ok r.climb)
  descryption_eq : applySubstCipher r.climb.bestCipherKey text = .ok r.descryption
  score_eq : scoreString getScore r.descryption = .ok r.score

/-- The invariant of the loop of the command started in generator state `g`. -/
structure CommandInv {D G : Type} [DoubleOrder D] (R : RandomSource G)
    (getScore : List Char → D) (fuel : Nat) (text : List Char) (g : G)
    (st : CommandState D G) : Prop where
  rng_eq : st.rng = rngAfter g st.runs
  runs_ok : ∀ r ∈ st.runs, RunOk R getScore fuel text r
  linked : ∀ (n : Nat) (h : n < st.runs.length),
    st.runs[n].start = rngAfter g (st.runs.take n)
  best : (st.bestCipherKey = [] ∧ st.bestDescryption = []
        ∧ st.bestScore = DoubleOrder.negInfinity
        ∧ ∀ r ∈ st.runs, DoubleOrder.gt r.score DoubleOrder.negInfinity = false)
    ∨ ∃ (j : Nat) (hj : j < st.runs.length),
        st.bestCipherKey = st.runs[j].climb.bestCipherKey
          ∧ st.bestDescryption = st.runs[j].descryption
          ∧ st.bestScore = st.runs[j].score
          ∧ (∀ r ∈ st.runs, DoubleOrder.gt r.score st.runs[j].score = false)
          ∧ ∀ (i : Nat) (hi : i < st.runs.length), i < j →
              st.runs[i].score ≠ st.runs[j].score

/-- Two random sources see the same sequence of draws from related generator
states: each call returns the same value from both and leaves them in related
states. -/
structure SameDraws {G1 G2 : Type} (R1 : RandomSource G1) (R2 : RandomSource G2)
    (sim : G1 → G2 → Prop) : Prop where
  randInt_eq : ∀ g1 g2 m, sim g1 g2 →
    (R1.randInt g1 m).1 = (R2.randInt g2 m).1 ∧ sim (R1.randInt g1 m).2 (R2.randInt g2 m).2
  gen_eq : ∀ g1 g2, sim g1 g2 →
    (R1.genRandomSubstCipher g1).1 = (R2.genRandomSubstCipher g2).1
      ∧ sim (R1.genRandomSubstCipher g1).2 (R2.genRandomSubstCipher g2).2

/-- Two states of a climb agree on everything but the generator state, and
their generator states are related. -/
def SameClimb {D G1 G2 : Type} (sim : G1 → G2 → Prop) (a : ClimbState D G1)
    (b : ClimbState D G2) : Prop :=
  a.bestCipherKey = b.bestCipherKey ∧ a.bestScore = b.bestScore ∧ a.trials = b.trials
    ∧ a.history = b.history ∧ sim a.rng b.rng

/-- Two states of the command agree on the best key, decryption and score and
on the key, decryption and score of every run, and their generator states are
related. -/
def SameCommand {D G1 G2 : Type} (sim : G1 → G2 → Prop) (a : CommandState D G1)
    (b : CommandState D G2) : Prop :=
  a.bestCipherKey = b.bestCipherKey ∧ a.bestDescryption = b.bestDescryption
    ∧ a.bestScore = b.bestScore
    ∧ a.runs.map (fun r => (r.climb.bestCipherKey, r.descryption, r.score))
        = b.runs.map (fun r => (r.climb.bestCipherKey, r.descryption, r.score))
    ∧ sim a.rng b.rng

/-- Two outcomes of a run are the same: both out of fuel, both the same fault,
or both a state, the two states being related. -/
def SameOutcome {α β : Type} (rel : α → β → Prop) :
    Option (Except Fault α) → Option (Except Fault β) → Prop
  | none, none => True
  | some (.error e), some (.error e') => e = e'
  | some (.ok a), some (.ok b) => rel a b
  | _, _ => False

/-- A second random source for examples, with 26 generator states: `randInt`
returns the state and steps to the next state cyclically. From the state
`g mod 26` it sees the draws that `counterSource` sees from `g`. -/
def cyclicSource : RandomSource (Fin 26) where
  randInt := fun g _ => ((g.val : Int), g + 1)
  genRandomSubstCipher := fun g => (ALPHABET, g)

/-! ## Helper lemmas: the `Except` monad -/

@[simp] theorem ok_bind {ε α β : Type} (a : α) (f : α → Except ε β) :
    ((Except.ok a : Except ε α) >>= f) = f a := rfl

@[simp] theorem error_bind {ε α β : Type} (e : ε) (f : α → Except ε β) :
    ((Except.error e : Except ε α) >>= f) = Except.error e := rfl

@[simp] theorem pure_eq_ok {ε α : Type} (a : α) : (pure a : Except ε α) = Except.ok a := rfl

/-! ## Helper lemmas: characters -/

theorem ofNat_upper (n : Nat) (h1 : 65 ≤ n) (h2 : n ≤ 90) :
    Char.ofNat n = letter (n - 65) := by
  interval_cases n <;> rfl

/-- Every letter is the upper case or the lower case form of some `letter k`. -/
theorem isalpha_cases {c : Char} (h : isalpha c = true) :
    ∃ k, k < 26 ∧ (c = letter k ∨ c = Char.ofNat (97 + k)) := by
  simp only [isalpha, Bool.or_eq_true, Bool.and_eq_true, decide_eq_true_eq] at h
  rcases h with ⟨h1, h2⟩ | ⟨h1, h2⟩
  · refine ⟨c.toNat - 65, by omega, Or.inl ?_⟩
    rw [← ofNat_upper _ h1 h2, Char.ofNat_toNat]
  · refine ⟨c.toNat - 97, by omega, Or.inr ?_⟩
    have : 97 + (c.toNat - 97) = c.toNat := by omega
    rw [this, Char.ofNat_toNat]

theorem isUpperLetter_cases {c : Char} (h : isUpperLetter c = true) :
    ∃ k, k < 26 ∧ c = letter k := by
  simp only [isUpperLetter, Bool.and_eq_true, decide_eq_true_eq] at h
  refine ⟨c.toNat - 65, by omega, ?_⟩
  rw [← ofNat_upper _ h.1 h.2, Char.ofNat_toNat]

theorem toupper_letter_fin : ∀ k : Fin 26, toupper (letter k) = letter k := by decide

theorem toupper_lower_fin : ∀ k : Fin 26, toupper (Char.ofNat (97 + k)) = letter k := by
  decide

theorem toNat_letter_fin : ∀ k : Fin 26, (letter k).toNat = 65 + k := by decide

theorem find_letter_fin : ∀ k : Fin 26, ALPHABET_find (letter k) = (k : Nat) := by decide

theorem isalpha_letter_fin : ∀ k : Fin 26, isalpha (letter k) = true := by decide

theorem letter_of_ge {k : Nat} (h : 26 ≤ k) : letter k = 'A' := by
  have hl : ALPHABET.length = 26 := by decide
  simp only [letter, List.getD_eq_getElem?_getD]
  rw [List.getElem?_eq_none (by omega)]
  rfl

theorem toupper_letter {k : Nat} (h : k < 26) : toupper (letter k) = letter k :=
  toupper_letter_fin ⟨k, h⟩

theorem toNat_letter {k : Nat} (h : k < 26) : (letter k).toNat = 65 + k :=
  toNat_letter_fin ⟨k, h⟩

theorem find_letter {k : Nat} (h : k < 26) : ALPHABET_find (letter k) = (k : Int) :=
  find_letter_fin ⟨k, h⟩

/-- Also past the alphabet `letter` is an uppercase letter: it is `A` there. -/
theorem isalpha_letter (k : Nat) : isalpha (letter k) = true := by
  by_cases h : k < 26
  · exact isalpha_letter_fin ⟨k, h⟩
  · rw [letter_of_ge (by omega)]; decide

theorem letterIndex_letter {k : Nat} (h : k < 26) : letterIndex (letter k) = k := by
  simp only [letterIndex, toupper_letter h, toNat_letter h]
  omega

/-- The uppercased form of a letter is the letter of its index, and the index
is below 26. -/
theorem toupper_eq_letter {c : Char} (h : isalpha c = true) :
    toupper c = letter (letterIndex c) ∧ letterIndex c < 26 := by
  obtain ⟨k, hk, rfl | rfl⟩ := isalpha_cases h
  · rw [letterIndex_letter hk, toupper_letter hk]
    exact ⟨rfl, hk⟩
  · have h1 := toupper_lower_fin ⟨k, hk⟩
    have h2 := toNat_letter hk
    simp only at h1
    simp only [letterIndex, h1, h2]
    constructor
    · congr 1; omega
    · omega

theorem clean_eq_cleanSpec (s : List Char) : clean s = cleanSpec s := by
  induction s with
  | nil => rfl
  | cons c s ih =>
    by_cases hc : isalpha c = true
    · simp [clean, cleanSpec, hc, ih, List.filter_cons]
    · simp [clean, cleanSpec, hc, ih, List.filter_cons]

/-! ## Helper lemmas: rotation -/

theorem ALPHABET_at_ok {pos : Int} (h0 : 0 ≤ pos) (h1 : pos < 26) :
    ALPHABET_at pos = .ok (letter pos.toNat) := by
  have : pos < (ALPHABET.length : Int) := by
    have : ALPHABET.length = 26 := by decide
    rw [this]; exact h1
  simp [ALPHABET_at, h0, this, letter]

/-- What `rot(char, int)` returns on the letter of index `k` for an amount
that is not negative and does not overflow. -/
theorem rotChar_letter {k : Nat} (hk : k < 26) {amount : Int}
    (h0 : 0 ≤ amount) (hmax : (k : Int) + amount ≤ INT_MAX) :
    rotChar (letter k) amount = .ok (letter (((k : Int) + amount) % 26).toNat) := by
  have hmin : ¬ ((k : Int) + amount < INT_MIN) := by
    simp only [INT_MIN]; omega
  have hmax2 : ¬ (INT_MAX < (k : Int) + amount) := by omega
  have hnn : (0 : Int) ≤ (k : Int) + amount := by omega
  simp only [rotChar, find_letter hk, hmin, hmax2, or_self, if_false]
  rw [Int.tmod_eq_emod hnn (by decide)]
  exact ALPHABET_at_ok (Int.emod_nonneg _ (by decide)) (Int.emod_lt_of_pos _ (by decide))

theorem rotChar_toupper {c : Char} (hc : isalpha c = true) {amount : Int}
    (h0 : 0 ≤ amount) (hmax : (letterIndex c : Int) + amount ≤ INT_MAX) :
    rotChar (toupper c) amount
      = .ok (letter (((letterIndex c : Int) + amount) % 26).toNat) := by
  obtain ⟨hu, hlt⟩ := toupper_eq_letter hc
  rw [hu]
  exact rotChar_letter hlt h0 hmax

/-- For an amount that is not negative and does not overflow, `rot` returns
what the specification of `rotate` says. -/
theorem rot_eq_rotateSpec (text : List Char) (amount : Int) (h0 : 0 ≤ amount)
    (hmax : ∀ c ∈ text, isalpha c = true → (letterIndex c : Int) + amount ≤ INT_MAX) :
    rot text amount = .ok (rotateSpec text amount) := by
  induction text with
  | nil => rfl
  | cons c cs ih =>
    have ih2 := ih (fun d hd => hmax d (List.mem_cons_of_mem _ hd))
    by_cases hc : isalpha c = true
    · have := rotChar_toupper hc h0 (hmax c (List.mem_cons_self _ _) hc)
      simp [rot, rotateSpec, hc, this, ih2]
    · by_cases hs : isspace c = true
      · simp [rot, rotateSpec, hc, hs, ih2]
      · simp [rot, rotateSpec, hc, hs, ih2]

/-- An amount below `INT_MAX - 25` overflows on no letter. -/
theorem no_overflow_of_le (text : List Char) {amount : Int} (h : amount ≤ INT_MAX - 25) :
    ∀ c ∈ text, isalpha c = true → (letterIndex c : Int) + amount ≤ INT_MAX := by
  intro c _ hc
  have := (toupper_eq_letter hc).2
  omega

theorem rotateSpec_append (s t : List Char) (amount : Int) :
    rotateSpec (s ++ t) amount = rotateSpec s amount ++ rotateSpec t amount := by
  simp [rotateSpec, List.filterMap_append]

/-- Rotating twice, on the specification side. -/
theorem rotateSpec_rotateSpec (text : List Char) (a b : Int) :
    rotateSpec (rotateSpec text a) b = rotateSpec text ((a + b) % 26) := by
  induction text with
  | nil => rfl
  | cons c cs ih =>
    have hcons : ∀ (d : Char) (l : List Char) (m : Int),
        rotateSpec (d :: l) m = rotateSpec [d] m ++ rotateSpec l m :=
      fun d l m => rotateSpec_append [d] l m
    rw [hcons c cs a, rotateSpec_append, ih, hcons c cs ((a + b) % 26)]
    congr 1
    by_cases hc : isalpha c = true
    · have hlt : (((letterIndex c : Int) + a) % 26).toNat < 26 := by omega
      simp only [rotateSpec, List.filterMap_cons, hc, if_true, List.filterMap_nil,
        isalpha_letter, letterIndex_letter hlt]
      congr 2
      omega
    · by_cases hs : isspace c = true
      · simp [rotateSpec, hc, hs]
      · simp [rotateSpec, hc, hs]

/-- Composition of two rotations by amounts that are not negative and do not
overflow: the part of the composition law the code satisfies. -/
theorem rotTwice_nonneg (T : List Char) (a b : Int) (ha : 0 ≤ a) (hb : 0 ≤ b)
    (ha2 : a ≤ INT_MAX - 25) (hb2 : b ≤ INT_MAX - 25) :
    rotTwice T a b = rot T ((a + b) % 26) := by
  have h26 : (a + b) % 26 ≤ INT_MAX - 25 := by
    simp only [INT_MAX]; omega
  rw [rotTwice, rot_eq_rotateSpec T a ha (no_overflow_of_le T ha2), ok_bind,
    rot_eq_rotateSpec _ b hb (no_overflow_of_le _ hb2),
    rot_eq_rotateSpec T _ (Int.emod_nonneg _ (by decide)) (no_overflow_of_le T h26),
    rotateSpec_rotateSpec]

theorem rotateSpec_zero (T : List Char) : rotateSpec T 0 = cleanKeepSpaces T := by
  simp only [rotateSpec, cleanKeepSpaces]
  congr 1
  funext c
  by_cases hc : isalpha c = true
  · obtain ⟨hu, hlt⟩ := toupper_eq_letter hc
    simp only [hc, if_true, hu]
    congr 2
    omega
  · simp [hc]

theorem rotateSpec_twentysix (T : List Char) : rotateSpec T 26 = cleanKeepSpaces T := by
  simp only [rotateSpec, cleanKeepSpaces]
  congr 1
  funext c
  by_cases hc : isalpha c = true
  · obtain ⟨hu, hlt⟩ := toupper_eq_letter hc
    simp only [hc, if_true, hu]
    congr 2
    omega
  · simp [hc]

/-! ## Rotation: the claims -/

/-- C1, evaluated where it fails. For `T = "A"`, `a = -1`, `b = 0` the inner call
`rot("A", -1)` computes `(0 + -1) % 26 = -1` and `ALPHABET.at(-1)` throws
`std::out_of_range`, so `rot(rot(T, a), b)` returns no string, while
`rot(T, (a + b) mod 26) = rot("A", 25)` returns `"Z"`. Reading `mod` as the
`%` of C++ does not help: `rot("A", -1 % 26)` is the same throwing call. -/
theorem rotTwice_negative_amount_throws :
    rotTwice "A".toList (-1) 0 = .error .out_of_range
      ∧ rot "A".toList ((-1 + 0) % 26) = .ok "Z".toList
      ∧ rot "A".toList (Int.tmod (-1 + 0) 26) = .error .out_of_range := by
  decide

/-- C6: for every text and every rotation amount that is not negative and
overflows on none of the letters of the text, `rot(text, amount)` returns the
string got by scanning the text left to right, replacing each letter by the
uppercase letter of index `(index of the uppercased letter + amount) mod 26`,
copying each space (each `isspace` character) and dropping every other
character, the kept characters staying in their order. -/
theorem rot_returns_rotateSpec (text : List Char) (amount : Int) (h0 : 0 ≤ amount)
    (hmax : ∀ c ∈ text, isalpha c = true → (letterIndex c : Int) + amount ≤ INT_MAX) :
    rot text amount = .ok (rotateSpec text amount) :=
  rot_eq_rotateSpec text amount h0 hmax

/-- C6 on `Veni, vidi; vici 44!` rotated by 3. -/
theorem rot_returns_rotateSpec_witness :
    rot "Veni, vidi; vici 44!".toList 3 = .ok "YHQL YLGL YLFL ".toList :=
  rot_returns_rotateSpec "Veni, vidi; vici 44!".toList 3 (by decide) (by decide)

/-- C8: for every text `T`, `rot(T, 0)` and `rot(T, 26)` return the same
string, and it is `T` with every letter uppercased, every space (`isspace`
character) kept and every other character removed. -/
theorem rot_zero_eq_rot_twentysix (T : List Char) :
    rot T 0 = rot T 26 ∧ rot T 0 = .ok (cleanKeepSpaces T) := by
  have h0 : rot T 0 = .ok (cleanKeepSpaces T) := by
    rw [rot_eq_rotateSpec T 0 (by decide) (no_overflow_of_le T (by decide)), rotateSpec_zero]
  have h26 : rot T 26 = .ok (cleanKeepSpaces T) := by
    rw [rot_eq_rotateSpec T 26 (by decide) (no_overflow_of_le T (by decide)),
      rotateSpec_twentysix]
  exact ⟨h0.trans h26.symm, h0⟩

/-! ## Helper lemmas: substitution -/

theorem cipherAt_letterIndex {cipher : List Char} {c : Char} (hc : isalpha c = true)
    (hlen : 26 ≤ cipher.length) :
    cipherAt cipher (((toupper c).toNat : Int) - ('A'.toNat : Int))
      = .ok (cipher.getD (letterIndex c) 'A') := by
  obtain ⟨hu, hlt⟩ := toupper_eq_letter hc
  have hA : ('A'.toNat : Int) = 65 := by decide
  have hpos : ((toupper c).toNat : Int) - ('A'.toNat : Int) = (letterIndex c : Int) := by
    rw [hA, hu, toNat_letter hlt]
    omega
  rw [hpos]
  have h1 : (0 : Int) ≤ (letterIndex c : Int)
      ∧ (letterIndex c : Int) < (cipher.length : Int) := by
    omega
  simp [cipherAt, h1]

/-- With a key of at least 26 entries `applySubstCipher` returns what the
specification of `substitute` says. -/
theorem applySubstCipher_eq_substituteSpec (cipher text : List Char)
    (hlen : 26 ≤ cipher.length) :
    applySubstCipher cipher text = .ok (substituteSpec cipher text) := by
  induction text with
  | nil => rfl
  | cons c cs ih =>
    by_cases hc : isalpha c = true
    · simp only [applySubstCipher, hc, if_true, cipherAt_letterIndex hc hlen, ih, ok_bind,
        pure_eq_ok, substituteSpec, List.map_cons]
    · simp [applySubstCipher, substituteSpec, hc, ih]

theorem caesarKey_length (amount : Nat) : (caesarKey amount).length = 26 := by
  simp [caesarKey]

theorem caesarKey_getD (amount : Nat) {i : Nat} (hi : i < 26) :
    (caesarKey amount).getD i 'A' = letter ((i + amount) % 26) := by
  simp [caesarKey, List.getD_eq_getElem?_getD, List.getElem?_map, List.getElem?_range hi]

theorem inverseKey_length (K : List Char) : (inverseKey K).length = 26 := by
  simp [inverseKey]

theorem inverseKey_getD (K : List Char) {j : Nat} (hj : j < 26) :
    (inverseKey K).getD j 'A' = letter (K.indexOf (letter j)) := by
  simp [inverseKey, List.getD_eq_getElem?_getD, List.getElem?_map, List.getElem?_range hj]

theorem mem_ALPHABET {c : Char} (h : c ∈ ALPHABET) : ∃ k, k < 26 ∧ c = letter k := by
  have hl : ALPHABET.length = 26 := by decide
  obtain ⟨k, hk, rfl⟩ := List.getElem_of_mem h
  refine ⟨k, by omega, ?_⟩
  simp [letter, List.getD_eq_getElem?_getD, List.getElem?_eq_getElem hk]

/-- For a rotation amount below 26 and a text of letters and spaces, the
specification of `rotate` and the specification of `substitute` with the
Caesar key agree. -/
theorem rotateSpec_eq_substituteSpec (amount : Nat) (text : List Char)
    (htext : ∀ c ∈ text, isalpha c = true ∨ isspace c = true) :
    rotateSpec text (amount : Int) = substituteSpec (caesarKey amount) text := by
  induction text with
  | nil => rfl
  | cons c cs ih =>
    have ih2 := ih (fun d hd => htext d (List.mem_cons_of_mem _ hd))
    simp only [rotateSpec, substituteSpec] at ih2
    by_cases hc : isalpha c = true
    · have hlt := (toupper_eq_letter hc).2
      simp only [rotateSpec, substituteSpec, List.filterMap_cons, hc, if_true, List.map_cons,
        caesarKey_getD amount hlt, ih2]
      congr 2
    · have hs : isspace c = true := by
        rcases htext c (List.mem_cons_self _ _) with h | h
        · exact absurd h hc
        · exact h
      simp [rotateSpec, substituteSpec, hc, hs] at ih2 ⊢
      exact ih2

/-- Undoing a permutation key on one uppercase letter. -/
theorem inverseKey_undoes {K : List Char} (hK : K.Perm ALPHABET) {j : Nat} (hj : j < 26) :
    isalpha (K.getD j 'A') = true
      ∧ (inverseKey K).getD (letterIndex (K.getD j 'A')) 'A' = letter j := by
  have hlen : K.length = 26 := by rw [hK.length_eq]; decide
  have hnd : K.Nodup := hK.nodup_iff.mpr (by decide)
  have hjK : j < K.length := by omega
  have hget : K.getD j 'A' = K[j] := by
    simp [List.getD_eq_getElem?_getD, List.getElem?_eq_getElem hjK]
  have hmem : K[j] ∈ ALPHABET := hK.mem_iff.mp (List.getElem_mem hjK)
  obtain ⟨m, hm, hKm⟩ := mem_ALPHABET hmem
  rw [hget, hKm]
  refine ⟨isalpha_letter m, ?_⟩
  rw [letterIndex_letter hm, inverseKey_getD K hm, ← hKm, List.indexOf_getElem hnd j hjK]

/-- Encrypting with a permutation key and then with its inverse, on the
specification side, gives back a text of uppercase letters. -/
theorem substituteSpec_inverseKey {K : List Char} (hK : K.Perm ALPHABET) (T : List Char)
    (hT : ∀ c ∈ T, isUpperLetter c = true) :
    substituteSpec (inverseKey K) (substituteSpec K T) = T := by
  induction T with
  | nil => rfl
  | cons c cs ih =>
    have ih2 := ih (fun d hd => hT d (List.mem_cons_of_mem _ hd))
    obtain ⟨j, hj, rfl⟩ := isUpperLetter_cases (hT c (List.mem_cons_self _ _))
    obtain ⟨h1, h2⟩ := inverseKey_undoes hK hj
    simp only [substituteSpec, List.map_cons, List.map_map] at ih2 ⊢
    simp only [isalpha_letter, if_true, letterIndex_letter hj, h1, h2]
    rw [ih2]

theorem caesarKey_perm_fin : ∀ a : Fin 26, (caesarKey a).Perm ALPHABET := by decide

theorem substituteSpec_length (key text : List Char) :
    (substituteSpec key text).length = text.length := by
  simp [substituteSpec]

/-! ## Substitution: the claims -/

/-- C2: for every key `K` that is a permutation of the 26 letters `A`..`Z` and
every text `T` of uppercase letters only,
`applySubstCipher(inverse(K), applySubstCipher(K, T))` returns `T`, where
`inverse(K)` is the 26 entry key sending the letter `K[i]` back to the `i`-th
letter of the alphabet. -/
theorem applySubstCipher_inverseKey_roundtrip (K T : List Char) (hK : K.Perm ALPHABET)
    (hT : ∀ c ∈ T, isUpperLetter c = true) :
    applySubstCipherTwice K (inverseKey K) T = .ok T := by
  have hlen : K.length = 26 := by rw [hK.length_eq]; decide
  rw [applySubstCipherTwice, applySubstCipher_eq_substituteSpec K T (by omega), ok_bind,
    applySubstCipher_eq_substituteSpec _ _ (by rw [inverseKey_length]),
    substituteSpec_inverseKey hK T hT]

/-- C2 on the keyboard-order key and the text `ATTACKATDAWN`. -/
theorem applySubstCipher_inverseKey_roundtrip_witness :
    applySubstCipherTwice "QWERTYUIOPASDFGHJKLZXCVBNM".toList
      (inverseKey "QWERTYUIOPASDFGHJKLZXCVBNM".toList) "ATTACKATDAWN".toList
      = .ok "ATTACKATDAWN".toList :=
  applySubstCipher_inverseKey_roundtrip "QWERTYUIOPASDFGHJKLZXCVBNM".toList
    "ATTACKATDAWN".toList (by decide) (by decide)

/-- C7: for every 26 entry key and every text, `applySubstCipher(key, text)`
returns a string of the length of the text that holds, at every position,
`key[index of the uppercased letter]` where the text has a letter (of either
case) and the character of the text itself where it has none. -/
theorem applySubstCipher_pointwise (key text : List Char) (hkey : key.length = 26) :
    ∃ out, applySubstCipher key text = .ok out ∧ out.length = text.length ∧
      ∀ (i : Nat) (hi : i < text.length) (ho : i < out.length),
        (isalpha text[i] = true → key[letterIndex text[i]]? = some out[i]) ∧
        (isalpha text[i] = false → out[i] = text[i]) := by
  refine ⟨substituteSpec key text,
    applySubstCipher_eq_substituteSpec key text (by omega),
    substituteSpec_length key text, ?_⟩
  intro i hi ho
  have hget : (substituteSpec key text)[i]
      = if isalpha text[i] then key.getD (letterIndex text[i]) 'A' else text[i] := by
    simp [substituteSpec]
  rw [hget]
  constructor
  · intro hc
    have hlt : letterIndex text[i] < key.length := by
      have := (toupper_eq_letter hc).2
      omega
    simp [hc, List.getD_eq_getElem?_getD, List.getElem?_eq_getElem hlt]
  · intro hc
    simp [hc]

/-- C7 on the keyboard-order key and the text `Hi, Bob!`. -/
theorem applySubstCipher_pointwise_witness :
    ∃ out, applySubstCipher "QWERTYUIOPASDFGHJKLZXCVBNM".toList "Hi, Bob!".toList = .ok out ∧
      out.length = "Hi, Bob!".toList.length ∧
      ∀ (i : Nat) (hi : i < "Hi, Bob!".toList.length) (ho : i < out.length),
        (isalpha "Hi, Bob!".toList[i] = true →
          "QWERTYUIOPASDFGHJKLZXCVBNM".toList[letterIndex "Hi, Bob!".toList[i]]?
            = some out[i]) ∧
        (isalpha "Hi, Bob!".toList[i] = false → out[i] = "Hi, Bob!".toList[i]) :=
  applySubstCipher_pointwise "QWERTYUIOPASDFGHJKLZXCVBNM".toList "Hi, Bob!".toList
    (by decide)

/-- C9: for every rotation amount in `[0, 26)` and every text of letters and
spaces only, `rot(text, amount)` returns the same string as
`applySubstCipher(key, text)` for the key `key[i] = letter of index
(i + amount) mod 26`, and that key is a permutation of the alphabet. -/
theorem rot_eq_applySubstCipher_caesarKey (amount : Nat) (text : List Char)
    (hamount : amount < 26) (htext : ∀ c ∈ text, isalpha c = true ∨ isspace c = true) :
    rot text (amount : Int) = applySubstCipher (caesarKey amount) text
      ∧ (∃ out, rot text (amount : Int) = .ok out)
      ∧ (caesarKey amount).Perm ALPHABET := by
  have hmax : (amount : Int) ≤ INT_MAX - 25 := by
    simp only [INT_MAX]; omega
  have hrot := rot_eq_rotateSpec text (amount : Int) (by omega) (no_overflow_of_le text hmax)
  refine ⟨?_, ⟨_, hrot⟩, caesarKey_perm_fin ⟨amount, hamount⟩⟩
  rw [hrot, applySubstCipher_eq_substituteSpec _ _ (by rw [caesarKey_length]),
    rotateSpec_eq_substituteSpec amount text htext]

/-- C9 on the amount 3 and the text `Meet me at NOON`. -/
theorem rot_eq_applySubstCipher_caesarKey_witness :
    rot "Meet me at NOON".toList ((3 : Nat) : Int)
        = applySubstCipher (caesarKey 3) "Meet me at NOON".toList
      ∧ (∃ out, rot "Meet me at NOON".toList ((3 : Nat) : Int) = .ok out)
      ∧ (caesarKey 3).Perm ALPHABET :=
  rot_eq_applySubstCipher_caesarKey 3 "Meet me at NOON".toList (by decide) (by decide)

/-! ## Helper lemmas: splitting, joining and counting -/

theorem splitBySpacesLoop_eq (s : List Char) (words : List (List Char)) (cur : List Char) :
    ∀ h t, s.splitOnP isspace = h :: t →
      splitBySpacesLoop s words cur
        = words ++ ((cur ++ h) :: t).filter fun w => decide (w ≠ []) := by
  induction s generalizing words cur with
  | nil =>
    intro h t hs
    rw [List.splitOnP_nil] at hs
    obtain ⟨rfl, rfl⟩ := List.cons.inj hs
    by_cases hcur : cur = []
    · simp [splitBySpacesLoop, hcur]
    · simp [splitBySpacesLoop, hcur, List.filter_cons]
  | cons c s ih =>
    intro h t hs
    obtain ⟨h', t', hs'⟩ : ∃ h' t', s.splitOnP isspace = h' :: t' := by
      cases hL : s.splitOnP isspace with
      | nil => exact absurd hL (List.splitOnP_ne_nil _ _)
      | cons a b => exact ⟨a, b, rfl⟩
    rw [List.splitOnP_cons, hs'] at hs
    by_cases hc : isspace c = true
    · rw [if_pos hc] at hs
      obtain ⟨rfl, rfl⟩ := List.cons.inj hs
      by_cases hcur : cur = []
      · have := ih words cur h' t' hs'
        simp [splitBySpacesLoop, hc, hcur] at this ⊢
        rw [this]
      · have := ih (words ++ [cur]) [] h' t' hs'
        simp [splitBySpacesLoop, hc, hcur] at this ⊢
        rw [this]
    · rw [if_neg hc] at hs
      simp only [List.modifyHead_cons] at hs
      obtain ⟨rfl, rfl⟩ := List.cons.inj hs
      have := ih words (cur ++ [c]) h' t' hs'
      simp [splitBySpacesLoop, hc] at this ⊢
      rw [this]

/-- The function `splitBySpaces` returns the whitespace-separated tokens. -/
theorem splitBySpaces_eq_tokens (s : List Char) : splitBySpaces s = tokens s := by
  cases hL : s.splitOnP isspace with
  | nil => exact absurd hL (List.splitOnP_ne_nil _ _)
  | cons h t =>
    rw [splitBySpaces, splitBySpacesLoop_eq s [] [] h t hL, tokens, hL]
    simp

theorem splitOnP_all_space (s : List Char) (hs : ∀ c ∈ s, isspace c = true) :
    ∀ w ∈ s.splitOnP isspace, w = [] := by
  induction s with
  | nil => simp
  | cons c s ih =>
    have ih2 := ih (fun d hd => hs d (List.mem_cons_of_mem _ hd))
    rw [List.splitOnP_cons, if_pos (hs c (List.mem_cons_self _ _))]
    intro w hw
    rcases List.mem_cons.mp hw with rfl | hw
    · rfl
    · exact ih2 w hw

theorem tokens_all_space (s : List Char) (hs : ∀ c ∈ s, isspace c = true) : tokens s = [] := by
  rw [tokens, List.filter_eq_nil_iff]
  intro w hw
  simp [splitOnP_all_space s hs w hw]

theorem intercalate_cons_cons (sep w w2 : List Char) (rest : List (List Char)) :
    sep.intercalate (w :: w2 :: rest) = w ++ sep ++ sep.intercalate (w2 :: rest) := by
  simp [List.intercalate, List.intersperse]

theorem intercalate_singleton (sep w : List Char) : sep.intercalate [w] = w := by
  simp [List.intercalate, List.intersperse]

theorem joinLoop_eq (pre suf : List (List Char)) (result : List Char) :
    (List.range' pre.length suf.length).foldl (joinWithSpacesStep (pre ++ suf)) result
      = result ++ [' '].intercalate suf := by
  induction suf generalizing pre result with
  | nil => simp [List.intercalate]
  | cons w suf ih =>
    have hget : (pre ++ w :: suf).getD pre.length [] = w := by
      simp [List.getD_eq_getElem?_getD, List.getElem?_append_right (Nat.le_refl _)]
    have hstep := ih (pre ++ [w])
    rw [List.append_assoc, List.singleton_append, List.length_append,
      List.length_singleton] at hstep
    rw [List.length_cons, List.range'_succ, List.foldl_cons, hstep]
    simp only [joinWithSpacesStep, hget]
    cases suf with
    | nil => simp [List.intercalate]
    | cons w2 rest =>
      have : pre.length < (pre ++ w :: w2 :: rest).length - 1 := by
        simp only [List.length_append, List.length_cons]; omega
      rw [if_pos this, intercalate_cons_cons]
      simp

/-- The function `joinWithSpaces` joins the words with single spaces. -/
theorem joinWithSpaces_eq_intercalate (words : List (List Char)) :
    joinWithSpaces words = [' '].intercalate words := by
  have := joinLoop_eq [] words []
  simpa [joinWithSpaces, List.range_eq_range'] using this

theorem numWordsInDict_eq (word : List Char) (dict : List (List Char)) (count : Nat) :
    numWordsInDict word dict count = if word ∈ dict then count + 1 else count := by
  induction dict with
  | nil => simp [numWordsInDict]
  | cons d dict ih =>
    by_cases h : word = d
    · simp [numWordsInDict, h]
    · simp [numWordsInDict, h, ih]

theorem numWordsIn_foldl (words dict : List (List Char)) (n : Nat) :
    words.foldl (fun count word => numWordsInDict word dict count) n
      = n + matchCount dict words := by
  induction words generalizing n with
  | nil => simp [matchCount]
  | cons w words ih =>
    rw [List.foldl_cons, ih, numWordsInDict_eq]
    by_cases h : w ∈ dict
    · simp [matchCount, List.countP_cons, h]; omega
    · simp [matchCount, List.countP_cons, h]

/-- The function `numWordsIn` counts the words that are equal to some dictionary entry. -/
theorem numWordsIn_eq_matchCount (words dict : List (List Char)) :
    numWordsIn words dict = matchCount dict words := by
  rw [numWordsIn, numWordsIn_foldl]; omega

/-! ## Helper lemmas: the Caesar breaker -/

theorem rotStrings_eq (words : List (List Char)) (amount : Int) (h0 : 0 ≤ amount)
    (hmax : amount ≤ INT_MAX - 25) :
    rotStrings words amount = .ok (words.map fun w => rotateSpec w amount) := by
  induction words with
  | nil => rfl
  | cons w words ih =>
    simp only [rotStrings, rot_eq_rotateSpec w amount h0 (no_overflow_of_le w hmax), ih,
      ok_bind, pure_eq_ok, List.map_cons]

theorem words_eq_cleanedWords (text : List Char) :
    (splitBySpaces text).map clean = cleanedWords text := by
  rw [splitBySpaces_eq_tokens, cleanedWords]
  congr 1
  funext w
  exact clean_eq_cleanSpec w

/-- One pass of the breaker's loop for a rotation below 26: the candidate is
written and counted exactly when the rotation qualifies. -/
theorem caesarDecryptStep_eq (dict : List (List Char)) (text : List Char)
    (st : List (List Char) × Nat) {i : Nat} (hi : i < 26) :
    caesarDecryptStep dict (cleanedWords text) st i
      = .ok (if qualifies dict text i
          then (st.1 ++ [[' '].intercalate (rotatedWords text i)], st.2 + 1) else st) := by
  have hmax : (i : Int) ≤ INT_MAX - 25 := by
    simp only [INT_MAX]; omega
  have hlen : (rotatedWords text i).length = (cleanedWords text).length := by
    simp [rotatedWords]
  rw [caesarDecryptStep, rotStrings_eq _ _ (by omega) hmax, ok_bind]
  change (if numWordsIn (rotatedWords text i) dict > (rotatedWords text i).length / 2
      then pure (st.1 ++ [joinWithSpaces (rotatedWords text i)], st.2 + 1) else pure st) = _
  rw [numWordsIn_eq_matchCount, joinWithSpaces_eq_intercalate, hlen]
  by_cases hq : matchCount dict (rotatedWords text i) > (cleanedWords text).length / 2
  · simp [qualifies, hq]
  · simp [qualifies, hq]

/-- The breaker's loop over a list of rotations below 26. -/
theorem caesarDecryptLoop_eq (dict : List (List Char)) (text : List Char) (l : List Nat)
    (hl : ∀ i ∈ l, i < 26) (st : List (List Char) × Nat) :
    l.foldlM (caesarDecryptStep dict (cleanedWords text)) st
      = .ok (st.1 ++ (l.filter (qualifies dict text)).map
                (fun i => [' '].intercalate (rotatedWords text i)),
             st.2 + (l.filter (qualifies dict text)).length) := by
  induction l generalizing st with
  | nil => simp
  | cons i l ih =>
    have ih2 := ih (fun j hj => hl j (List.mem_cons_of_mem _ hj))
    rw [List.foldlM_cons, caesarDecryptStep_eq dict text st (hl i (List.mem_cons_self _ _)),
      ok_bind, ih2]
    by_cases hq : qualifies dict text i = true
    · simp [hq, List.filter_cons]
      omega
    · simp [hq, List.filter_cons]

/-- The lines `caesarDecryptCommand` writes: the candidates, and the signal
line when there is no candidate. -/
theorem caesarDecryptCommand_eq (dict : List (List Char)) (text : List Char) :
    caesarDecryptCommand dict text
      = .ok (candidates dict text
          ++ if candidates dict text = [] then [noGoodDecryptions] else []) := by
  rw [caesarDecryptCommand, words_eq_cleanedWords,
    caesarDecryptLoop_eq dict text (List.range 26) (fun i hi => List.mem_range.mp hi) ([], 0),
    ok_bind]
  simp only [List.nil_append, Nat.zero_add, pure_eq_ok]
  by_cases hc : candidates dict text = []
  · have hlen : ((List.range 26).filter (qualifies dict text)).length = 0 := by
      have := congrArg List.length hc
      simpa [candidates] using this
    rw [if_pos hlen, if_pos hc]
    rfl
  · have hlen : ¬ ((List.range 26).filter (qualifies dict text)).length = 0 := by
      intro h
      apply hc
      rw [candidates, List.length_eq_zero.mp h]
      rfl
    rw [if_neg hlen, if_neg hc, List.append_nil]
    rfl

theorem toNat_letter_le (k : Nat) : (letter k).toNat ≤ 90 := by
  by_cases h : k < 26
  · rw [toNat_letter h]; omega
  · rw [letter_of_ge (by omega)]; decide

theorem toNat_le_of_mem_rotateSpec {w : List Char} {amount : Int} {c : Char}
    (h : c ∈ rotateSpec w amount) : c.toNat ≤ 90 := by
  simp only [rotateSpec, List.mem_filterMap] at h
  obtain ⟨d, _, hd⟩ := h
  by_cases hc : isalpha d = true
  · simp only [hc, if_true, Option.some.injEq] at hd
    rw [← hd]
    exact toNat_letter_le _
  · by_cases hs : isspace d = true
    · simp [hc, hs] at hd
      subst hd
      simp only [isspace, Bool.or_eq_true, Bool.and_eq_true, decide_eq_true_eq,
        beq_iff_eq] at hs
      omega
    · simp [hc, hs] at hd

theorem toNat_le_of_mem_intercalate {words : List (List Char)}
    (hw : ∀ w ∈ words, ∀ c ∈ w, c.toNat ≤ 90) {c : Char}
    (h : c ∈ [' '].intercalate words) : c.toNat ≤ 90 := by
  induction words with
  | nil => simp [List.intercalate] at h
  | cons w words ih =>
    cases words with
    | nil =>
      rw [intercalate_singleton] at h
      exact hw w (List.mem_cons_self _ _) c h
    | cons w2 rest =>
      rw [intercalate_cons_cons] at h
      rcases List.mem_append.mp h with h | h
      · rcases List.mem_append.mp h with h | h
        · exact hw w (List.mem_cons_self _ _) c h
        · rw [List.mem_singleton.mp h]; decide
      · exact ih (fun x hx => hw x (List.mem_cons_of_mem _ hx)) h

/-- No candidate text is the signal line: a candidate has no lowercase letter. -/
theorem noGoodDecryptions_not_mem_candidates (dict : List (List Char)) (text : List Char) :
    noGoodDecryptions ∉ candidates dict text := by
  intro h
  simp only [candidates, List.mem_map] at h
  obtain ⟨i, _, hi⟩ := h
  have ho : 'o' ∈ [' '].intercalate (rotatedWords text i) := by
    rw [hi]; decide
  have hle : ('o').toNat ≤ 90 := by
    apply toNat_le_of_mem_intercalate _ ho
    intro w hw c hc
    simp only [rotatedWords, List.mem_map] at hw
    obtain ⟨v, _, rfl⟩ := hw
    exact toNat_le_of_mem_rotateSpec hc
  exact absurd hle (by decide)

theorem candidates_eq_nil_iff (dict : List (List Char)) (text : List Char) :
    candidates dict text = [] ↔ ∀ i, i < 26 → qualifies dict text i = false := by
  simp only [candidates, List.map_eq_nil_iff, List.filter_eq_nil_iff, List.mem_range]
  constructor
  · intro h i hi
    simpa using h i hi
  · intro h i hi
    simp [h i hi]

/-! ## The Caesar breaker: the claims -/

/-- C3: for every ciphertext and every dictionary, the texts the Caesar breaker
writes are exactly the candidates: for each rotation `i` of `0..25`, in
increasing order, for which strictly more than `wordCount / 2` of the rotated
words are dictionary entries, the rotated words joined by single spaces, the
words being the whitespace-separated tokens of the ciphertext, each cleaned.
Every qualifying rotation is written and no other one is; the only other line
is the signal line, written when there is no candidate. -/
theorem caesarDecryptCommand_writes_candidates (dict : List (List Char)) (text : List Char) :
    caesarDecryptCommand dict text
      = .ok (candidates dict text
          ++ if candidates dict text = [] then [noGoodDecryptions] else []) :=
  caesarDecryptCommand_eq dict text

/-- C4, as stated, fails: with dictionary `{HELLO, WORLD}` and ciphertext
`KHOOR ZRUOG`, rotation amount 3 does not qualify. The breaker rotates
forward, so amount 3 yields `NKRRU CUXRJ`, none of whose words is in the
dictionary, and the pass for amount 3 writes nothing. -/
theorem caesar_khoor_amount_three_not_candidate :
    qualifies ["HELLO".toList, "WORLD".toList] "KHOOR ZRUOG".toList 3 = false
      ∧ [' '].intercalate (rotatedWords "KHOOR ZRUOG".toList 3) = "NKRRU CUXRJ".toList
      ∧ rotStrings ["KHOOR".toList, "ZRUOG".toList] 3
          = .ok ["NKRRU".toList, "CUXRJ".toList]
      ∧ numWordsIn ["NKRRU".toList, "CUXRJ".toList] ["HELLO".toList, "WORLD".toList] = 0
      ∧ caesarDecryptStep ["HELLO".toList, "WORLD".toList]
          ["KHOOR".toList, "ZRUOG".toList] ([], 0) 3 = .ok ([], 0) := by
  decide

/-- C4, amended: with dictionary `{HELLO, WORLD}` and ciphertext `KHOOR ZRUOG`
the Caesar breaker writes exactly one line, `HELLO WORLD`. The words are
`KHOOR` and `ZRUOG`; the candidate arises at rotation amount 23 (the forward
rotation that undoes an encryption by 3), where 2 of 2 words match, and 23 is
the only qualifying amount. -/
theorem caesar_khoor_writes_hello_world :
    caesarDecryptCommand ["HELLO".toList, "WORLD".toList] "KHOOR ZRUOG".toList
        = .ok ["HELLO WORLD".toList]
      ∧ (splitBySpaces "KHOOR ZRUOG".toList).map clean = ["KHOOR".toList, "ZRUOG".toList]
      ∧ rotStrings ["KHOOR".toList, "ZRUOG".toList] 23
          = .ok ["HELLO".toList, "WORLD".toList]
      ∧ numWordsIn ["HELLO".toList, "WORLD".toList] ["HELLO".toList, "WORLD".toList] = 2
      ∧ caesarDecryptStep ["HELLO".toList, "WORLD".toList]
          ["KHOOR".toList, "ZRUOG".toList] ([], 0) 23 = .ok (["HELLO WORLD".toList], 1)
      ∧ ∀ i : Fin 26,
          qualifies ["HELLO".toList, "WORLD".toList] "KHOOR ZRUOG".toList i = true
            ↔ i = 23 := by
  decide

/-- C5: for every ciphertext and dictionary the Caesar breaker returns, and it
writes the line `No good decryptions found` if and only if none of the 26
rotations qualifies, that is if and only if there is no candidate text; when
it writes the signal that line is its whole output, so the signal never comes
with a candidate; and it writes the signal for an empty or whitespace-only
ciphertext, where the word count is 0. -/
theorem caesarDecryptCommand_signal_iff (dict : List (List Char)) (text : List Char) :
    ∃ out, caesarDecryptCommand dict text = .ok out
      ∧ (noGoodDecryptions ∈ out ↔ ∀ i, i < 26 → qualifies dict text i = false)
      ∧ (noGoodDecryptions ∈ out ↔ candidates dict text = [])
      ∧ (noGoodDecryptions ∈ out → out = [noGoodDecryptions])
      ∧ (noGoodDecryptions ∉ out → out = candidates dict text)
      ∧ ((∀ c ∈ text, isspace c = true) →
          (cleanedWords text).length = 0 ∧ out = [noGoodDecryptions]) := by
  refine ⟨_, caesarDecryptCommand_eq dict text, ?_⟩
  have hnot := noGoodDecryptions_not_mem_candidates dict text
  have hiff : noGoodDecryptions ∈ (candidates dict text
      ++ if candidates dict text = [] then [noGoodDecryptions] else [])
      ↔ candidates dict text = [] := by
    by_cases hc : candidates dict text = []
    · simp [hc]
    · simp [hc, hnot]
  refine ⟨hiff.trans (candidates_eq_nil_iff dict text), hiff, ?_, ?_, ?_⟩
  · intro h
    have hc := hiff.mp h
    simp [hc]
  · intro h
    have hc : ¬ candidates dict text = [] := fun hc => h (hiff.mpr hc)
    simp [hc]
  · intro hs
    have hw : cleanedWords text = [] := by
      rw [cleanedWords, tokens_all_space text hs]; rfl
    have hc : candidates dict text = [] := by
      rw [candidates_eq_nil_iff]
      intro i _
      simp [qualifies, rotatedWords, matchCount, hw]
    refine ⟨by rw [hw]; rfl, ?_⟩
    simp [hc]

/-! ## Scoring: the claims -/

/-- C10: for every scorer and every text whose cleaned form (letters only,
uppercased) has fewer than 4 letters, the empty text and texts without letters
included, `scoreString` returns exactly `-1000.0` and calls `scorer.getScore`
on nothing. -/
theorem scoreString_short_text {D : Type} [DoubleArith D] (getScore : List Char → D)
    (text : List Char) (h : (cleanSpec text).length < 4) :
    scoreString getScore text = .ok DoubleArith.negThousand
      ∧ scoreStringRun getScore text = .ok (DoubleArith.negThousand, []) := by
  have hrun : scoreStringRun getScore text = .ok (DoubleArith.negThousand, []) := by
    simp only [scoreStringRun, clean_eq_cleanSpec, h, if_true]
  refine ⟨?_, hrun⟩
  rw [scoreString, hrun]
  rfl

/-- C10 on the text `a, b; c!`, whose cleaned form `ABC` has 3 letters. -/
theorem scoreString_short_text_witness :
    scoreString (fun q => (q.length : Int)) "a, b; c!".toList = .ok (-1000)
      ∧ scoreStringRun (fun q => (q.length : Int)) "a, b; c!".toList = .ok (-1000, []) :=
  scoreString_short_text (fun q => (q.length : Int)) "a, b; c!".toList (by decide)

/-! ## Helper lemmas: scoring -/

theorem scoreLoop_eq {D : Type} [DoubleArith D] (getScore : List Char → D) (c : List Char)
    (l : List Nat) (hl : ∀ i ∈ l, i ≤ c.length) (st : D × List (List Char)) :
    l.foldlM (scoreStep getScore c) st
      = .ok ((l.map fun i => getScore ((c.drop i).take 4)).foldl DoubleArith.add st.1,
             st.2 ++ l.map fun i => (c.drop i).take 4) := by
  induction l generalizing st with
  | nil => simp
  | cons i l ih =>
    have hi : ¬ i > c.length := by
      have := hl i (List.mem_cons_self _ _)
      omega
    rw [List.foldlM_cons]
    simp only [scoreStep, substr, hi, if_false, ok_bind, pure_eq_ok]
    rw [ih (fun j hj => hl j (List.mem_cons_of_mem _ hj))]
    simp

/-- The function `scoreString` returns for every scorer and every text: its
value is the specified score and the scorer is called on the windows of the
cleaned text, in order, when there are at least 4 letters, and on nothing
otherwise. -/
theorem scoreStringRun_eq {D : Type} [DoubleArith D] (getScore : List Char → D)
    (s : List Char) :
    scoreStringRun getScore s
      = .ok (scoreSpec getScore s,
             if (cleanSpec s).length < 4 then [] else quadgrams (cleanSpec s)) := by
  by_cases h : (cleanSpec s).length < 4
  · simp only [scoreStringRun, clean_eq_cleanSpec, h, if_true, scoreSpec]
  · have hr : (cleanSpec s).length - 4 + 1 = (cleanSpec s).length - 3 := by omega
    simp only [scoreStringRun, clean_eq_cleanSpec, h, if_false, scoreSpec, hr]
    rw [scoreLoop_eq getScore (cleanSpec s) _ (fun i hi => by
      have := List.mem_range.mp hi
      omega)]
    simp [quadgrams, List.map_map, Function.comp_def]

theorem scoreString_eq {D : Type} [DoubleArith D] (getScore : List Char → D)
    (s : List Char) : scoreString getScore s = .ok (scoreSpec getScore s) := by
  rw [scoreString, scoreStringRun_eq]
  rfl

theorem quadgrams_length (c : List Char) : (quadgrams c).length = c.length - 3 := by
  simp [quadgrams]

theorem quadgrams_getElem (c : List Char) (i : Nat) (h : i < (quadgrams c).length) :
    (quadgrams c)[i] = (c.drop i).take 4 := by
  simp [quadgrams]

theorem length_of_mem_quadgrams {c q : List Char} (h : q ∈ quadgrams c) : q.length = 4 := by
  simp only [quadgrams, List.mem_map, List.mem_range] at h
  obtain ⟨i, hi, rfl⟩ := h
  simp only [List.length_take, List.length_drop]
  omega

/-- C11: for every scorer and every text whose cleaned form `c` (non-letters
stripped, letters uppercased) has length `n >= 4`, `scoreString` returns the
sum, taken from `0.0` in the order `i = 0 .. n-4`, of `scorer.getScore` of
`c[i .. i+3]`; the scorer is called on exactly these `n - 3` windows, each
has 4 letters and lies inside `c`; and two texts with the same cleaned form
get the same score. -/
theorem scoreString_sums_quadgrams {D : Type} [DoubleArith D] (getScore : List Char → D)
    (text : List Char) (h : 4 ≤ (cleanSpec text).length) :
    scoreString getScore text
        = .ok (((quadgrams (cleanSpec text)).map getScore).foldl
            DoubleArith.add DoubleArith.zero)
      ∧ scoreStringRun getScore text
        = .ok (((quadgrams (cleanSpec text)).map getScore).foldl
            DoubleArith.add DoubleArith.zero, quadgrams (cleanSpec text))
      ∧ (quadgrams (cleanSpec text)).length = (cleanSpec text).length - 3
      ∧ (∀ (i : Nat) (hi : i < (quadgrams (cleanSpec text)).length),
          (quadgrams (cleanSpec text))[i] = ((cleanSpec text).drop i).take 4
            ∧ i + 4 ≤ (cleanSpec text).length
            ∧ (quadgrams (cleanSpec text))[i].length = 4)
      ∧ (∀ text2, cleanSpec text2 = cleanSpec text →
          scoreString getScore text2 = scoreString getScore text) := by
  have hn : ¬ (cleanSpec text).length < 4 := by omega
  refine ⟨?_, ?_, quadgrams_length _, ?_, ?_⟩
  · rw [scoreString_eq, scoreSpec, if_neg hn]
  · rw [scoreStringRun_eq, scoreSpec, if_neg hn, if_neg hn]
  · intro i hi
    have hlen := quadgrams_length (cleanSpec text)
    refine ⟨quadgrams_getElem _ i hi, by omega, ?_⟩
    exact length_of_mem_quadgrams (List.getElem_mem hi)
  · intro text2 h2
    rw [scoreString_eq, scoreString_eq, scoreSpec, scoreSpec, h2]

/-- C11 on the text `Hello, World`, whose cleaned form has 10 letters and 7
windows, scored by a scorer that returns the code of the first letter. -/
theorem scoreString_sums_quadgrams_witness :
    scoreString (fun q => ((q.headD 'A').toNat : Int)) "Hello, World".toList = .ok 538
      ∧ scoreStringRun (fun q => ((q.headD 'A').toNat : Int)) "Hello, World".toList
        = .ok (538, ["HELL".toList, "ELLO".toList, "LLOW".toList, "LOWO".toList,
            "OWOR".toList, "WORL".toList, "ORLD".toList])
      ∧ (quadgrams (cleanSpec "Hello, World".toList)).length
          = (cleanSpec "Hello, World".toList).length - 3
      ∧ (∀ (i : Nat) (hi : i < (quadgrams (cleanSpec "Hello, World".toList)).length),
          (quadgrams (cleanSpec "Hello, World".toList))[i]
              = ((cleanSpec "Hello, World".toList).drop i).take 4
            ∧ i + 4 ≤ (cleanSpec "Hello, World".toList).length
            ∧ (quadgrams (cleanSpec "Hello, World".toList))[i].length = 4)
      ∧ (∀ text2, cleanSpec text2 = cleanSpec "Hello, World".toList →
          scoreString (fun q => ((q.headD 'A').toNat : Int)) text2
            = scoreString (fun q => ((q.headD 'A').toNat : Int)) "Hello, World".toList) :=
  scoreString_sums_quadgrams (fun q => ((q.headD 'A').toNat : Int)) "Hello, World".toList
    (by decide)

/-! ## The pure functions return: the claims -/

/-- C14: for every input string, every rotation amount in `[0, 26)`, every 26
entry key and every scorer, `rot`, `applySubstCipher`, `clean` and
`scoreString` return normally. The index handed to `ALPHABET.at` and the index
`pos` of `cipher[pos]` are in `[0, 26)` for every letter, and every
`substr(i, 4)` of the loop of `scoreString` starts inside the cleaned string
(even ends inside it), so neither the `std::out_of_range` branch nor the
undefined behaviour branch is taken. -/
theorem pure_functions_return_normally {D : Type} [DoubleArith D]
    (getScore : List Char → D) (text key : List Char) (amount : Int)
    (h0 : 0 ≤ amount) (h26 : amount < 26) (hkey : key.length = 26) :
    (∃ r, rot text amount = .ok r)
      ∧ (∃ r, applySubstCipher key text = .ok r)
      ∧ clean text = cleanSpec text
      ∧ (∃ d, scoreString getScore text = .ok d)
      ∧ (∀ c, isalpha c = true →
          0 ≤ Int.tmod (ALPHABET_find (toupper c) + amount) 26
            ∧ Int.tmod (ALPHABET_find (toupper c) + amount) 26 < 26
            ∧ ∃ r, rotChar (toupper c) amount = .ok r)
      ∧ (∀ c, isalpha c = true →
          0 ≤ ((toupper c).toNat : Int) - ('A'.toNat : Int)
            ∧ ((toupper c).toNat : Int) - ('A'.toNat : Int) < 26
            ∧ ∃ r, cipherAt key (((toupper c).toNat : Int) - ('A'.toNat : Int)) = .ok r)
      ∧ (4 ≤ (clean text).length → ∀ i, i ∈ List.range ((clean text).length - 4 + 1) →
          i + 4 ≤ (clean text).length ∧ ∃ q, substr (clean text) i 4 = .ok q) := by
  have hmax : amount ≤ INT_MAX - 25 := by
    simp only [INT_MAX]; omega
  refine ⟨⟨_, rot_eq_rotateSpec text amount h0 (no_overflow_of_le text hmax)⟩,
    ⟨_, applySubstCipher_eq_substituteSpec key text (by omega)⟩,
    clean_eq_cleanSpec text, ⟨_, scoreString_eq getScore text⟩, ?_, ?_, ?_⟩
  · intro c hc
    obtain ⟨hu, hlt⟩ := toupper_eq_letter hc
    have hnn : (0 : Int) ≤ (letterIndex c : Int) + amount := by omega
    have hrot := rotChar_toupper hc h0 (by simp only [INT_MAX]; omega)
    refine ⟨?_, ?_, _, hrot⟩
    · rw [hu, find_letter hlt, Int.tmod_eq_emod hnn (by decide)]
      exact Int.emod_nonneg _ (by decide)
    · rw [hu, find_letter hlt, Int.tmod_eq_emod hnn (by decide)]
      exact Int.emod_lt_of_pos _ (by decide)
  · intro c hc
    obtain ⟨hu, hlt⟩ := toupper_eq_letter hc
    have hA : ('A'.toNat : Int) = 65 := by decide
    refine ⟨?_, ?_, _, cipherAt_letterIndex hc (by omega)⟩
    · rw [hA, hu, toNat_letter hlt]; omega
    · rw [hA, hu, toNat_letter hlt]; omega
  · intro h4 i hi
    have := List.mem_range.mp hi
    have hle : ¬ i > (clean text).length := by omega
    refine ⟨by omega, ((clean text).drop i).take 4, ?_⟩
    simp only [substr, hle, if_false]

/-- C14 on a text with letters of both cases, digits, spaces and punctuation. -/
theorem pure_functions_return_normally_witness :
    (∃ r, rot "Zebra-42, yes!".toList 25 = .ok r)
      ∧ (∃ r, applySubstCipher "QWERTYUIOPASDFGHJKLZXCVBNM".toList "Zebra-42, yes!".toList
          = .ok r)
      ∧ clean "Zebra-42, yes!".toList = cleanSpec "Zebra-42, yes!".toList
      ∧ (∃ d, scoreString (fun q => (q.length : Int)) "Zebra-42, yes!".toList = .ok d)
      ∧ (∀ c, isalpha c = true →
          0 ≤ Int.tmod (ALPHABET_find (toupper c) + 25) 26
            ∧ Int.tmod (ALPHABET_find (toupper c) + 25) 26 < 26
            ∧ ∃ r, rotChar (toupper c) 25 = .ok r)
      ∧ (∀ c, isalpha c = true →
          0 ≤ ((toupper c).toNat : Int) - ('A'.toNat : Int)
            ∧ ((toupper c).toNat : Int) - ('A'.toNat : Int) < 26
            ∧ ∃ r, cipherAt "QWERTYUIOPASDFGHJKLZXCVBNM".toList
                (((toupper c).toNat : Int) - ('A'.toNat : Int)) = .ok r)
      ∧ (4 ≤ (clean "Zebra-42, yes!".toList).length →
          ∀ i, i ∈ List.range ((clean "Zebra-42, yes!".toList).length - 4 + 1) →
            i + 4 ≤ (clean "Zebra-42, yes!".toList).length
              ∧ ∃ q, substr (clean "Zebra-42, yes!".toList) i 4 = .ok q) :=
  pure_functions_return_normally (fun q => (q.length : Int)) "Zebra-42, yes!".toList
    "QWERTYUIOPASDFGHJKLZXCVBNM".toList 25 (by decide) (by decide) (by decide)

/-! ## Dictionary matching: the claims -/

/-- C15, as stated, fails: a dictionary holding `hello` does not count the
rotated word `HELLO`, although the entry, once cleaned and uppercased, equals
the word. The comparison of `numWordsIn` is `word == dict_word` on the entry
as stored, and the breaker run on `HELLO` with that dictionary finds no
candidate. -/
theorem numWordsIn_lowercase_entry_not_counted :
    cleanSpec "hello".toList = "HELLO".toList
      ∧ numWordsIn ["HELLO".toList] ["hello".toList] = 0
      ∧ caesarDecryptCommand ["hello".toList] "HELLO".toList = .ok [noGoodDecryptions] := by
  decide

/-- C15, amended: for every word list and dictionary, `numWordsIn` counts a
word exactly when some dictionary entry is equal to it character for
character, the entries being compared as stored (neither cleaned nor
uppercased); so a dictionary holding `HELLO` counts the rotated word `HELLO`
as a match and a dictionary holding `hello` does not. -/
theorem numWordsIn_counts_exact_matches (words dict : List (List Char)) :
    numWordsIn words dict = words.countP (fun w => decide (w ∈ dict))
      ∧ numWordsIn ["HELLO".toList] ["HELLO".toList] = 1
      ∧ numWordsIn ["HELLO".toList] ["hello".toList] = 0 :=
  ⟨numWordsIn_eq_matchCount words dict, by decide, by decide⟩

/-! ## Helper lemmas: the breaker undoes the encryption -/

theorem rotateSpec_intercalate (words : List (List Char)) (amount : Int) :
    rotateSpec ([' '].intercalate words) amount
      = [' '].intercalate (words.map fun w => rotateSpec w amount) := by
  induction words with
  | nil => simp [List.intercalate, rotateSpec]
  | cons w words ih =>
    cases words with
    | nil => simp [intercalate_singleton]
    | cons w2 rest =>
      have hsp : rotateSpec [' '] amount = [' '] := by
        simp [rotateSpec, show isalpha ' ' = false by decide, show isspace ' ' = true by decide]
      rw [intercalate_cons_cons, rotateSpec_append, rotateSpec_append, hsp, ih]
      simp only [List.map_cons]
      rw [intercalate_cons_cons]

theorem splitOnP_intercalate (words : List (List Char)) (hne : words ≠ [])
    (hw : ∀ w ∈ words, ∀ c ∈ w, isspace c = false) :
    ([' '].intercalate words).splitOnP isspace = words := by
  induction words with
  | nil => exact absurd rfl hne
  | cons w words ih =>
    have hw1 : ∀ x ∈ w, ¬ isspace x = true := by
      intro x hx
      simp [hw w (List.mem_cons_self _ _) x hx]
    cases words with
    | nil =>
      rw [intercalate_singleton]
      exact List.splitOnP_eq_single _ _ hw1
    | cons w2 rest =>
      rw [intercalate_cons_cons, List.append_assoc, List.singleton_append,
        List.splitOnP_first _ _ hw1 ' ' (by decide),
        ih (by simp) (fun x hx => hw x (List.mem_cons_of_mem _ hx))]

theorem tokens_intercalate (words : List (List Char))
    (hw : ∀ w ∈ words, w ≠ [] ∧ ∀ c ∈ w, isspace c = false) :
    tokens ([' '].intercalate words) = words := by
  by_cases hne : words = []
  · subst hne
    rfl
  · rw [tokens, splitOnP_intercalate words hne (fun w h => (hw w h).2),
      List.filter_eq_self]
    intro w h
    simp [(hw w h).1]

theorem isUpperLetter_isalpha {c : Char} (h : isUpperLetter c = true) : isalpha c = true := by
  simp only [isUpperLetter, Bool.and_eq_true, decide_eq_true_eq] at h
  simp only [isalpha, Bool.or_eq_true, Bool.and_eq_true, decide_eq_true_eq]
  omega

theorem isUpperLetter_letter (k : Nat) : isUpperLetter (letter k) = true := by
  have h1 := toNat_letter_le k
  have h2 : 65 ≤ (letter k).toNat := by
    by_cases h : k < 26
    · rw [toNat_letter h]; omega
    · rw [letter_of_ge (by omega)]; decide
  simp [isUpperLetter, h1, h2]

theorem isUpperLetter_not_isspace {c : Char} (h : isUpperLetter c = true) :
    isspace c = false := by
  simp only [isUpperLetter, Bool.and_eq_true, decide_eq_true_eq] at h
  simp only [isspace, Bool.or_eq_false_iff, Bool.and_eq_false_iff, decide_eq_false_iff_not,
    beq_eq_false_iff_ne]
  omega

/-- Rotating a word of uppercase letters gives a word of uppercase letters of
the same length. -/
theorem rotateSpec_upper (w : List Char) (amount : Int)
    (hw : ∀ c ∈ w, isUpperLetter c = true) :
    (∀ c ∈ rotateSpec w amount, isUpperLetter c = true)
      ∧ (rotateSpec w amount).length = w.length := by
  induction w with
  | nil => simp [rotateSpec]
  | cons c w ih =>
    obtain ⟨ih1, ih2⟩ := ih (fun d hd => hw d (List.mem_cons_of_mem _ hd))
    have hc := isUpperLetter_isalpha (hw c (List.mem_cons_self _ _))
    have hcons : rotateSpec (c :: w) amount
        = letter (((letterIndex c : Int) + amount) % 26).toNat :: rotateSpec w amount := by
      simp [rotateSpec, hc]
    rw [hcons]
    constructor
    · intro d hd
      rcases List.mem_cons.mp hd with rfl | hd
      · exact isUpperLetter_letter _
      · exact ih1 d hd
    · simp [ih2]

theorem cleanSpec_upper (w : List Char) (hw : ∀ c ∈ w, isUpperLetter c = true) :
    cleanSpec w = w := by
  induction w with
  | nil => rfl
  | cons c w ih =>
    have ih2 := ih (fun d hd => hw d (List.mem_cons_of_mem _ hd))
    obtain ⟨k, hk, rfl⟩ := isUpperLetter_cases (hw c (List.mem_cons_self _ _))
    simp only [cleanSpec] at ih2
    simp [cleanSpec, isalpha_letter, toupper_letter hk, ih2]

theorem cleanKeepSpaces_upper (w : List Char) (hw : ∀ c ∈ w, isUpperLetter c = true) :
    cleanKeepSpaces w = w := by
  induction w with
  | nil => rfl
  | cons c w ih =>
    have ih2 := ih (fun d hd => hw d (List.mem_cons_of_mem _ hd))
    obtain ⟨k, hk, rfl⟩ := isUpperLetter_cases (hw c (List.mem_cons_self _ _))
    simp only [cleanKeepSpaces] at ih2
    simp [cleanKeepSpaces, isalpha_letter, toupper_letter hk, ih2]

/-- Rotating a word of uppercase letters by `a` and then by `(26 - a) mod 26`
gives the word back. -/
theorem rotateSpec_undo (w : List Char) (a : Nat) (ha : a < 26)
    (hw : ∀ c ∈ w, isUpperLetter c = true) :
    rotateSpec (rotateSpec w (a : Int)) (((26 - a) % 26 : Nat) : Int) = w := by
  have h0 : ((a : Int) + (((26 - a) % 26 : Nat) : Int)) % 26 = 0 := by omega
  rw [rotateSpec_rotateSpec, h0, rotateSpec_zero, cleanKeepSpaces_upper w hw]
/-- What the breaker sees of the encryption of a plaintext made of uppercase
words: the words of the ciphertext are the rotated words, and rotating them
back by `(26 - a) mod 26` gives the words of the plaintext. -/
theorem rotatedWords_of_encrypted (words : List (List Char)) (a : Nat) (ha : a < 26)
    (hw : ∀ w ∈ words, w ≠ [] ∧ ∀ c ∈ w, isUpperLetter c = true) :
    rotatedWords (rotateSpec ([' '].intercalate words) (a : Int)) ((26 - a) % 26) = words
      ∧ (cleanedWords (rotateSpec ([' '].intercalate words) (a : Int))).length
          = words.length := by
  have htok : tokens (rotateSpec ([' '].intercalate words) (a : Int))
      = words.map fun w => rotateSpec w (a : Int) := by
    rw [rotateSpec_intercalate]
    apply tokens_intercalate
    intro v hv
    obtain ⟨w, hwm, rfl⟩ := List.mem_map.mp hv
    obtain ⟨h1, h2⟩ := rotateSpec_upper w (a : Int) (hw w hwm).2
    constructor
    · intro h
      have hlen := congrArg List.length h
      rw [h2] at hlen
      exact (hw w hwm).1 (List.length_eq_zero.mp hlen)
    · intro c hc
      exact isUpperLetter_not_isspace (h1 c hc)
  have hclean : cleanedWords (rotateSpec ([' '].intercalate words) (a : Int))
      = words.map fun w => rotateSpec w (a : Int) := by
    rw [cleanedWords, htok, List.map_map]
    apply List.map_congr_left
    intro w hwm
    exact cleanSpec_upper _ (rotateSpec_upper w (a : Int) (hw w hwm).2).1
  constructor
  · rw [rotatedWords, hclean, List.map_map]
    conv_rhs => rw [← List.map_id words]
    apply List.map_congr_left
    intro w hwm
    exact rotateSpec_undo w a ha (hw w hwm).2
  · rw [hclean, List.length_map]

theorem matchCount_of_all_mem (dict words : List (List Char)) (hd : ∀ w ∈ words, w ∈ dict) :
    matchCount dict words = words.length := by
  rw [matchCount, List.countP_eq_length]
  intro w h
  simp [hd w h]

/-! ## The breaker undoes the encryption: the claims -/

/-- C20: for every non-empty list of non-empty uppercase words that are all
dictionary entries, with plaintext `P` their single-space join, and for every
amount `a` in `[0, 26)`, the encryption `rot(P, a)` returns a ciphertext on
which the Caesar breaker returns and writes `P` among its lines: rotation
`(26 - a) mod 26` qualifies and its text is `P`, and indeed
`rot(rot(P, a), (26 - a) mod 26)` returns `P`. -/
theorem caesarDecryptCommand_recovers_plaintext (dict words : List (List Char)) (a : Nat)
    (ha : a < 26) (hne : words ≠ [])
    (hw : ∀ w ∈ words, w ≠ [] ∧ ∀ c ∈ w, isUpperLetter c = true)
    (hd : ∀ w ∈ words, w ∈ dict) :
    ∃ C out, rot ([' '].intercalate words) (a : Int) = .ok C
      ∧ caesarDecryptCommand dict C = .ok out
      ∧ [' '].intercalate words ∈ out
      ∧ qualifies dict C ((26 - a) % 26) = true
      ∧ [' '].intercalate (rotatedWords C ((26 - a) % 26)) = [' '].intercalate words
      ∧ rotTwice ([' '].intercalate words) (a : Int) (((26 - a) % 26 : Nat) : Int)
          = .ok ([' '].intercalate words) := by
  have hmax : (a : Int) ≤ INT_MAX - 25 := by
    simp only [INT_MAX]; omega
  have hmax2 : (((26 - a) % 26 : Nat) : Int) ≤ INT_MAX - 25 := by
    simp only [INT_MAX]; omega
  have hrot := rot_eq_rotateSpec ([' '].intercalate words) (a : Int) (by omega)
    (no_overflow_of_le _ hmax)
  obtain ⟨hrw, hlen⟩ := rotatedWords_of_encrypted words a ha hw
  have hq : qualifies dict (rotateSpec ([' '].intercalate words) (a : Int)) ((26 - a) % 26)
      = true := by
    have hpos : 0 < words.length := List.length_pos.mpr hne
    simp only [qualifies, hrw, hlen, matchCount_of_all_mem dict words hd, decide_eq_true_eq]
    omega
  refine ⟨_, _, hrot, caesarDecryptCommand_eq dict _, ?_, hq, by rw [hrw], ?_⟩
  · apply List.mem_append_left
    rw [candidates, List.mem_map]
    refine ⟨(26 - a) % 26, List.mem_filter.mpr ⟨List.mem_range.mpr (by omega), hq⟩, ?_⟩
    rw [hrw]
  · have h0 : ((a : Int) + (((26 - a) % 26 : Nat) : Int)) % 26 = 0 := by omega
    have hid : (words.map fun w => rotateSpec w 0) = words := by
      conv_rhs => rw [← List.map_id words]
      apply List.map_congr_left
      intro w hwm
      rw [rotateSpec_zero, cleanKeepSpaces_upper w (hw w hwm).2]
      rfl
    rw [rotTwice_nonneg _ _ _ (by omega) (by omega) hmax hmax2, h0,
      rot_eq_rotateSpec _ 0 (by decide) (no_overflow_of_le _ (by decide)),
      rotateSpec_intercalate, hid]

/-- C20 on the plaintext `ATTACK AT DAWN` encrypted by 7. -/
theorem caesarDecryptCommand_recovers_plaintext_witness :
    ∃ C out, rot ([' '].intercalate ["ATTACK".toList, "AT".toList, "DAWN".toList])
          ((7 : Nat) : Int) = .ok C
      ∧ caesarDecryptCommand ["DAWN".toList, "AT".toList, "ATTACK".toList, "DUSK".toList] C
          = .ok out
      ∧ [' '].intercalate ["ATTACK".toList, "AT".toList, "DAWN".toList] ∈ out
      ∧ qualifies ["DAWN".toList, "AT".toList, "ATTACK".toList, "DUSK".toList] C
          ((26 - 7) % 26) = true
      ∧ [' '].intercalate (rotatedWords C ((26 - 7) % 26))
          = [' '].intercalate ["ATTACK".toList, "AT".toList, "DAWN".toList]
      ∧ rotTwice ([' '].intercalate ["ATTACK".toList, "AT".toList, "DAWN".toList])
          ((7 : Nat) : Int) (((26 - 7) % 26 : Nat) : Int)
          = .ok ([' '].intercalate ["ATTACK".toList, "AT".toList, "DAWN".toList]) :=
  caesarDecryptCommand_recovers_plaintext
    ["DAWN".toList, "AT".toList, "ATTACK".toList, "DUSK".toList]
    ["ATTACK".toList, "AT".toList, "DAWN".toList] 7 (by decide) (by decide) (by decide)
    (by decide)

/-! ## Helper lemmas: swapping two symbols of a key -/

theorem swapAt_ok {key r : List Char} {pos1 pos2 : Int} (h : swapAt key pos1 pos2 = .ok r) :
    0 ≤ pos1 ∧ pos1 < key.length ∧ 0 ≤ pos2 ∧ pos2 < key.length
      ∧ r = swapSpec key pos1.toNat pos2.toNat := by
  unfold swapAt at h
  split at h
  · rename_i hr
    obtain ⟨h1, h2, h3, h4⟩ := hr
    exact ⟨h1, h2, h3, h4, (Except.ok.inj h).symm⟩
  · cases h

theorem swapAt_eq {key : List Char} {pos1 pos2 : Int} (h1 : 0 ≤ pos1)
    (h2 : pos1 < key.length) (h3 : 0 ≤ pos2) (h4 : pos2 < key.length) :
    swapAt key pos1 pos2 = .ok (swapSpec key pos1.toNat pos2.toNat) := by
  simp [swapAt, h1, h2, h3, h4, swapSpec]

theorem swapSpec_length (key : List Char) (i j : Nat) :
    (swapSpec key i j).length = key.length := by
  simp [swapSpec]

theorem set_perm_cons (l : List Char) (x : Char) (j : Nat) (hj : j < l.length) :
    (l.getD j 'A' :: l.set j x).Perm (x :: l) := by
  induction l generalizing j with
  | nil => simp at hj
  | cons y t ih =>
    cases j with
    | zero =>
      simp only [List.getD_cons_zero, List.set_cons_zero]
      exact List.Perm.swap x y t
    | succ k =>
      have hk : k < t.length := by simpa using hj
      simp only [List.getD_cons_succ, List.set_cons_succ]
      have h1 : (t.getD k 'A' :: y :: t.set k x).Perm (y :: t.getD k 'A' :: t.set k x) :=
        List.Perm.swap _ _ _
      have h2 : (y :: t.getD k 'A' :: t.set k x).Perm (y :: x :: t) :=
        List.Perm.cons y (ih k hk)
      exact (h1.trans h2).trans (List.Perm.swap _ _ _)

/-- Exchanging two symbols of a key gives a permutation of the key. -/
theorem swapSpec_perm (key : List Char) (i j : Nat) (hi : i < key.length)
    (hj : j < key.length) : (swapSpec key i j).Perm key := by
  induction key generalizing i j with
  | nil => simp at hi
  | cons x l ih =>
    cases i with
    | zero =>
      cases j with
      | zero => simp [swapSpec]
      | succ k =>
        have hk : k < l.length := by simpa using hj
        simpa [swapSpec] using set_perm_cons l x k hk
    | succ m =>
      have hm : m < l.length := by simpa using hi
      cases j with
      | zero => simpa [swapSpec] using set_perm_cons l x m hm
      | succ k =>
        have hk : k < l.length := by simpa using hj
        have := ih m k hm hk
        simpa [swapSpec] using this

/-- The entries of a key with two symbols exchanged. -/
theorem swapSpec_getElem? (key : List Char) (i j : Nat) (hi : i < key.length)
    (hj : j < key.length) :
    (swapSpec key i j)[i]? = key[j]? ∧ (swapSpec key i j)[j]? = key[i]?
      ∧ ∀ k, k ≠ i → k ≠ j → (swapSpec key i j)[k]? = key[k]? := by
  have gi : key.getD i 'A' = key[i] := by
    simp [List.getD_eq_getElem?_getD, List.getElem?_eq_getElem hi]
  have gj : key.getD j 'A' = key[j] := by
    simp [List.getD_eq_getElem?_getD, List.getElem?_eq_getElem hj]
  refine ⟨?_, ?_, ?_⟩
  · by_cases hij : i = j
    · subst hij
      simp [swapSpec, List.getElem?_set, hi, gi]
    · simp [swapSpec, List.getElem?_set, hi, hj, gj, hij, Ne.symm hij]
  · simp [swapSpec, List.getElem?_set, hi, hj, gi]
  · intro k hki hkj
    simp [swapSpec, List.getElem?_set, Ne.symm hki, Ne.symm hkj]

/-! ## Helper lemmas: one trial of the climb -/

theorem cipherAt_ok {cipher : List Char} {c r : Char} (hc : isalpha c = true)
    (h : cipherAt cipher (((toupper c).toNat : Int) - ('A'.toNat : Int)) = .ok r) :
    r = cipher.getD (letterIndex c) 'A' := by
  obtain ⟨hu, hlt⟩ := toupper_eq_letter hc
  have hA : ('A'.toNat : Int) = 65 := by decide
  have hpos : ((toupper c).toNat : Int) - ('A'.toNat : Int) = (letterIndex c : Int) := by
    rw [hA, hu, toNat_letter hlt]
    omega
  rw [hpos] at h
  unfold cipherAt at h
  split at h
  · simpa using (Except.ok.inj h).symm
  · cases h

/-- Whenever `applySubstCipher` returns, with whatever key, it returns what the
specification of `substitute` says. -/
theorem applySubstCipher_ok {cipher text r : List Char}
    (h : applySubstCipher cipher text = .ok r) : r = substituteSpec cipher text := by
  induction text generalizing r with
  | nil =>
    simp only [applySubstCipher] at h
    exact (Except.ok.inj h).symm
  | cons c cs ih =>
    by_cases hc : isalpha c = true
    · simp only [applySubstCipher, hc, if_true] at h
      cases hx : cipherAt cipher (((toupper c).toNat : Int) - ('A'.toNat : Int)) with
      | error e => rw [hx] at h; cases h
      | ok x =>
        rw [hx, ok_bind] at h
        cases hy : applySubstCipher cipher cs with
        | error e => rw [hy] at h; cases h
        | ok y =>
          rw [hy, ok_bind] at h
          have := (Except.ok.inj h).symm
          rw [this, ih hy, cipherAt_ok hc hx]
          simp [substituteSpec, hc]
    · simp only [applySubstCipher, hc] at h
      cases hy : applySubstCipher cipher cs with
      | error e => rw [hy] at h; cases h
      | ok y =>
        rw [hy] at h
        have := (Except.ok.inj h).symm
        rw [this, ih hy]
        simp [substituteSpec, hc]

/-- The state after a trial that returned: the positions were inside the key,
the candidate is the key with the two symbols exchanged, its score is the
score of its decryption, and it replaced the best exactly when its score is
greater. -/
theorem climbTrial_ok {D G : Type} [DoubleOrder D] {getScore : List Char → D}
    {ciphertext : List Char} {st st' : ClimbState D G} {pos1 pos2 : Int} {g : G}
    (h : climbTrial getScore ciphertext st pos1 pos2 g = .ok st') :
    0 ≤ pos1 ∧ pos1 < st.bestCipherKey.length ∧ 0 ≤ pos2 ∧ pos2 < st.bestCipherKey.length
      ∧ st' =
        (if DoubleOrder.gt
            (scoreOf getScore ciphertext (swapSpec st.bestCipherKey pos1.toNat pos2.toNat))
            st.bestScore = true then
          { bestCipherKey := swapSpec st.bestCipherKey pos1.toNat pos2.toNat,
            bestScore :=
              scoreOf getScore ciphertext (swapSpec st.bestCipherKey pos1.toNat pos2.toNat),
            trials := 0, rng := g,
            history := st.history ++ [⟨st.bestCipherKey, st.bestScore, pos1, pos2,
              swapSpec st.bestCipherKey pos1.toNat pos2.toNat,
              scoreOf getScore ciphertext (swapSpec st.bestCipherKey pos1.toNat pos2.toNat),
              true⟩] }
        else
          { bestCipherKey := st.bestCipherKey, bestScore := st.bestScore,
            trials := st.trials + 1, rng := g,
            history := st.history ++ [⟨st.bestCipherKey, st.bestScore, pos1, pos2,
              swapSpec st.bestCipherKey pos1.toNat pos2.toNat,
              scoreOf getScore ciphertext (swapSpec st.bestCipherKey pos1.toNat pos2.toNat),
              false⟩] }) := by
  unfold climbTrial at h
  cases hk : swapAt st.bestCipherKey pos1 pos2 with
  | error e => rw [hk] at h; cases h
  | ok k =>
    obtain ⟨h1, h2, h3, h4, rfl⟩ := swapAt_ok hk
    rw [hk, ok_bind] at h
    cases hd : applySubstCipher (swapSpec st.bestCipherKey pos1.toNat pos2.toNat) ciphertext with
    | error e => rw [hd] at h; cases h
    | ok d =>
      have hd2 := applySubstCipher_ok hd
      subst hd2
      rw [hd, ok_bind, scoreString_eq, ok_bind] at h
      refine ⟨h1, h2, h3, h4, ?_⟩
      simp only [scoreOf]
      split at h
      · rename_i hgt
        rw [if_pos hgt]
        exact (Except.ok.inj h).symm
      · rename_i hgt
        rw [if_neg hgt]
        exact (Except.ok.inj h).symm

/-- A trial on a key of 26 entries with positions in `[0, 25]` returns. -/
theorem climbTrial_returns {D G : Type} [DoubleOrder D] (getScore : List Char → D)
    (ciphertext : List Char) (st : ClimbState D G) {pos1 pos2 : Int} (g : G)
    (hlen : st.bestCipherKey.length = 26) (h1 : 0 ≤ pos1 ∧ pos1 ≤ 25)
    (h2 : 0 ≤ pos2 ∧ pos2 ≤ 25) :
    ∃ st', climbTrial getScore ciphertext st pos1 pos2 g = .ok st' := by
  unfold climbTrial
  rw [swapAt_eq h1.1 (by omega) h2.1 (by omega), ok_bind,
    applySubstCipher_eq_substituteSpec _ _ (by rw [swapSpec_length]; omega), ok_bind,
    scoreString_eq, ok_bind]
  split
  · exact ⟨_, rfl⟩
  · exact ⟨_, rfl⟩
/-! ## Helper lemmas: the records of the trials -/

theorem bestAfter_append {D : Type} (b : List Char × D) (h : List (Trial D)) (t : Trial D) :
    bestAfter b (h ++ [t])
      = if t.accepted then (t.candidate, t.candidateScore) else bestAfter b h := by
  simp [bestAfter, List.foldl_append]

theorem acceptedScores_append {D : Type} (h : List (Trial D)) (t : Trial D) :
    acceptedScores (h ++ [t])
      = if t.accepted then acceptedScores h ++ [t.candidateScore] else acceptedScores h := by
  by_cases ha : t.accepted = true
  · simp [acceptedScores, List.filter_append, ha]
  · simp [acceptedScores, List.filter_append, ha]

theorem stall_append {D : Type} (h : List (Trial D)) (t : Trial D) :
    stall (h ++ [t]) = if t.accepted then 0 else stall h + 1 := by
  by_cases ha : t.accepted = true
  · simp [stall, List.takeWhile_cons, ha]
  · simp [stall, List.takeWhile_cons, ha]

theorem stall_le_length {D : Type} (h : List (Trial D)) : stall h ≤ h.length := by
  have := List.Sublist.length_le
    (List.takeWhile_sublist (fun t : Trial D => !t.accepted) (l := h.reverse))
  simpa [stall] using this

theorem take_concat_of_lt {D : Type} (h : List (Trial D)) (t : Trial D) {n : Nat}
    (hn : n < (h ++ [t]).length) : (h ++ [t]).take n = h.take n := by
  have : n ≤ h.length := by
    simp only [List.length_append, List.length_singleton] at hn
    omega
  exact List.take_append_of_le_length this

/-- A trial that returned keeps the invariant of the loop. -/
theorem climbTrial_inv {D G : Type} [DoubleOrder D] {getScore : List Char → D}
    {ciphertext K0 : List Char} {s0 : D} {st st' : ClimbState D G} {pos1 pos2 : Int} {g : G}
    (hinv : ClimbInv getScore ciphertext K0 s0 st) (hlt : st.trials < 1000)
    (hne : pos1 ≠ pos2)
    (h : climbTrial getScore ciphertext st pos1 pos2 g = .ok st') :
    ClimbInv getScore ciphertext K0 s0 st' := by
  obtain ⟨h1, h2, h3, h4, hst⟩ := climbTrial_ok h
  have hlen : st.bestCipherKey.length = K0.length := hinv.key_perm.length_eq
  have hp1 : pos1.toNat < st.bestCipherKey.length := by omega
  have hp2 : pos2.toNat < st.bestCipherKey.length := by omega
  have hcperm : (swapSpec st.bestCipherKey pos1.toNat pos2.toNat).Perm K0 :=
    (swapSpec_perm _ _ _ hp1 hp2).trans hinv.key_perm
  -- the record of this trial, whatever the outcome
  have hrec : ∀ a : Bool,
      a = DoubleOrder.gt
        (scoreOf getScore ciphertext (swapSpec st.bestCipherKey pos1.toNat pos2.toNat))
        st.bestScore →
      TrialOk getScore ciphertext K0
        ⟨st.bestCipherKey, st.bestScore, pos1, pos2,
          swapSpec st.bestCipherKey pos1.toNat pos2.toNat,
          scoreOf getScore ciphertext (swapSpec st.bestCipherKey pos1.toNat pos2.toNat),
          a⟩ := by
    intro a ha
    have hr1 : pos1 < (K0.length : Int) := by omega
    have hr2 : pos2 < (K0.length : Int) := by omega
    exact ⟨hinv.key_perm, hinv.score_eq, ⟨h1, hr1⟩, ⟨h3, hr2⟩, hne, rfl, hcperm, rfl, ha⟩
  have hlinked : ∀ (t : Trial D), t.current = st.bestCipherKey →
      t.currentScore = st.bestScore →
      ∀ (n : Nat) (hn : n < (st.history ++ [t]).length),
        ((st.history ++ [t])[n].current, (st.history ++ [t])[n].currentScore)
          = bestAfter (K0, s0) ((st.history ++ [t]).take n) := by
    intro t ht1 ht2 n hn
    rw [take_concat_of_lt _ _ hn]
    by_cases hnl : n < st.history.length
    · rw [List.getElem_append_left hnl]
      exact hinv.linked n hnl
    · have hn2 : n = st.history.length := by
        simp only [List.length_append, List.length_singleton] at hn
        omega
      subst hn2
      simp only [List.getElem_concat_length, List.take_length, ht1, ht2]
      exact hinv.best_eq
  have hearly : ∀ (t : Trial D) (n : Nat), n < (st.history ++ [t]).length →
      stall ((st.history ++ [t]).take n) < 1000 := by
    intro t n hn
    rw [take_concat_of_lt _ _ hn]
    by_cases hnl : n < st.history.length
    · exact hinv.no_early_stall n hnl
    · have hn2 : n = st.history.length := by
        simp only [List.length_append, List.length_singleton] at hn
        omega
      subst hn2
      rw [List.take_length, ← hinv.trials_eq]
      exact hlt
  by_cases hgt : DoubleOrder.gt
      (scoreOf getScore ciphertext (swapSpec st.bestCipherKey pos1.toNat pos2.toNat))
      st.bestScore = true
  · rw [if_pos hgt] at hst
    subst hst
    refine ⟨hcperm, rfl, ?_, ?_, hlinked _ rfl rfl, ?_, by simp, hearly _, ?_, ?_, ?_⟩
    · simp [bestAfter_append]
    · intro t ht
      rcases List.mem_append.mp ht with ht | ht
      · exact hinv.trials_ok t ht
      · rw [List.mem_singleton.mp ht]
        exact hrec true hgt.symm
    · simp [stall_append]
    · have := hinv.count
      simp only [List.length_append, List.length_singleton, acceptedScores_append, if_true]
      omega
    · simp only [acceptedScores_append, if_true]
      rw [← List.cons_append, List.chain'_append]
      refine ⟨hinv.chain, List.chain'_singleton _, ?_⟩
      intro x hx y hy
      rw [hinv.last] at hx
      simp only [List.head?_cons, Option.mem_def, Option.some.injEq] at hx hy
      subst hx hy
      exact hgt
    · simp only [acceptedScores_append, if_true]
      rw [← List.cons_append, List.getLast?_append]
      simp
  · rw [if_neg hgt] at hst
    subst hst
    have hgt2 : DoubleOrder.gt
        (scoreOf getScore ciphertext (swapSpec st.bestCipherKey pos1.toNat pos2.toNat))
        st.bestScore = false := by simpa using hgt
    refine ⟨hinv.key_perm, hinv.score_eq, ?_, ?_, hlinked _ rfl rfl, ?_, ?_, hearly _, ?_,
      ?_, ?_⟩
    · simp only [bestAfter_append]
      exact hinv.best_eq
    · intro t ht
      rcases List.mem_append.mp ht with ht | ht
      · exact hinv.trials_ok t ht
      · rw [List.mem_singleton.mp ht]
        exact hrec false hgt2.symm
    · simp [stall_append, hinv.trials_eq]
    · show st.trials + 1 ≤ 1000
      omega
    · have := hinv.count
      simp only [List.length_append, List.length_singleton, acceptedScores_append]
      simp only [Bool.false_eq_true, if_false]
      omega
    · simp only [acceptedScores_append, Bool.false_eq_true, if_false]
      exact hinv.chain
    · simp only [acceptedScores_append, Bool.false_eq_true, if_false]
      exact hinv.last
/-! ## Helper lemmas: the draws -/

theorem drawSecondPos_ne {G : Type} {R : RandomSource G} {pos1 : Int} {fuel : Nat} {g : G}
    {d : Int × G} (h : drawSecondPos R pos1 fuel g = some d) : d.1 ≠ pos1 := by
  induction fuel generalizing g with
  | zero => cases h
  | succ n ih =>
    simp only [drawSecondPos] at h
    split at h
    · exact ih h
    · rename_i hne
      cases h
      exact hne

theorem drawSecondPos_mono {G : Type} {R : RandomSource G} {pos1 : Int} {fuel fuel' : Nat}
    {g : G} {d : Int × G} (h : drawSecondPos R pos1 fuel g = some d) (hle : fuel ≤ fuel') :
    drawSecondPos R pos1 fuel' g = some d := by
  induction fuel generalizing g fuel' with
  | zero => cases h
  | succ n ih =>
    obtain ⟨m, rfl⟩ : ∃ m, fuel' = m + 1 := ⟨fuel' - 1, by omega⟩
    simp only [drawSecondPos] at h ⊢
    split
    · rename_i heq
      rw [if_pos heq] at h
      exact ih h (by omega)
    · rename_i hne
      rw [if_neg hne] at h
      exact h

theorem drawSecondPos_range {G : Type} {R : RandomSource G}
    (hR : ∀ g, 0 ≤ (R.randInt g 25).1 ∧ (R.randInt g 25).1 ≤ 25) {pos1 : Int} {fuel : Nat}
    {g : G} {d : Int × G} (h : drawSecondPos R pos1 fuel g = some d) :
    0 ≤ d.1 ∧ d.1 ≤ 25 := by
  induction fuel generalizing g with
  | zero => cases h
  | succ n ih =>
    simp only [drawSecondPos] at h
    split at h
    · exact ih h
    · cases h
      exact hR g

/-! ## Helper lemmas: the loop of the climb -/

/-- More fuel does not change what the loop returns. -/
theorem climbLoop_mono {D G : Type} [DoubleOrder D] {R : RandomSource G}
    {getScore : List Char → D} {ciphertext : List Char} {fuel fuel' : Nat}
    {st : ClimbState D G} {r : Except Fault (ClimbState D G)}
    (h : climbLoop R getScore ciphertext fuel st = some r) (hle : fuel ≤ fuel') :
    climbLoop R getScore ciphertext fuel' st = some r := by
  induction fuel generalizing fuel' st with
  | zero => cases h
  | succ n ih =>
    obtain ⟨m, rfl⟩ : ∃ m, fuel' = m + 1 := ⟨fuel' - 1, by omega⟩
    simp only [climbLoop] at h ⊢
    by_cases hlt : st.trials < 1000
    · rw [if_pos hlt] at h ⊢
      cases hd : drawSecondPos R (R.randInt st.rng 25).1 n (R.randInt st.rng 25).2 with
      | none => simp only [hd] at h; cases h
      | some d2 =>
        have hd' := drawSecondPos_mono hd (by omega : n ≤ m)
        simp only [hd] at h
        simp only [hd']
        cases ht : climbTrial getScore ciphertext st (R.randInt st.rng 25).1 d2.1 d2.2 with
        | error e =>
          simp only [ht] at h ⊢
          exact h
        | ok st' =>
          simp only [ht] at h ⊢
          exact ih h (by omega)
    · rw [if_neg hlt] at h ⊢
      exact h

/-- Whenever the loop returns a state, started in a state with the invariant,
that state has the invariant and its stall counter is 1000. -/
theorem climbLoop_inv {D G : Type} [DoubleOrder D] {R : RandomSource G}
    {getScore : List Char → D} {ciphertext K0 : List Char} {s0 : D} {fuel : Nat}
    {st st' : ClimbState D G} (hinv : ClimbInv getScore ciphertext K0 s0 st)
    (h : climbLoop R getScore ciphertext fuel st = some (.ok st')) :
    ClimbInv getScore ciphertext K0 s0 st' ∧ st'.trials = 1000 := by
  induction fuel generalizing st with
  | zero => cases h
  | succ n ih =>
    simp only [climbLoop] at h
    by_cases hlt : st.trials < 1000
    · rw [if_pos hlt] at h
      cases hd : drawSecondPos R (R.randInt st.rng 25).1 n (R.randInt st.rng 25).2 with
      | none => simp only [hd] at h; cases h
      | some d2 =>
        simp only [hd] at h
        cases ht : climbTrial getScore ciphertext st (R.randInt st.rng 25).1 d2.1 d2.2 with
        | error e =>
          simp only [ht] at h
          cases h
        | ok st2 =>
          simp only [ht] at h
          exact ih (climbTrial_inv hinv hlt (drawSecondPos_ne hd).symm ht) h
    · rw [if_neg hlt] at h
      cases h
      exact ⟨hinv, by have := hinv.trials_le; omega⟩

/-- With draws in `[0, 25]` and a key of 26 entries the loop never faults. -/
theorem climbLoop_no_fault {D G : Type} [DoubleOrder D] {R : RandomSource G}
    (hR : ∀ g, 0 ≤ (R.randInt g 25).1 ∧ (R.randInt g 25).1 ≤ 25)
    {getScore : List Char → D} {ciphertext K0 : List Char} (hK0 : K0.length = 26) {s0 : D}
    {fuel : Nat} {st : ClimbState D G} {r : Except Fault (ClimbState D G)}
    (hinv : ClimbInv getScore ciphertext K0 s0 st)
    (h : climbLoop R getScore ciphertext fuel st = some r) : ∃ st', r = .ok st' := by
  induction fuel generalizing st with
  | zero => cases h
  | succ n ih =>
    simp only [climbLoop] at h
    by_cases hlt : st.trials < 1000
    · rw [if_pos hlt] at h
      cases hd : drawSecondPos R (R.randInt st.rng 25).1 n (R.randInt st.rng 25).2 with
      | none => simp only [hd] at h; cases h
      | some d2 =>
        simp only [hd] at h
        obtain ⟨st2, ht⟩ := climbTrial_returns getScore ciphertext st d2.2
          (by rw [hinv.key_perm.length_eq, hK0]) (hR st.rng) (drawSecondPos_range hR hd)
        simp only [ht] at h
        exact ih (climbTrial_inv hinv hlt (drawSecondPos_ne hd).symm ht) h
    · rw [if_neg hlt] at h
      cases h
      exact ⟨st, rfl⟩

/-! ## Helper lemmas: the climb ends -/

theorem countP_lt_countP {α : Type} (l : List α) (p q : α → Bool)
    (hpq : ∀ x ∈ l, p x = true → q x = true) {x : α} (hx : x ∈ l) (hq : q x = true)
    (hp : p x = false) : l.countP p < l.countP q := by
  induction l with
  | nil => cases hx
  | cons y t ih =>
    have hle : t.countP p ≤ t.countP q :=
      List.countP_mono_left (fun z hz => hpq z (List.mem_cons_of_mem _ hz))
    rw [List.countP_cons, List.countP_cons]
    rcases List.mem_cons.mp hx with rfl | hxt
    · simp only [hq, hp, if_true, Bool.false_eq_true, if_false]
      omega
    · have := ih (fun z hz => hpq z (List.mem_cons_of_mem _ hz)) hxt
      by_cases hpy : p y = true
      · simp only [hpy, hpq y (List.mem_cons_self _ _) hpy, if_true]
        omega
      · have hpy2 : p y = false := by simpa using hpy
        simp only [hpy2, Bool.false_eq_true, if_false]
        omega

/-- An accepted candidate leaves fewer keys that score more than the best. -/
theorem betterKeys_lt {D : Type} [DoubleOrder D] (hlaws : GtLaws D) (getScore : List Char → D)
    (ciphertext K0 : List Char) {k : List Char} (hk : k.Perm K0) {s : D}
    (hgt : DoubleOrder.gt (scoreOf getScore ciphertext k) s = true) :
    betterKeys getScore ciphertext K0 (scoreOf getScore ciphertext k)
      < betterKeys getScore ciphertext K0 s := by
  apply countP_lt_countP _ _ _ _ (List.mem_permutations.mpr hk) hgt (hlaws.irrefl _)
  intro x _ hx
  exact hlaws.trans _ _ _ hx hgt

theorem betterKeys_le_factorial {D : Type} [DoubleOrder D] (getScore : List Char → D)
    (ciphertext K0 : List Char) (s : D) :
    betterKeys getScore ciphertext K0 s ≤ K0.length.factorial := by
  rw [← List.length_permutations]
  exact List.countP_le_length _
/-- An accepted candidate uses up one of the keys that score more than the
best: the number of acceptances so far plus the number of keys still scoring
more than the best never exceeds the number of keys scoring more than the
initial key. -/
theorem climbTrial_bound {D G : Type} [DoubleOrder D] (hlaws : GtLaws D)
    {getScore : List Char → D} {ciphertext K0 : List Char} {s0 : D}
    {st st' : ClimbState D G} {pos1 pos2 : Int} {g : G}
    (hinv : ClimbInv getScore ciphertext K0 s0 st)
    (hb : (acceptedScores st.history).length + betterKeys getScore ciphertext K0 st.bestScore
      ≤ betterKeys getScore ciphertext K0 s0)
    (h : climbTrial getScore ciphertext st pos1 pos2 g = .ok st') :
    (acceptedScores st'.history).length + betterKeys getScore ciphertext K0 st'.bestScore
        ≤ betterKeys getScore ciphertext K0 s0
      ∧ betterKeys getScore ciphertext K0 st'.bestScore * 1001 + (1000 - st'.trials)
          + (if st.trials < 1000 then 1 else 0)
        ≤ betterKeys getScore ciphertext K0 st.bestScore * 1001 + (1000 - st.trials) := by
  obtain ⟨h1, h2, h3, h4, hst⟩ := climbTrial_ok h
  have hlen : st.bestCipherKey.length = K0.length := hinv.key_perm.length_eq
  have hcperm : (swapSpec st.bestCipherKey pos1.toNat pos2.toNat).Perm K0 :=
    (swapSpec_perm _ _ _ (by omega) (by omega)).trans hinv.key_perm
  by_cases hgt : DoubleOrder.gt
      (scoreOf getScore ciphertext (swapSpec st.bestCipherKey pos1.toNat pos2.toNat))
      st.bestScore = true
  · rw [if_pos hgt] at hst
    subst hst
    have hlt := betterKeys_lt hlaws getScore ciphertext K0 hcperm hgt
    simp only [acceptedScores_append, if_true, List.length_append, List.length_singleton]
    constructor
    · omega
    · split <;> omega
  · rw [if_neg hgt] at hst
    subst hst
    simp only [acceptedScores_append, Bool.false_eq_true, if_false]
    constructor
    · exact hb
    · split <;> omega

theorem climbLoop_bound {D G : Type} [DoubleOrder D] (hlaws : GtLaws D) {R : RandomSource G}
    {getScore : List Char → D} {ciphertext K0 : List Char} {s0 : D} {fuel : Nat}
    {st st' : ClimbState D G} (hinv : ClimbInv getScore ciphertext K0 s0 st)
    (hb : (acceptedScores st.history).length + betterKeys getScore ciphertext K0 st.bestScore
      ≤ betterKeys getScore ciphertext K0 s0)
    (h : climbLoop R getScore ciphertext fuel st = some (.ok st')) :
    (acceptedScores st'.history).length + betterKeys getScore ciphertext K0 st'.bestScore
      ≤ betterKeys getScore ciphertext K0 s0 := by
  induction fuel generalizing st with
  | zero => cases h
  | succ n ih =>
    simp only [climbLoop] at h
    by_cases hlt : st.trials < 1000
    · rw [if_pos hlt] at h
      cases hd : drawSecondPos R (R.randInt st.rng 25).1 n (R.randInt st.rng 25).2 with
      | none => simp only [hd] at h; cases h
      | some d2 =>
        simp only [hd] at h
        cases ht : climbTrial getScore ciphertext st (R.randInt st.rng 25).1 d2.1 d2.2 with
        | error e =>
          simp only [ht] at h
          cases h
        | ok st2 =>
          simp only [ht] at h
          exact ih (climbTrial_inv hinv hlt (drawSecondPos_ne hd).symm ht)
            (climbTrial_bound hlaws hinv hb ht).1 h
    · rw [if_neg hlt] at h
      cases h
      exact hb

/-- The loop ends: when every retry eventually succeeds, some amount of fuel
makes the loop return. -/
theorem climbLoop_returns {D G : Type} [DoubleOrder D] (hlaws : GtLaws D)
    {R : RandomSource G} (hretry : RetrySucceeds R) {getScore : List Char → D}
    {ciphertext K0 : List Char} {s0 : D} (m : Nat) (st : ClimbState D G)
    (hinv : ClimbInv getScore ciphertext K0 s0 st)
    (hb : (acceptedScores st.history).length + betterKeys getScore ciphertext K0 st.bestScore
      ≤ betterKeys getScore ciphertext K0 s0)
    (hm : betterKeys getScore ciphertext K0 st.bestScore * 1001 + (1000 - st.trials) ≤ m) :
    ∃ fuel r, climbLoop R getScore ciphertext fuel st = some r := by
  induction m generalizing st with
  | zero =>
    refine ⟨1, .ok st, ?_⟩
    have : ¬ st.trials < 1000 := by omega
    simp only [climbLoop, this, if_false]
  | succ m ih =>
    by_cases hlt : st.trials < 1000
    · obtain ⟨n, d2, hd⟩ := hretry (R.randInt st.rng 25).2 (R.randInt st.rng 25).1
      cases ht : climbTrial getScore ciphertext st (R.randInt st.rng 25).1 d2.1 d2.2 with
      | error e =>
        refine ⟨n + 1, .error e, ?_⟩
        simp only [climbLoop, hlt, if_true, hd, ht]
      | ok st2 =>
        have hinv2 := climbTrial_inv hinv hlt (drawSecondPos_ne hd).symm ht
        obtain ⟨hb2, hdec⟩ := climbTrial_bound hlaws hinv hb ht
        rw [if_pos hlt] at hdec
        obtain ⟨f, r, hf⟩ := ih st2 hinv2 hb2 (by omega)
        refine ⟨max n f + 1, r, ?_⟩
        simp only [climbLoop, hlt, if_true, drawSecondPos_mono hd (Nat.le_max_left n f), ht]
        exact climbLoop_mono hf (Nat.le_max_right n f)
    · refine ⟨1, .ok st, ?_⟩
      simp only [climbLoop, hlt, if_false]

/-! ## Helper lemmas: the whole climb -/

theorem climbStart_ok {D G : Type} [DoubleOrder D] {R : RandomSource G}
    {getScore : List Char → D} {ciphertext : List Char} {g : G} {st : ClimbState D G}
    (h : climbStart R getScore ciphertext g = .ok st) :
    st = { bestCipherKey := initialKey R g,
           bestScore := scoreOf getScore ciphertext (initialKey R g), trials := 0,
           rng := (R.genRandomSubstCipher g).2, history := [] } := by
  unfold climbStart at h
  simp only [pure_eq_ok, ok_bind] at h
  cases hd : applySubstCipher (R.genRandomSubstCipher g).1 ciphertext with
  | error e => rw [hd] at h; cases h
  | ok d =>
    have := applySubstCipher_ok hd
    subst this
    rw [hd, ok_bind, scoreString_eq, ok_bind] at h
    exact (Except.ok.inj h).symm

theorem climbStart_returns {D G : Type} [DoubleOrder D] (R : RandomSource G)
    (getScore : List Char → D) (ciphertext : List Char) (g : G)
    (hlen : (initialKey R g).length = 26) :
    climbStart R getScore ciphertext g
      = .ok { bestCipherKey := initialKey R g,
              bestScore := scoreOf getScore ciphertext (initialKey R g), trials := 0,
              rng := (R.genRandomSubstCipher g).2, history := [] } := by
  unfold climbStart
  simp only [pure_eq_ok, ok_bind]
  rw [applySubstCipher_eq_substituteSpec _ _ (by rw [initialKey] at hlen; omega), ok_bind,
    scoreString_eq, ok_bind]
  rfl

/-- The state in which the loop is entered has the invariant. -/
theorem climbInv_start {D G : Type} [DoubleOrder D] (getScore : List Char → D)
    (ciphertext K0 : List Char) (g : G) :
    ClimbInv getScore ciphertext K0 (scoreOf getScore ciphertext K0)
      ({ bestCipherKey := K0, bestScore := scoreOf getScore ciphertext K0, trials := 0,
         rng := g, history := [] } : ClimbState D G) := by
  refine ⟨List.Perm.refl _, rfl, rfl, ?_, ?_, rfl, by simp, ?_, by simp, ?_, rfl⟩
  · intro t ht
    cases ht
  · intro n h
    simp at h
  · intro n h
    simp at h
  · simp [acceptedScores]

/-- Whenever a climb returns a state, that state has the invariant of the loop
for the initial key and its score, and its stall counter is 1000. -/
theorem decryptSubstCipher_inv {D G : Type} [DoubleOrder D] {R : RandomSource G}
    {getScore : List Char → D} {fuel : Nat} {ciphertext : List Char} {g : G}
    {st : ClimbState D G}
    (h : decryptSubstCipher R getScore fuel ciphertext g = some (.ok st)) :
    ClimbInv getScore ciphertext (initialKey R g)
        (scoreOf getScore ciphertext (initialKey R g)) st
      ∧ st.trials = 1000 := by
  unfold decryptSubstCipher at h
  cases hs : climbStart R getScore ciphertext g with
  | error e => simp only [hs] at h; cases h
  | ok st0 =>
    simp only [hs] at h
    have h0 := climbStart_ok hs
    subst h0
    exact climbLoop_inv (climbInv_start getScore ciphertext _ _) h

theorem decryptSubstCipher_bound {D G : Type} [DoubleOrder D] (hlaws : GtLaws D)
    {R : RandomSource G} {getScore : List Char → D} {fuel : Nat} {ciphertext : List Char}
    {g : G} {st : ClimbState D G}
    (h : decryptSubstCipher R getScore fuel ciphertext g = some (.ok st)) :
    (acceptedScores st.history).length ≤ (initialKey R g).length.factorial := by
  unfold decryptSubstCipher at h
  cases hs : climbStart R getScore ciphertext g with
  | error e => simp only [hs] at h; cases h
  | ok st0 =>
    simp only [hs] at h
    have h0 := climbStart_ok hs
    subst h0
    have := climbLoop_bound hlaws (climbInv_start getScore ciphertext _ _)
      (by simp [acceptedScores]) h
    have h2 := betterKeys_le_factorial getScore ciphertext (initialKey R g)
      (scoreOf getScore ciphertext (initialKey R g))
    omega

/-- A climb ends: when every retry eventually succeeds, some amount of fuel
makes `decryptSubstCipher` return. -/
theorem decryptSubstCipher_returns {D G : Type} [DoubleOrder D] (hlaws : GtLaws D)
    {R : RandomSource G} (hretry : RetrySucceeds R) (getScore : List Char → D)
    (ciphertext : List Char) (g : G) :
    ∃ fuel r, decryptSubstCipher R getScore fuel ciphertext g = some r := by
  unfold decryptSubstCipher
  cases hs : climbStart R getScore ciphertext g with
  | error e => exact ⟨0, .error e, rfl⟩
  | ok st0 =>
    have h0 := climbStart_ok hs
    subst h0
    exact climbLoop_returns hlaws hretry _ _ (climbInv_start getScore ciphertext _ _)
      (by simp [acceptedScores]) (Nat.le_refl _)

/-- More fuel does not change what a climb returns. -/
theorem decryptSubstCipher_mono {D G : Type} [DoubleOrder D] {R : RandomSource G}
    {getScore : List Char → D} {fuel fuel' : Nat} {ciphertext : List Char} {g : G}
    {r : Except Fault (ClimbState D G)}
    (h : decryptSubstCipher R getScore fuel ciphertext g = some r) (hle : fuel ≤ fuel') :
    decryptSubstCipher R getScore fuel' ciphertext g = some r := by
  unfold decryptSubstCipher at h ⊢
  cases hs : climbStart R getScore ciphertext g with
  | error e =>
    simp only [hs] at h ⊢
    exact h
  | ok st0 =>
    simp only [hs] at h ⊢
    exact climbLoop_mono h hle

/-- What a climb returns does not depend on the fuel. -/
theorem decryptSubstCipher_unique {D G : Type} [DoubleOrder D] {R : RandomSource G}
    {getScore : List Char → D} {fuel fuel' : Nat} {ciphertext : List Char} {g : G}
    {r r' : Except Fault (ClimbState D G)}
    (h : decryptSubstCipher R getScore fuel ciphertext g = some r)
    (h' : decryptSubstCipher R getScore fuel' ciphertext g = some r') : r = r' := by
  have h1 := decryptSubstCipher_mono h (Nat.le_max_left fuel fuel')
  have h2 := decryptSubstCipher_mono h' (Nat.le_max_right fuel fuel')
  rw [h1] at h2
  exact Option.some.inj h2

/-- With a random source that keeps its contract a climb never faults. -/
theorem decryptSubstCipher_no_fault {D G : Type} [DoubleOrder D] {R : RandomSource G}
    (hR : InRange R) {getScore : List Char → D} {fuel : Nat} {ciphertext : List Char} {g : G}
    {r : Except Fault (ClimbState D G)}
    (h : decryptSubstCipher R getScore fuel ciphertext g = some r) : ∃ st, r = .ok st := by
  unfold decryptSubstCipher at h
  rw [climbStart_returns R getScore ciphertext g (hR.2 g)] at h
  simp only at h
  exact climbLoop_no_fault hR.1 (hR.2 g) (climbInv_start getScore ciphertext _ _) h

/-- A climb ends normally: with a random source that keeps its contract and
whose retries succeed, some amount of fuel makes `decryptSubstCipher` return a
state. -/
theorem decryptSubstCipher_returns_ok {D G : Type} [DoubleOrder D] (hlaws : GtLaws D)
    {R : RandomSource G} (hR : InRange R) (hretry : RetrySucceeds R)
    (getScore : List Char → D) (ciphertext : List Char) (g : G) :
    ∃ fuel st, decryptSubstCipher R getScore fuel ciphertext g = some (.ok st) := by
  obtain ⟨fuel, r, h⟩ := decryptSubstCipher_returns hlaws hretry getScore ciphertext g
  obtain ⟨st, rfl⟩ := decryptSubstCipher_no_fault hR h
  exact ⟨fuel, st, h⟩
/-! ## Helper lemmas: the restarts -/

theorem rngAfter_append {D G : Type} (g : G) (runs : List (Run D G)) (r : Run D G) :
    rngAfter g (runs ++ [r]) = r.climb.rng := by
  simp [rngAfter]

/-- The state after a pass of the command that returned. -/
theorem commandPass_ok {D G : Type} [DoubleOrder D] {R : RandomSource G}
    {getScore : List Char → D} {fuel : Nat} {text : List Char} {st st' : CommandState D G}
    (h : commandPass R getScore fuel text st = some (.ok st')) :
    ∃ r : Run D G, r.start = st.rng ∧ RunOk R getScore fuel text r
      ∧ st' =
        (if DoubleOrder.gt r.score st.bestScore = true then
          { bestCipherKey := r.climb.bestCipherKey, bestDescryption := r.descryption,
            bestScore := r.score, rng := r.climb.rng, runs := st.runs ++ [r] }
        else
          { bestCipherKey := st.bestCipherKey, bestDescryption := st.bestDescryption,
            bestScore := st.bestScore, rng := r.climb.rng, runs := st.runs ++ [r] }) := by
  unfold commandPass at h
  cases hc : decryptSubstCipher R getScore fuel text st.rng with
  | none => simp only [hc] at h; cases h
  | some rc =>
    cases rc with
    | error e => simp only [hc] at h; cases h
    | ok c =>
      simp only [hc] at h
      cases hd : applySubstCipher c.bestCipherKey text with
      | error e => simp only [hd] at h; cases h
      | ok d =>
        simp only [hd] at h
        cases hs : scoreString getScore d with
        | error e => simp only [hs] at h; cases h
        | ok s =>
          simp only [hs] at h
          refine ⟨⟨st.rng, c, d, s⟩, rfl, ⟨hc, hd, hs⟩, ?_⟩
          split at h
          · rename_i hgt
            rw [if_pos hgt]
            exact (Except.ok.inj (Option.some.inj h)).symm
          · rename_i hgt
            rw [if_neg hgt]
            exact (Except.ok.inj (Option.some.inj h)).symm

/-- A pass of the command that returned keeps the invariant of its loop. -/
theorem commandPass_inv {D G : Type} [DoubleOrder D] (hlaws : GtLaws D) {R : RandomSource G}
    {getScore : List Char → D} {fuel : Nat} {text : List Char} {g : G}
    {st st' : CommandState D G} (hinv : CommandInv R getScore fuel text g st)
    (h : commandPass R getScore fuel text st = some (.ok st')) :
    CommandInv R getScore fuel text g st' ∧ st'.runs.length = st.runs.length + 1 := by
  obtain ⟨r, hstart, hrun, hst⟩ := commandPass_ok h
  have hruns : ∀ x ∈ st.runs ++ [r], RunOk R getScore fuel text x := by
    intro x hx
    rcases List.mem_append.mp hx with hx | hx
    · exact hinv.runs_ok x hx
    · rw [List.mem_singleton.mp hx]
      exact hrun
  have hlinked : ∀ (n : Nat) (hn : n < (st.runs ++ [r]).length),
      (st.runs ++ [r])[n].start = rngAfter g ((st.runs ++ [r]).take n) := by
    intro n hn
    have hle : n ≤ st.runs.length := by
      simp only [List.length_append, List.length_singleton] at hn
      omega
    rw [List.take_append_of_le_length hle]
    by_cases hnl : n < st.runs.length
    · rw [List.getElem_append_left hnl]
      exact hinv.linked n hnl
    · have hn2 : n = st.runs.length := by omega
      subst hn2
      simp only [List.getElem_concat_length, List.take_length, hstart]
      exact hinv.rng_eq
  by_cases hgt : DoubleOrder.gt r.score st.bestScore = true
  · rw [if_pos hgt] at hst
    subst hst
    refine ⟨⟨(rngAfter_append g st.runs r).symm, hruns, hlinked, Or.inr ?_⟩, by simp⟩
    refine ⟨st.runs.length, by simp, ?_⟩
    simp only [List.getElem_concat_length]
    refine ⟨trivial, trivial, trivial, ?_, ?_⟩
    · intro x hx
      rcases List.mem_append.mp hx with hx | hx
      · cases hgx : DoubleOrder.gt x.score r.score with
        | false => rfl
        | true =>
          have hxb := hlaws.trans _ _ _ hgx hgt
          rcases hinv.best with ⟨_, _, hb, hall⟩ | ⟨j, hj, _, _, hb, hall, _⟩
          · rw [hb, hall x hx] at hxb
            cases hxb
          · rw [hb, hall x hx] at hxb
            cases hxb
      · rw [List.mem_singleton.mp hx]
        exact hlaws.irrefl _
    · intro i hi hil heq
      rw [List.getElem_append_left hil] at heq
      have hmem : st.runs[i] ∈ st.runs := List.getElem_mem hil
      rw [← heq] at hgt
      rcases hinv.best with ⟨_, _, hb, hall⟩ | ⟨j, hj, _, _, hb, hall, _⟩
      · rw [hb, hall _ hmem] at hgt
        cases hgt
      · rw [hb, hall _ hmem] at hgt
        cases hgt
  · rw [if_neg hgt] at hst
    subst hst
    have hgt2 : DoubleOrder.gt r.score st.bestScore = false := by simpa using hgt
    refine ⟨⟨(rngAfter_append g st.runs r).symm, hruns, hlinked, ?_⟩, by simp⟩
    rcases hinv.best with ⟨hk, hd, hb, hall⟩ | ⟨j, hj, hk, hd, hb, hall, hearly⟩
    · refine Or.inl ⟨hk, hd, hb, ?_⟩
      intro x hx
      rcases List.mem_append.mp hx with hx | hx
      · exact hall x hx
      · rw [List.mem_singleton.mp hx, ← hb]
        exact hgt2
    · refine Or.inr ⟨j, by simp only [List.length_append, List.length_singleton]; omega, ?_⟩
      simp only [List.getElem_append_left hj]
      refine ⟨hk, hd, hb, ?_, ?_⟩
      · intro x hx
        rcases List.mem_append.mp hx with hx | hx
        · exact hall x hx
        · rw [List.mem_singleton.mp hx, ← hb]
          exact hgt2
      · intro i hi hij
        have hil : i < st.runs.length := by omega
        rw [List.getElem_append_left hil]
        exact hearly i hil hij

theorem commandLoop_inv {D G : Type} [DoubleOrder D] (hlaws : GtLaws D) {R : RandomSource G}
    {getScore : List Char → D} {fuel : Nat} {text : List Char} {g : G} {n : Nat}
    {st st' : CommandState D G} (hinv : CommandInv R getScore fuel text g st)
    (h : commandLoop R getScore fuel text n st = some (.ok st')) :
    CommandInv R getScore fuel text g st' ∧ st'.runs.length = st.runs.length + n := by
  induction n generalizing st with
  | zero =>
    simp only [commandLoop] at h
    cases h
    exact ⟨hinv, rfl⟩
  | succ n ih =>
    simp only [commandLoop] at h
    cases hp : commandPass R getScore fuel text st with
    | none => simp only [hp] at h; cases h
    | some rp =>
      cases rp with
      | error e => simp only [hp] at h; cases h
      | ok st1 =>
        simp only [hp] at h
        obtain ⟨hinv1, hlen1⟩ := commandPass_inv hlaws hinv hp
        obtain ⟨hinv2, hlen2⟩ := ih hinv1 h
        exact ⟨hinv2, by omega⟩

theorem commandInv_start {D G : Type} [DoubleOrder D] (R : RandomSource G)
    (getScore : List Char → D) (fuel : Nat) (text : List Char) (g : G) :
    CommandInv R getScore fuel text g
      ({ bestCipherKey := [], bestDescryption := [], bestScore := DoubleOrder.negInfinity,
         rng := g, runs := [] } : CommandState D G) := by
  refine ⟨rfl, ?_, ?_, Or.inl ⟨rfl, rfl, rfl, ?_⟩⟩
  · intro r hr
    cases hr
  · intro n h
    simp at h
  · intro r hr
    cases hr

/-- More fuel does not change what a pass of the command returns. -/
theorem commandPass_mono {D G : Type} [DoubleOrder D] {R : RandomSource G}
    {getScore : List Char → D} {fuel fuel' : Nat} {text : List Char} {st : CommandState D G}
    {r : Except Fault (CommandState D G)}
    (h : commandPass R getScore fuel text st = some r) (hle : fuel ≤ fuel') :
    commandPass R getScore fuel' text st = some r := by
  unfold commandPass at h ⊢
  cases hc : decryptSubstCipher R getScore fuel text st.rng with
  | none => simp only [hc] at h; cases h
  | some rc =>
    rw [decryptSubstCipher_mono hc hle]
    simp only [hc] at h
    exact h

theorem commandLoop_mono {D G : Type} [DoubleOrder D] {R : RandomSource G}
    {getScore : List Char → D} {fuel fuel' : Nat} {text : List Char} {n : Nat}
    {st : CommandState D G} {r : Except Fault (CommandState D G)}
    (h : commandLoop R getScore fuel text n st = some r) (hle : fuel ≤ fuel') :
    commandLoop R getScore fuel' text n st = some r := by
  induction n generalizing st with
  | zero => exact h
  | succ n ih =>
    simp only [commandLoop] at h ⊢
    cases hp : commandPass R getScore fuel text st with
    | none => simp only [hp] at h; cases h
    | some rp =>
      rw [commandPass_mono hp hle]
      simp only [hp] at h
      cases rp with
      | error e => exact h
      | ok st1 => exact ih h

/-- What the command returns does not depend on the fuel. -/
theorem decryptSubstCipherCommand_unique {D G : Type} [DoubleOrder D] {R : RandomSource G}
    {getScore : List Char → D} {fuel fuel' : Nat} {text : List Char} {g : G}
    {r r' : Except Fault (CommandState D G)}
    (h : decryptSubstCipherCommand R getScore fuel text g = some r)
    (h' : decryptSubstCipherCommand R getScore fuel' text g = some r') : r = r' := by
  have h1 := commandLoop_mono h (Nat.le_max_left fuel fuel')
  have h2 := commandLoop_mono h' (Nat.le_max_right fuel fuel')
  unfold decryptSubstCipherCommand at h h'
  rw [h1] at h2
  exact Option.some.inj h2

/-- A pass of the command returns a state when the random source keeps its
contract and its retries succeed. -/
theorem commandPass_returns {D G : Type} [DoubleOrder D] (hlaws : GtLaws D)
    {R : RandomSource G} (hR : InRange R) (hretry : RetrySucceeds R)
    (getScore : List Char → D) (text : List Char) (st : CommandState D G) :
    ∃ fuel st', commandPass R getScore fuel text st = some (.ok st') := by
  obtain ⟨fuel, c, hc⟩ := decryptSubstCipher_returns_ok hlaws hR hretry getScore text st.rng
  have hlen : c.bestCipherKey.length = 26 := by
    rw [(decryptSubstCipher_inv hc).1.key_perm.length_eq]
    exact hR.2 st.rng
  refine ⟨fuel, ?_⟩
  unfold commandPass
  simp only [hc, applySubstCipher_eq_substituteSpec c.bestCipherKey text (by omega),
    scoreString_eq]
  split
  · exact ⟨_, rfl⟩
  · exact ⟨_, rfl⟩

theorem commandLoop_returns {D G : Type} [DoubleOrder D] (hlaws : GtLaws D)
    {R : RandomSource G} (hR : InRange R) (hretry : RetrySucceeds R)
    (getScore : List Char → D) (text : List Char) (n : Nat) (st : CommandState D G) :
    ∃ fuel st', commandLoop R getScore fuel text n st = some (.ok st') := by
  induction n generalizing st with
  | zero => exact ⟨0, st, rfl⟩
  | succ n ih =>
    obtain ⟨f1, st1, h1⟩ := commandPass_returns hlaws hR hretry getScore text st
    obtain ⟨f2, st2, h2⟩ := ih st1
    refine ⟨max f1 f2, st2, ?_⟩
    simp only [commandLoop, commandPass_mono h1 (Nat.le_max_left f1 f2)]
    exact commandLoop_mono h2 (Nat.le_max_right f1 f2)

/-! ## Helper lemmas: the stall counter and the records -/

theorem stall_rejected {D : Type} (l : List (Trial D)) :
    ∀ (i : Nat) (h : i < l.length), l.length - stall l ≤ i → l[i].accepted = false := by
  induction l using List.reverseRecOn with
  | nil =>
    intro i h
    simp at h
  | append_singleton init t ih =>
    intro i h hi
    rw [stall_append] at hi
    simp only [List.length_append, List.length_singleton] at h hi
    by_cases ha : t.accepted = true
    · rw [if_pos ha] at hi
      omega
    · rw [if_neg ha] at hi
      by_cases hil : i < init.length
      · rw [List.getElem_append_left hil]
        exact ih i hil (by omega)
      · have : i = init.length := by omega
        subst this
        simpa using ha

theorem le_stall {D : Type} (l : List (Trial D)) :
    ∀ k, k ≤ l.length →
      (∀ (i : Nat) (h : i < l.length), l.length - k ≤ i → l[i].accepted = false) →
      k ≤ stall l := by
  induction l using List.reverseRecOn with
  | nil =>
    intro k hk _
    have hk0 : k = 0 := by simpa using hk
    subst hk0
    exact Nat.zero_le _
  | append_singleton init t ih =>
    intro k hk hall
    simp only [List.length_append, List.length_singleton] at hk
    cases k with
    | zero => omega
    | succ k =>
      have ht : t.accepted = false := by
        have := hall init.length (by simp) (by simp)
        simpa using this
      rw [stall_append, ht]
      simp only [Bool.false_eq_true, if_false]
      have := ih k (by omega) (by
        intro i h hi
        have h2 := hall i (by simp; omega) (by simp; omega)
        rwa [List.getElem_append_left h] at h2)
      omega

/-- In a sequence of trials no proper prefix of which ends with `w` rejected
trials, every window of `w` consecutive trials that ends before the last
trial holds an accepted trial. -/
theorem accepted_in_window {D : Type} (l : List (Trial D)) (w : Nat)
    (hearly : ∀ n, n < l.length → stall (l.take n) < w) (i : Nat)
    (hi : i + w < l.length) :
    ∃ (j : Nat) (hj : j < l.length), i ≤ j ∧ j < i + w ∧ l[j].accepted = true := by
  by_contra hcon
  have hlen : (l.take (i + w)).length = i + w := by
    rw [List.length_take]; omega
  have hall : ∀ (j : Nat) (h : j < (l.take (i + w)).length),
      (l.take (i + w)).length - w ≤ j → (l.take (i + w))[j].accepted = false := by
    intro j h hj
    rw [List.getElem_take]
    cases hacc : l[j].accepted with
    | false => rfl
    | true => exact absurd ⟨j, by omega, by omega, by omega, hacc⟩ hcon
  have h1 := le_stall (l.take (i + w)) w (by omega) hall
  have h2 := hearly (i + w) hi
  omega

theorem take_succ_bestAfter {D : Type} (b : List Char × D) (l : List (Trial D)) (n : Nat)
    (h : n < l.length) :
    bestAfter b (l.take (n + 1))
      = if l[n].accepted then (l[n].candidate, l[n].candidateScore)
        else bestAfter b (l.take n) := by
  rw [List.take_succ, List.getElem?_eq_getElem h]
  exact bestAfter_append b (l.take n) l[n]

/-! ## Helper lemmas: the random source of the examples -/

theorem gtLaws_int : GtLaws Int :=
  ⟨fun a => by simp [DoubleOrder.gt],
   fun a b c hab hbc => by
    simp only [DoubleOrder.gt, decide_eq_true_eq] at hab hbc ⊢
    omega⟩

theorem inRange_counterSource : InRange counterSource := by
  refine ⟨fun g => ?_, fun g => ?_⟩
  · simp only [counterSource]
    omega
  · show ALPHABET.length = 26
    decide

theorem retrySucceeds_counterSource : RetrySucceeds counterSource := by
  intro g pos1
  by_cases h : ((g % 26 : Nat) : Int) = pos1
  · refine ⟨2, ((((g + 1) % 26 : Nat) : Int), g + 1 + 1), ?_⟩
    have h2 : ¬ ((((g + 1) % 26 : Nat) : Int) = pos1) := by omega
    simp only [drawSecondPos, counterSource, if_pos h, if_neg h2]
  · refine ⟨1, (((g % 26 : Nat) : Int), g + 1), ?_⟩
    simp only [drawSecondPos, counterSource, if_neg h]
/-- With draws in `[0, 25]` and an initial key of 26 entries a climb never faults. -/
theorem decryptSubstCipher_no_fault_of_length {D G : Type} [DoubleOrder D]
    {R : RandomSource G} (hR : ∀ g, 0 ≤ (R.randInt g 25).1 ∧ (R.randInt g 25).1 ≤ 25)
    {getScore : List Char → D} {fuel : Nat} {ciphertext : List Char} {g : G}
    (hlen : (initialKey R g).length = 26) {r : Except Fault (ClimbState D G)}
    (h : decryptSubstCipher R getScore fuel ciphertext g = some r) : ∃ st, r = .ok st := by
  unfold decryptSubstCipher at h
  rw [climbStart_returns R getScore ciphertext g hlen] at h
  simp only at h
  exact climbLoop_no_fault hR hlen (climbInv_start getScore ciphertext _ _) h

/-- The accepted scores rise: each is greater than every earlier one and than
the initial score, and the final best score is the initial score or greater. -/
theorem accepted_scores_rise {D G : Type} [DoubleOrder D] (hlaws : GtLaws D)
    {getScore : List Char → D} {ciphertext K0 : List Char} {s0 : D} {st : ClimbState D G}
    (hinv : ClimbInv getScore ciphertext K0 s0 st) :
    List.Pairwise (fun a b => DoubleOrder.gt b a = true) (s0 :: acceptedScores st.history)
      ∧ (st.bestScore = s0 ∨ DoubleOrder.gt st.bestScore s0 = true)
      ∧ DoubleOrder.gt s0 st.bestScore = false := by
  haveI : IsTrans D (fun a b => DoubleOrder.gt b a = true) :=
    ⟨fun a b c hab hbc => hlaws.trans c b a hbc hab⟩
  have hp : List.Pairwise (fun a b => DoubleOrder.gt b a = true)
      (s0 :: acceptedScores st.history) := List.chain'_iff_pairwise.mp hinv.chain
  have hor : st.bestScore = s0 ∨ DoubleOrder.gt st.bestScore s0 = true := by
    have hlast := hinv.last
    cases hacc : acceptedScores st.history with
    | nil =>
      rw [hacc] at hlast
      simp only [List.getLast?_singleton, Option.some.injEq] at hlast
      exact Or.inl hlast.symm
    | cons a t =>
      rw [hacc] at hlast hp
      right
      have hmem : st.bestScore ∈ a :: t := by
        rw [List.getLast?_cons_cons] at hlast
        exact List.mem_of_getLast?_eq_some hlast
      exact (List.pairwise_cons.mp hp).1 _ hmem
  refine ⟨hp, hor, ?_⟩
  rcases hor with h | h
  · rw [h]
    exact hlaws.irrefl _
  · cases hg : DoubleOrder.gt s0 st.bestScore with
    | false => rfl
    | true =>
      have := hlaws.trans _ _ _ hg h
      rw [hlaws.irrefl] at this
      cases this

/-! ## The hill climb: the claims -/

/-- C12: in a single hill climb, for every ciphertext, scorer and random
source, the tracked best key and score change only when a candidate is
accepted: a trial accepts its candidate exactly when the candidate's score is
greater than the best score, an accepted candidate becomes the best, a
rejected one leaves the best key and the best score as they were. Whenever
the climb returns, the best score before each trial is the one left by the
trials before it, the accepted scores, headed by the initial score, rise
strictly, and the returned key's decryption scores the initial key's score or
more. The climb does return when the random source keeps its contract and its
retries succeed. -/
theorem climb_accepts_only_improvements {D G : Type} [DoubleOrder D] (hlaws : GtLaws D)
    (R : RandomSource G) (getScore : List Char → D) (ciphertext : List Char) (g : G) :
    (∀ (st st' : ClimbState D G) (pos1 pos2 : Int) (g' : G),
        climbTrial getScore ciphertext st pos1 pos2 g' = .ok st' →
        ∃ t : Trial D, st'.history = st.history ++ [t]
          ∧ t.current = st.bestCipherKey ∧ t.currentScore = st.bestScore
          ∧ t.accepted = DoubleOrder.gt t.candidateScore st.bestScore
          ∧ (t.accepted = true →
              st'.bestCipherKey = t.candidate ∧ st'.bestScore = t.candidateScore
                ∧ DoubleOrder.gt st'.bestScore st.bestScore = true)
          ∧ (t.accepted = false →
              st'.bestCipherKey = st.bestCipherKey ∧ st'.bestScore = st.bestScore))
      ∧ (∀ (fuel : Nat) (st : ClimbState D G),
          decryptSubstCipher R getScore fuel ciphertext g = some (.ok st) →
          (st.bestCipherKey, st.bestScore)
              = bestAfter (initialKey R g, scoreOf getScore ciphertext (initialKey R g))
                  st.history
            ∧ (∀ (n : Nat) (h : n < st.history.length),
                (st.history[n].current, st.history[n].currentScore)
                    = bestAfter
                        (initialKey R g, scoreOf getScore ciphertext (initialKey R g))
                        (st.history.take n)
                  ∧ st.history[n].accepted
                      = DoubleOrder.gt st.history[n].candidateScore
                          st.history[n].currentScore
                  ∧ bestAfter (initialKey R g, scoreOf getScore ciphertext (initialKey R g))
                        (st.history.take (n + 1))
                      = (if st.history[n].accepted
                          then (st.history[n].candidate, st.history[n].candidateScore)
                          else (st.history[n].current, st.history[n].currentScore)))
            ∧ List.Chain' (fun a b => DoubleOrder.gt b a = true)
                (scoreOf getScore ciphertext (initialKey R g) :: acceptedScores st.history)
            ∧ List.Pairwise (fun a b => DoubleOrder.gt b a = true)
                (scoreOf getScore ciphertext (initialKey R g) :: acceptedScores st.history)
            ∧ st.bestScore = scoreOf getScore ciphertext st.bestCipherKey
            ∧ (st.bestScore = scoreOf getScore ciphertext (initialKey R g)
                ∨ DoubleOrder.gt st.bestScore
                    (scoreOf getScore ciphertext (initialKey R g)) = true)
            ∧ DoubleOrder.gt (scoreOf getScore ciphertext (initialKey R g)) st.bestScore
                = false)
      ∧ (InRange R → RetrySucceeds R →
          ∃ fuel st, decryptSubstCipher R getScore fuel ciphertext g = some (.ok st)) := by
  refine ⟨?_, ?_, fun hR hretry =>
    decryptSubstCipher_returns_ok hlaws hR hretry getScore ciphertext g⟩
  · intro st st' pos1 pos2 g' h
    obtain ⟨_, _, _, _, hst⟩ := climbTrial_ok h
    by_cases hgt : DoubleOrder.gt
        (scoreOf getScore ciphertext (swapSpec st.bestCipherKey pos1.toNat pos2.toNat))
        st.bestScore = true
    · rw [if_pos hgt] at hst
      subst hst
      exact ⟨_, rfl, rfl, rfl, hgt.symm, fun _ => ⟨rfl, rfl, hgt⟩,
        fun h => Bool.noConfusion h⟩
    · rw [if_neg hgt] at hst
      subst hst
      have hgt2 : DoubleOrder.gt
          (scoreOf getScore ciphertext (swapSpec st.bestCipherKey pos1.toNat pos2.toNat))
          st.bestScore = false := by simpa using hgt
      exact ⟨_, rfl, rfl, rfl, hgt2.symm, fun h => Bool.noConfusion h, fun _ => ⟨rfl, rfl⟩⟩
  · intro fuel st h
    obtain ⟨hinv, _⟩ := decryptSubstCipher_inv h
    obtain ⟨hp, hor, hnot⟩ := accepted_scores_rise hlaws hinv
    refine ⟨hinv.best_eq, ?_, hinv.chain, hp, hinv.score_eq, hor, hnot⟩
    intro n hn
    have hl := hinv.linked n hn
    refine ⟨hl, (hinv.trials_ok _ (List.getElem_mem hn)).accepted_eq, ?_⟩
    rw [take_succ_bestAfter _ _ n hn]
    by_cases ha : st.history[n].accepted = true
    · simp only [ha, if_true]
    · simp only [ha, Bool.false_eq_true, if_false]
      exact hl.symm

/-- C12 on the counter source: the climb on `XLI UYMGO FVSAR JSB` returns, and
its best score is the initial score or greater. -/
theorem climb_accepts_only_improvements_witness :
    ∃ fuel st,
      decryptSubstCipher counterSource (fun q => ((q.headD 'A').toNat : Int)) fuel
          "XLI UYMGO FVSAR JSB".toList 0 = some (.ok st)
        ∧ List.Chain' (fun a b => DoubleOrder.gt b a = true)
            (scoreOf (fun q => ((q.headD 'A').toNat : Int)) "XLI UYMGO FVSAR JSB".toList
                (initialKey counterSource 0) :: acceptedScores st.history)
        ∧ DoubleOrder.gt
            (scoreOf (fun q => ((q.headD 'A').toNat : Int)) "XLI UYMGO FVSAR JSB".toList
              (initialKey counterSource 0)) st.bestScore = false := by
  have h := climb_accepts_only_improvements gtLaws_int counterSource
    (fun q => ((q.headD 'A').toNat : Int)) "XLI UYMGO FVSAR JSB".toList 0
  obtain ⟨fuel, st, hst⟩ := h.2.2 inRange_counterSource retrySucceeds_counterSource
  have hw := h.2.1 fuel st hst
  exact ⟨fuel, st, hst, hw.2.2.1, hw.2.2.2.2.2.2⟩
theorem acceptedScores_length {D : Type} (l : List (Trial D)) :
    (acceptedScores l).length = l.countP fun t => t.accepted := by
  simp [acceptedScores, List.countP_eq_length_filter]

/-- C17: for every ciphertext, every scorer and every random source whose
reject-and-retry for a distinct second position always succeeds in the end, a
single hill climb terminates: some amount of fuel makes `decryptSubstCipher`
return, and what it returns does not depend on the fuel. When it returns a
state, the number of trials is at most 1000 times (number of acceptances + 1)
and the number of acceptances is at most the number of orderings of the key
(the factorial of its length, `26!` for a key of 26 entries), because every
acceptance strictly raises the best score. With a random source that keeps its
contract it does return a state. -/
theorem climb_terminates {D G : Type} [DoubleOrder D] (hlaws : GtLaws D)
    (R : RandomSource G) (hretry : RetrySucceeds R) (getScore : List Char → D)
    (ciphertext : List Char) (g : G) :
    ∃ fuel r, decryptSubstCipher R getScore fuel ciphertext g = some r
      ∧ (∀ fuel' r', decryptSubstCipher R getScore fuel' ciphertext g = some r' → r' = r)
      ∧ (∀ st, r = .ok st →
          st.history.length ≤ 1000 * ((st.history.countP fun t => t.accepted) + 1)
            ∧ (st.history.countP fun t => t.accepted) ≤ (initialKey R g).length.factorial
            ∧ List.Chain' (fun a b => DoubleOrder.gt b a = true)
                (scoreOf getScore ciphertext (initialKey R g) :: acceptedScores st.history)
            ∧ (acceptedScores st.history).length = st.history.countP fun t => t.accepted)
      ∧ (InRange R → ∃ st, r = .ok st
          ∧ (st.history.countP fun t => t.accepted) ≤ Nat.factorial 26) := by
  obtain ⟨fuel, r, h⟩ := decryptSubstCipher_returns hlaws hretry getScore ciphertext g
  have hfacts : ∀ st, r = .ok st →
      st.history.length ≤ 1000 * ((st.history.countP fun t => t.accepted) + 1)
        ∧ (st.history.countP fun t => t.accepted) ≤ (initialKey R g).length.factorial
        ∧ List.Chain' (fun a b => DoubleOrder.gt b a = true)
            (scoreOf getScore ciphertext (initialKey R g) :: acceptedScores st.history)
        ∧ (acceptedScores st.history).length = st.history.countP fun t => t.accepted := by
    intro st hst
    subst hst
    obtain ⟨hinv, htr⟩ := decryptSubstCipher_inv h
    have hcount := hinv.count
    have hb := decryptSubstCipher_bound hlaws h
    rw [acceptedScores_length] at hcount hb
    refine ⟨by omega, hb, hinv.chain, acceptedScores_length _⟩
  refine ⟨fuel, r, h, fun fuel' r' h' => decryptSubstCipher_unique h' h, hfacts, ?_⟩
  intro hR
  obtain ⟨st, hst⟩ := decryptSubstCipher_no_fault hR h
  refine ⟨st, hst, ?_⟩
  have := (hfacts st hst).2.1
  have hlen : (initialKey R g).length = 26 := hR.2 g
  rwa [hlen] at this

/-- C17 on the counter source, whose retry succeeds at the second draw at the
latest. -/
theorem climb_terminates_witness :
    ∃ fuel r,
      decryptSubstCipher counterSource (fun q => ((q.headD 'A').toNat : Int)) fuel
          "XLI UYMGO FVSAR JSB".toList 0 = some r
        ∧ ∃ st, r = .ok st
          ∧ st.history.length ≤ 1000 * ((st.history.countP fun t => t.accepted) + 1) := by
  obtain ⟨fuel, r, h, _, hfacts, hok⟩ := climb_terminates gtLaws_int counterSource
    retrySucceeds_counterSource (fun q => ((q.headD 'A').toNat : Int))
    "XLI UYMGO FVSAR JSB".toList 0
  obtain ⟨st, hst, _⟩ := hok inRange_counterSource
  exact ⟨fuel, r, h, st, hst, (hfacts st hst).1⟩

/-- C18: a single hill climb stops exactly when the stall counter reaches 1000.
The counter is 0 when the loop is entered and after every accepted candidate
and grows by 1 on every rejected candidate; the loop returns at once at 1000
and makes a trial below 1000. Whenever the climb returns, the counter is 1000
and is the number of rejected trials at the end of the trial sequence; after
each number of trials the counter was at most 1000, and below 1000 before the
last trial; so the last 1000 trials were all rejected, every earlier window of
1000 consecutive trials holds an accepted one, and at least 1000 candidate
keys were evaluated. The climb does return when the random source keeps its
contract and its retries succeed. -/
theorem climb_stops_at_thousand_stalls {D G : Type} [DoubleOrder D] (hlaws : GtLaws D)
    (R : RandomSource G) (getScore : List Char → D) (ciphertext : List Char) (g : G) :
    (∀ st, climbStart R getScore ciphertext g = .ok st → st.trials = 0)
      ∧ (∀ (st st' : ClimbState D G) (pos1 pos2 : Int) (g' : G),
          climbTrial getScore ciphertext st pos1 pos2 g' = .ok st' →
          ∃ t : Trial D, st'.history = st.history ++ [t]
            ∧ (t.accepted = true → st'.trials = 0)
            ∧ (t.accepted = false → st'.trials = st.trials + 1))
      ∧ (∀ (fuel : Nat) (st : ClimbState D G), ¬ st.trials < 1000 →
          climbLoop R getScore ciphertext (fuel + 1) st = some (.ok st))
      ∧ (∀ (fuel : Nat) (st st' : ClimbState D G), st.trials < 1000 →
          climbLoop R getScore ciphertext fuel st = some (.ok st') →
          st.history.length < st'.history.length)
      ∧ (∀ (fuel : Nat) (st : ClimbState D G),
          decryptSubstCipher R getScore fuel ciphertext g = some (.ok st) →
          st.trials = 1000
            ∧ st.trials = stall st.history
            ∧ (∀ n, n ≤ st.history.length → stall (st.history.take n) ≤ 1000)
            ∧ (∀ n, n < st.history.length → stall (st.history.take n) < 1000)
            ∧ 1000 ≤ st.history.length
            ∧ (∀ (i : Nat) (h : i < st.history.length), st.history.length - 1000 ≤ i →
                st.history[i].accepted = false)
            ∧ (∀ i, i + 1000 < st.history.length →
                ∃ (j : Nat) (hj : j < st.history.length), i ≤ j ∧ j < i + 1000
                  ∧ st.history[j].accepted = true))
      ∧ (InRange R → RetrySucceeds R →
          ∃ fuel st, decryptSubstCipher R getScore fuel ciphertext g = some (.ok st)) := by
  refine ⟨?_, ?_, ?_, ?_, ?_, fun hR hretry =>
    decryptSubstCipher_returns_ok hlaws hR hretry getScore ciphertext g⟩
  · intro st h
    rw [climbStart_ok h]
  · intro st st' pos1 pos2 g' h
    obtain ⟨_, _, _, _, hst⟩ := climbTrial_ok h
    split at hst
    · subst hst
      exact ⟨_, rfl, fun _ => rfl, fun h => Bool.noConfusion h⟩
    · subst hst
      exact ⟨_, rfl, fun h => Bool.noConfusion h, fun _ => rfl⟩
  · intro fuel st hlt
    simp only [climbLoop, hlt, if_false]
  · intro fuel st st' hlt h
    cases fuel with
    | zero => cases h
    | succ n =>
      simp only [climbLoop, hlt, if_true] at h
      cases hd : drawSecondPos R (R.randInt st.rng 25).1 n (R.randInt st.rng 25).2 with
      | none => simp only [hd] at h; cases h
      | some d2 =>
        simp only [hd] at h
        cases ht : climbTrial getScore ciphertext st (R.randInt st.rng 25).1 d2.1 d2.2 with
        | error e => simp only [ht] at h; cases h
        | ok st2 =>
          simp only [ht] at h
          obtain ⟨_, _, _, _, hst⟩ := climbTrial_ok ht
          have hlen2 : st2.history.length = st.history.length + 1 := by
            split at hst <;> (subst hst; simp)
          have hmono : ∀ (f : Nat) (a b : ClimbState D G),
              climbLoop R getScore ciphertext f a = some (.ok b) →
              a.history.length ≤ b.history.length := by
            intro f
            induction f with
            | zero => intro a b hab; cases hab
            | succ f ihf =>
              intro a b hab
              simp only [climbLoop] at hab
              by_cases hlt2 : a.trials < 1000
              · rw [if_pos hlt2] at hab
                cases hd2 : drawSecondPos R (R.randInt a.rng 25).1 f (R.randInt a.rng 25).2 with
                | none => simp only [hd2] at hab; cases hab
                | some e2 =>
                  simp only [hd2] at hab
                  cases ht2 : climbTrial getScore ciphertext a (R.randInt a.rng 25).1
                      e2.1 e2.2 with
                  | error e => simp only [ht2] at hab; cases hab
                  | ok a2 =>
                    simp only [ht2] at hab
                    obtain ⟨_, _, _, _, ha2⟩ := climbTrial_ok ht2
                    have hl : a2.history.length = a.history.length + 1 := by
                      split at ha2 <;> (subst ha2; simp)
                    have := ihf a2 b hab
                    omega
              · rw [if_neg hlt2] at hab
                cases hab
                exact Nat.le_refl _
          have := hmono n st2 st' h
          omega
  · intro fuel st h
    obtain ⟨hinv, htr⟩ := decryptSubstCipher_inv h
    have hstall : stall st.history = 1000 := by rw [← hinv.trials_eq, htr]
    have hlen : 1000 ≤ st.history.length := by
      have := stall_le_length st.history
      omega
    refine ⟨htr, hinv.trials_eq, ?_, hinv.no_early_stall, hlen, ?_, ?_⟩
    · intro n hn
      by_cases hnl : n < st.history.length
      · exact Nat.le_of_lt (hinv.no_early_stall n hnl)
      · have : n = st.history.length := by omega
        rw [this, List.take_length, hstall]
    · intro i hi hge
      exact stall_rejected st.history i hi (by omega)
    · intro i hi
      exact accepted_in_window st.history 1000 hinv.no_early_stall i hi

/-- C18 on the counter source: the climb returns with the counter at 1000 and
at least 1000 trials made. -/
theorem climb_stops_at_thousand_stalls_witness :
    ∃ fuel st,
      decryptSubstCipher counterSource (fun q => ((q.headD 'A').toNat : Int)) fuel
          "XLI UYMGO FVSAR JSB".toList 0 = some (.ok st)
        ∧ st.trials = 1000 ∧ 1000 ≤ st.history.length
        ∧ ∀ (i : Nat) (h : i < st.history.length), st.history.length - 1000 ≤ i →
            st.history[i].accepted = false := by
  have h := climb_stops_at_thousand_stalls gtLaws_int counterSource
    (fun q => ((q.headD 'A').toNat : Int)) "XLI UYMGO FVSAR JSB".toList 0
  obtain ⟨fuel, st, hst⟩ :=
    h.2.2.2.2.2 inRange_counterSource retrySucceeds_counterSource
  have hw := h.2.2.2.2.1 fuel st hst
  exact ⟨fuel, st, hst, hw.1, hw.2.2.2.2.1, hw.2.2.2.2.2.1⟩
/-- C19: provided the initial key from `genRandomSubstCipher` is a permutation
of the 26 letters `A`..`Z` and `randInt(25)` returns values in `[0, 25]`, a
climb never faults, and every key held during it (the current best and the
candidate of every trial) and the key returned is a permutation of `A`..`Z`
with exactly 26 entries; each candidate is the current key with the symbols at
two distinct positions in `[0, 26)` exchanged, so it holds at each of the two
positions the symbol the current key holds at the other, agrees with the
current key everywhere else, and differs from it at both positions. The climb
does return when the retries succeed. -/
theorem climb_keys_are_permutations {D G : Type} [DoubleOrder D] (hlaws : GtLaws D)
    (R : RandomSource G) (getScore : List Char → D) (ciphertext : List Char) (g : G)
    (hperm : (initialKey R g).Perm ALPHABET)
    (hR : ∀ g, 0 ≤ (R.randInt g 25).1 ∧ (R.randInt g 25).1 ≤ 25) :
    (∀ fuel r, decryptSubstCipher R getScore fuel ciphertext g = some r →
        ∃ st, r = .ok st
          ∧ st.bestCipherKey.Perm ALPHABET ∧ st.bestCipherKey.length = 26
          ∧ ∀ t ∈ st.history,
              t.current.Perm ALPHABET ∧ t.current.length = 26
                ∧ t.candidate.Perm ALPHABET ∧ t.candidate.length = 26
                ∧ 0 ≤ t.pos1 ∧ t.pos1 < 26 ∧ 0 ≤ t.pos2 ∧ t.pos2 < 26 ∧ t.pos1 ≠ t.pos2
                ∧ t.candidate = swapSpec t.current t.pos1.toNat t.pos2.toNat
                ∧ t.candidate[t.pos1.toNat]? = t.current[t.pos2.toNat]?
                ∧ t.candidate[t.pos2.toNat]? = t.current[t.pos1.toNat]?
                ∧ (∀ k, k ≠ t.pos1.toNat → k ≠ t.pos2.toNat →
                    t.candidate[k]? = t.current[k]?)
                ∧ t.candidate[t.pos1.toNat]? ≠ t.current[t.pos1.toNat]?
                ∧ t.candidate[t.pos2.toNat]? ≠ t.current[t.pos2.toNat]?)
      ∧ (RetrySucceeds R →
          ∃ fuel st, decryptSubstCipher R getScore fuel ciphertext g = some (.ok st)) := by
  have hA : ALPHABET.length = 26 := by decide
  have hAnd : ALPHABET.Nodup := by decide
  have hlen0 : (initialKey R g).length = 26 := by rw [hperm.length_eq, hA]
  constructor
  · intro fuel r h
    obtain ⟨st, rfl⟩ := decryptSubstCipher_no_fault_of_length hR hlen0 h
    obtain ⟨hinv, _⟩ := decryptSubstCipher_inv h
    refine ⟨st, rfl, hinv.key_perm.trans hperm, by rw [hinv.key_perm.length_eq, hlen0], ?_⟩
    intro t ht
    have hok := hinv.trials_ok t ht
    have hcl : t.current.length = 26 := by rw [hok.current_perm.length_eq, hlen0]
    have hnd : t.current.Nodup := (hok.current_perm.trans hperm).nodup_iff.mpr hAnd
    obtain ⟨h1a, h1b⟩ := hok.pos1_range
    obtain ⟨h2a, h2b⟩ := hok.pos2_range
    rw [hlen0] at h1b h2b
    have hi : t.pos1.toNat < t.current.length := by omega
    have hj : t.pos2.toNat < t.current.length := by omega
    have hne : t.pos1.toNat ≠ t.pos2.toNat := by
      have := hok.pos_ne
      omega
    obtain ⟨g1, g2, g3⟩ := swapSpec_getElem? t.current t.pos1.toNat t.pos2.toNat hi hj
    have hdiff : t.current[t.pos2.toNat]? ≠ t.current[t.pos1.toNat]? := by
      rw [List.getElem?_eq_getElem hi, List.getElem?_eq_getElem hj]
      intro heq
      exact hne ((List.Nodup.getElem_inj_iff hnd).mp (Option.some.inj heq)).symm
    refine ⟨hok.current_perm.trans hperm, hcl, hok.candidate_perm.trans hperm,
      by rw [hok.candidate_perm.length_eq, hlen0], h1a, by omega, h2a, by omega, hok.pos_ne,
      hok.candidate_eq, ?_, ?_, ?_, ?_, ?_⟩
    · rw [hok.candidate_eq]; exact g1
    · rw [hok.candidate_eq]; exact g2
    · rw [hok.candidate_eq]; exact g3
    · rw [hok.candidate_eq, g1]; exact hdiff
    · rw [hok.candidate_eq, g2]; exact hdiff.symm
  · intro hretry
    obtain ⟨fuel, r, h⟩ := decryptSubstCipher_returns hlaws hretry getScore ciphertext g
    obtain ⟨st, rfl⟩ := decryptSubstCipher_no_fault_of_length hR hlen0 h
    exact ⟨fuel, st, h⟩

/-- C19 on the counter source, whose initial key is the alphabet: the climb
returns a permutation of the alphabet. -/
theorem climb_keys_are_permutations_witness :
    ∃ fuel st,
      decryptSubstCipher counterSource (fun q => ((q.headD 'A').toNat : Int)) fuel
          "XLI UYMGO FVSAR JSB".toList 0 = some (.ok st)
        ∧ st.bestCipherKey.Perm ALPHABET ∧ st.bestCipherKey.length = 26 := by
  have h := climb_keys_are_permutations gtLaws_int counterSource
    (fun q => ((q.headD 'A').toNat : Int)) "XLI UYMGO FVSAR JSB".toList 0
    (List.Perm.refl _) inRange_counterSource.1
  obtain ⟨fuel, st, hst⟩ := h.2 retrySucceeds_counterSource
  obtain ⟨st', hst', hp, hl, _⟩ := h.1 fuel _ hst
  cases hst'
  exact ⟨fuel, st, hst, hp, hl⟩
/-! ## The restarts: the claims -/

/-- C13: for every ciphertext and every scorer whose scores on it are finite, with a
random source that keeps its contract and whose retries succeed, the
multi-restart breaker returns, and what it returns does not depend on the
fuel. It runs exactly 25 climbs, each started in the generator state the one
before left, and writes the decryption `applySubstCipher(k, ciphertext)` of
the key `k` returned by one of them, run `j`: no run's key scores more than
run `j`'s, and no earlier run's key scores the same, so on equal scores the
earliest run is kept. The output has the length of the ciphertext, so it is
not the empty initial value when the ciphertext is not empty. -/
theorem command_keeps_best_of_25_runs {D G : Type} [DoubleOrder D] (hlaws : GtLaws D)
    (R : RandomSource G) (hR : InRange R) (hretry : RetrySucceeds R)
    (getScore : List Char → D) (text : List Char) (hfin : FiniteScores getScore text) (g : G) :
    ∃ fuel st, decryptSubstCipherCommand R getScore fuel text g = some (.ok st)
      ∧ (∀ fuel' r, decryptSubstCipherCommand R getScore fuel' text g = some r → r = .ok st)
      ∧ st.runs.length = 25
      ∧ (∀ (n : Nat) (h : n < st.runs.length),
          st.runs[n].start = rngAfter g (st.runs.take n)
            ∧ decryptSubstCipher R getScore fuel text st.runs[n].start
                = some (.ok st.runs[n].climb)
            ∧ applySubstCipher st.runs[n].climb.bestCipherKey text
                = .ok st.runs[n].descryption
            ∧ scoreString getScore st.runs[n].descryption = .ok st.runs[n].score)
      ∧ (∃ (j : Nat) (hj : j < st.runs.length),
          st.bestDescryption = st.runs[j].descryption
            ∧ st.bestCipherKey = st.runs[j].climb.bestCipherKey
            ∧ st.bestScore = st.runs[j].score
            ∧ (∀ (i : Nat) (hi : i < st.runs.length),
                DoubleOrder.gt st.runs[i].score st.runs[j].score = false)
            ∧ ∀ (i : Nat) (hi : i < st.runs.length), i < j →
                st.runs[i].score ≠ st.runs[j].score)
      ∧ st.bestDescryption.length = text.length
      ∧ (text ≠ [] → st.bestDescryption ≠ []) := by
  obtain ⟨fuel, st, h⟩ := commandLoop_returns hlaws hR hretry getScore text 25
    ({ bestCipherKey := [], bestDescryption := [], bestScore := DoubleOrder.negInfinity,
       rng := g, runs := [] } : CommandState D G)
  obtain ⟨hinv, hlen⟩ := commandLoop_inv hlaws (commandInv_start R getScore fuel text g) h
  have hlen25 : st.runs.length = 25 := by simpa using hlen
  have hbest : ∃ (j : Nat) (hj : j < st.runs.length),
      st.bestDescryption = st.runs[j].descryption
        ∧ st.bestCipherKey = st.runs[j].climb.bestCipherKey
        ∧ st.bestScore = st.runs[j].score
        ∧ (∀ (i : Nat) (hi : i < st.runs.length),
            DoubleOrder.gt st.runs[i].score st.runs[j].score = false)
        ∧ ∀ (i : Nat) (hi : i < st.runs.length), i < j →
            st.runs[i].score ≠ st.runs[j].score := by
    rcases hinv.best with ⟨_, _, _, hall⟩ | ⟨j, hj, hk, hd, hb, hall, hearly⟩
    · exfalso
      have h0 : 0 < st.runs.length := by omega
      have hmem : st.runs[0] ∈ st.runs := List.getElem_mem h0
      have hs := (hinv.runs_ok _ hmem).score_eq
      have hd := applySubstCipher_ok (hinv.runs_ok _ hmem).descryption_eq
      rw [scoreString_eq, hd] at hs
      have hf := hfin st.runs[0].climb.bestCipherKey
      rw [scoreOf, Except.ok.inj hs, hall _ hmem] at hf
      cases hf
    · exact ⟨j, hj, hd, hk, hb, fun i hi => hall _ (List.getElem_mem hi), hearly⟩
  have hlenout : st.bestDescryption.length = text.length := by
    obtain ⟨j, hj, hd, _⟩ := hbest
    have := applySubstCipher_ok (hinv.runs_ok _ (List.getElem_mem hj)).descryption_eq
    rw [hd, this, substituteSpec_length]
  refine ⟨fuel, st, h, fun fuel' r h' => decryptSubstCipherCommand_unique h' h, hlen25, ?_,
    hbest, hlenout, ?_⟩
  · intro n hn
    have hok := hinv.runs_ok _ (List.getElem_mem hn)
    exact ⟨hinv.linked n hn, hok.climb_eq, hok.descryption_eq, hok.score_eq⟩
  · intro hne hnil
    rw [hnil] at hlenout
    exact hne (List.length_eq_zero.mp hlenout.symm)

theorem finiteScores_headCode (text : List Char) :
    FiniteScores (fun q => ((q.headD 'A').toNat : Int)) text := by
  intro key
  have hfold : ∀ (l : List (List Char)) (a : Int), 0 ≤ a →
      0 ≤ (l.map fun q => ((q.headD 'A').toNat : Int)).foldl DoubleArith.add a := by
    intro l
    induction l with
    | nil => intro a ha; simpa using ha
    | cons q l ih =>
      intro a ha
      simp only [List.map_cons, List.foldl_cons]
      apply ih
      show 0 ≤ a + ((q.headD 'A').toNat : Int)
      omega
  simp only [scoreOf, scoreSpec, DoubleOrder.gt, decide_eq_true_eq]
  split
  · decide
  · have := hfold (quadgrams (cleanSpec (substituteSpec key text))) 0 (Int.le_refl 0)
    have h0 : (DoubleArith.zero : Int) = 0 := rfl
    have hneg : (DoubleOrder.negInfinity : Int) = -1000000000000 := rfl
    rw [h0, hneg]
    omega

/-- C13 on the counter source and a scorer with scores that are not negative:
the command returns after 25 runs with an output of the length of the
ciphertext. -/
theorem command_keeps_best_of_25_runs_witness :
    ∃ fuel st,
      decryptSubstCipherCommand counterSource (fun q => ((q.headD 'A').toNat : Int)) fuel
          "XLI UYMGO FVSAR JSB".toList 0 = some (.ok st)
        ∧ st.runs.length = 25
        ∧ st.bestDescryption.length = "XLI UYMGO FVSAR JSB".toList.length := by
  obtain ⟨fuel, st, h, _, hlen, _, _, hout, _⟩ := command_keeps_best_of_25_runs gtLaws_int
    counterSource inRange_counterSource retrySucceeds_counterSource
    (fun q => ((q.headD 'A').toNat : Int)) "XLI UYMGO FVSAR JSB".toList
    (finiteScores_headCode _) 0
  exact ⟨fuel, st, h, hlen, hout⟩

/-! ## Helper lemmas: two random sources with the same draws -/

theorem drawSecondPos_same {G1 G2 : Type} {R1 : RandomSource G1} {R2 : RandomSource G2}
    {sim : G1 → G2 → Prop} (hsame : SameDraws R1 R2 sim) (pos1 : Int) (fuel : Nat)
    {g1 : G1} {g2 : G2} (hg : sim g1 g2) :
    (drawSecondPos R1 pos1 fuel g1 = none ∧ drawSecondPos R2 pos1 fuel g2 = none)
      ∨ ∃ d1 d2, drawSecondPos R1 pos1 fuel g1 = some d1
          ∧ drawSecondPos R2 pos1 fuel g2 = some d2 ∧ d1.1 = d2.1 ∧ sim d1.2 d2.2 := by
  induction fuel generalizing g1 g2 with
  | zero => exact Or.inl ⟨rfl, rfl⟩
  | succ n ih =>
    obtain ⟨hv, hs⟩ := hsame.randInt_eq g1 g2 25 hg
    simp only [drawSecondPos]
    by_cases hp : (R1.randInt g1 25).1 = pos1
    · have hp2 : (R2.randInt g2 25).1 = pos1 := by rw [← hv]; exact hp
      rw [if_pos hp, if_pos hp2]
      exact ih hs
    · have hp2 : ¬ (R2.randInt g2 25).1 = pos1 := by rw [← hv]; exact hp
      rw [if_neg hp, if_neg hp2]
      exact Or.inr ⟨_, _, rfl, rfl, hv, hs⟩

theorem climbTrial_same {D G1 G2 : Type} [DoubleOrder D] {sim : G1 → G2 → Prop}
    (getScore : List Char → D) (ciphertext : List Char) {a : ClimbState D G1}
    {b : ClimbState D G2} (hab : SameClimb sim a b) (pos1 pos2 : Int) {g1 : G1} {g2 : G2}
    (hg : sim g1 g2) :
    SameOutcome (SameClimb sim) (some (climbTrial getScore ciphertext a pos1 pos2 g1))
      (some (climbTrial getScore ciphertext b pos1 pos2 g2)) := by
  obtain ⟨hk, hs, ht, hh, _⟩ := hab
  unfold climbTrial
  rw [← hk, ← hs, ← ht, ← hh]
  cases swapAt a.bestCipherKey pos1 pos2 with
  | error e => exact rfl
  | ok k =>
    simp only [ok_bind]
    cases applySubstCipher k ciphertext with
    | error e => exact rfl
    | ok d =>
      simp only [ok_bind, scoreString_eq]
      split
      · exact ⟨rfl, rfl, rfl, rfl, hg⟩
      · exact ⟨rfl, rfl, rfl, rfl, hg⟩

theorem climbLoop_same {D G1 G2 : Type} [DoubleOrder D] {R1 : RandomSource G1}
    {R2 : RandomSource G2} {sim : G1 → G2 → Prop} (hsame : SameDraws R1 R2 sim)
    (getScore : List Char → D) (ciphertext : List Char) (fuel : Nat) {a : ClimbState D G1}
    {b : ClimbState D G2} (hab : SameClimb sim a b) :
    SameOutcome (SameClimb sim) (climbLoop R1 getScore ciphertext fuel a)
      (climbLoop R2 getScore ciphertext fuel b) := by
  induction fuel generalizing a b with
  | zero => exact trivial
  | succ n ih =>
    simp only [climbLoop]
    have ht : a.trials = b.trials := hab.2.2.1
    by_cases hlt : a.trials < 1000
    · have hlt2 : b.trials < 1000 := by omega
      rw [if_pos hlt, if_pos hlt2]
      obtain ⟨hv, hs⟩ := hsame.randInt_eq a.rng b.rng 25 hab.2.2.2.2
      rcases drawSecondPos_same hsame (R1.randInt a.rng 25).1 n hs with
        ⟨h1, h2⟩ | ⟨d1, d2, h1, h2, hd, hds⟩
      · rw [← hv] at *
        simp only [h1, h2]
        exact trivial
      · rw [← hv] at *
        simp only [h1, h2]
        have := climbTrial_same getScore ciphertext hab (R1.randInt a.rng 25).1 d1.1 hds
        rw [← hd]
        cases hx : climbTrial getScore ciphertext a (R1.randInt a.rng 25).1 d1.1 d1.2 with
        | error e =>
          cases hy : climbTrial getScore ciphertext b (R1.randInt a.rng 25).1 d1.1 d2.2 with
          | error e' =>
            rw [hx, hy] at this
            exact this
          | ok b' =>
            rw [hx, hy] at this
            exact this.elim
        | ok a' =>
          cases hy : climbTrial getScore ciphertext b (R1.randInt a.rng 25).1 d1.1 d2.2 with
          | error e' =>
            rw [hx, hy] at this
            exact this.elim
          | ok b' =>
            rw [hx, hy] at this
            exact ih this
    · have hlt2 : ¬ b.trials < 1000 := by omega
      rw [if_neg hlt, if_neg hlt2]
      exact hab

theorem decryptSubstCipher_same {D G1 G2 : Type} [DoubleOrder D] {R1 : RandomSource G1}
    {R2 : RandomSource G2} {sim : G1 → G2 → Prop} (hsame : SameDraws R1 R2 sim)
    (getScore : List Char → D) (fuel : Nat) (ciphertext : List Char) {g1 : G1} {g2 : G2}
    (hg : sim g1 g2) :
    SameOutcome (SameClimb sim) (decryptSubstCipher R1 getScore fuel ciphertext g1)
      (decryptSubstCipher R2 getScore fuel ciphertext g2) := by
  obtain ⟨hk, hs⟩ := hsame.gen_eq g1 g2 hg
  unfold decryptSubstCipher climbStart
  simp only [pure_eq_ok]
  rw [← hk]
  cases applySubstCipher (R1.genRandomSubstCipher g1).1 ciphertext with
  | error e => exact rfl
  | ok d =>
    simp only [ok_bind, scoreString_eq]
    exact climbLoop_same hsame getScore ciphertext fuel ⟨rfl, rfl, rfl, rfl, hs⟩
theorem commandPass_same {D G1 G2 : Type} [DoubleOrder D] {R1 : RandomSource G1}
    {R2 : RandomSource G2} {sim : G1 → G2 → Prop} (hsame : SameDraws R1 R2 sim)
    (getScore : List Char → D) (fuel : Nat) (text : List Char) {a : CommandState D G1}
    {b : CommandState D G2} (hab : SameCommand sim a b) :
    SameOutcome (SameCommand sim) (commandPass R1 getScore fuel text a)
      (commandPass R2 getScore fuel text b) := by
  obtain ⟨hk, hd, hs, hr, hg⟩ := hab
  have hc := decryptSubstCipher_same hsame getScore fuel text hg
  unfold commandPass
  cases h1 : decryptSubstCipher R1 getScore fuel text a.rng with
  | none =>
    cases h2 : decryptSubstCipher R2 getScore fuel text b.rng with
    | none => exact trivial
    | some r2 =>
      rw [h1, h2] at hc
      cases r2 <;> exact hc.elim
  | some r1 =>
    cases h2 : decryptSubstCipher R2 getScore fuel text b.rng with
    | none =>
      rw [h1, h2] at hc
      cases r1 <;> exact hc.elim
    | some r2 =>
      rw [h1, h2] at hc
      cases r1 with
      | error e1 =>
        cases r2 with
        | error e2 => exact hc
        | ok c2 => exact hc.elim
      | ok c1 =>
        cases r2 with
        | error e2 => exact hc.elim
        | ok c2 =>
          obtain ⟨hck, _, _, _, hcg⟩ := hc
          simp only
          rw [← hck, ← hs, ← hk, ← hd]
          cases applySubstCipher c1.bestCipherKey text with
          | error e => exact rfl
          | ok d =>
            simp only [scoreString_eq]
            split
            · exact ⟨rfl, rfl, rfl, by simp [hr, hck], hcg⟩
            · exact ⟨rfl, rfl, rfl, by simp [hr, hck], hcg⟩

theorem commandLoop_same {D G1 G2 : Type} [DoubleOrder D] {R1 : RandomSource G1}
    {R2 : RandomSource G2} {sim : G1 → G2 → Prop} (hsame : SameDraws R1 R2 sim)
    (getScore : List Char → D) (fuel : Nat) (text : List Char) (n : Nat)
    {a : CommandState D G1} {b : CommandState D G2} (hab : SameCommand sim a b) :
    SameOutcome (SameCommand sim) (commandLoop R1 getScore fuel text n a)
      (commandLoop R2 getScore fuel text n b) := by
  induction n generalizing a b with
  | zero => exact hab
  | succ n ih =>
    have hp := commandPass_same hsame getScore fuel text hab
    simp only [commandLoop]
    cases h1 : commandPass R1 getScore fuel text a with
    | none =>
      cases h2 : commandPass R2 getScore fuel text b with
      | none => exact trivial
      | some r2 =>
        rw [h1, h2] at hp
        cases r2 <;> exact hp.elim
    | some r1 =>
      cases h2 : commandPass R2 getScore fuel text b with
      | none =>
        rw [h1, h2] at hp
        cases r1 <;> exact hp.elim
      | some r2 =>
        rw [h1, h2] at hp
        cases r1 with
        | error e1 =>
          cases r2 with
          | error e2 => exact hp
          | ok c2 => exact hp.elim
        | ok c1 =>
          cases r2 with
          | error e2 => exact hp.elim
          | ok c2 => exact ih hp

/-- Two runs of the command that see the same sequence of draws and return,
with whatever fuel, return the same best key, decryption and score and the
same keys, decryptions and scores of the 25 runs. -/
theorem decryptSubstCipherCommand_same {D G1 G2 : Type} [DoubleOrder D]
    {R1 : RandomSource G1} {R2 : RandomSource G2} {sim : G1 → G2 → Prop}
    (hsame : SameDraws R1 R2 sim) (getScore : List Char → D) (text : List Char)
    {g1 : G1} {g2 : G2} (hg : sim g1 g2) {fuel fuel' : Nat} {a : CommandState D G1}
    {b : CommandState D G2}
    (ha : decryptSubstCipherCommand R1 getScore fuel text g1 = some (.ok a))
    (hb : decryptSubstCipherCommand R2 getScore fuel' text g2 = some (.ok b)) :
    SameCommand sim a b := by
  have h1 := commandLoop_mono ha (Nat.le_max_left fuel fuel')
  have h2 := commandLoop_mono hb (Nat.le_max_right fuel fuel')
  have := commandLoop_same hsame getScore (max fuel fuel') text 25
    (a := { bestCipherKey := [], bestDescryption := [],
            bestScore := DoubleOrder.negInfinity, rng := g1, runs := [] })
    (b := { bestCipherKey := [], bestDescryption := [],
            bestScore := DoubleOrder.negInfinity, rng := g2, runs := [] })
    ⟨rfl, rfl, rfl, rfl, hg⟩
  rw [h1, h2] at this
  exact this

/-- Two climbs that see the same sequence of draws and return, with whatever
fuel, return the same key, score and trial records. -/
theorem decryptSubstCipher_same_of_returns {D G1 G2 : Type} [DoubleOrder D]
    {R1 : RandomSource G1} {R2 : RandomSource G2} {sim : G1 → G2 → Prop}
    (hsame : SameDraws R1 R2 sim) (getScore : List Char → D) (text : List Char)
    {g1 : G1} {g2 : G2} (hg : sim g1 g2) {fuel fuel' : Nat} {a : ClimbState D G1}
    {b : ClimbState D G2}
    (ha : decryptSubstCipher R1 getScore fuel text g1 = some (.ok a))
    (hb : decryptSubstCipher R2 getScore fuel' text g2 = some (.ok b)) :
    SameClimb sim a b := by
  have h1 := decryptSubstCipher_mono ha (Nat.le_max_left fuel fuel')
  have h2 := decryptSubstCipher_mono hb (Nat.le_max_right fuel fuel')
  have := decryptSubstCipher_same hsame getScore (max fuel fuel') text hg
  rw [h1, h2] at this
  exact this
theorem sameDraws_counter_cyclic :
    SameDraws counterSource cyclicSource (fun g1 g2 => g1 % 26 = g2.val) := by
  refine ⟨?_, ?_⟩
  · intro g1 g2 m h
    simp only [counterSource, cyclicSource]
    refine ⟨by rw [h], ?_⟩
    rw [Fin.val_add]
    simp only [Fin.val_one]
    omega
  · intro g1 g2 h
    exact ⟨rfl, h⟩

/-- C16: the substitution breaker is deterministic in the random state. For
every ciphertext, scorer and random source, whatever a single climb and the
25-restart search return from a generator state is determined by that state:
two runs that return, return the same state, so the same keys and the same
output text. More generally two runs that see the same sequence of draws,
even from two different random sources, return the same keys, scores and
output text: nothing but the ciphertext, the scorer and the draws enters. With
a random source that keeps its contract and whose retries succeed the climb
and the search do return. -/
theorem breaker_is_deterministic {D G : Type} [DoubleOrder D] (hlaws : GtLaws D)
    (R : RandomSource G) (getScore : List Char → D) (text : List Char) (g : G) :
    (∀ fuel fuel' r r', decryptSubstCipher R getScore fuel text g = some r →
        decryptSubstCipher R getScore fuel' text g = some r' → r = r')
      ∧ (∀ fuel fuel' r r', decryptSubstCipherCommand R getScore fuel text g = some r →
          decryptSubstCipherCommand R getScore fuel' text g = some r' → r = r')
      ∧ (∀ (G2 : Type) (R2 : RandomSource G2) (sim : G → G2 → Prop) (g2 : G2),
          SameDraws R R2 sim → sim g g2 →
          (∀ fuel fuel' c c', decryptSubstCipher R getScore fuel text g = some (.ok c) →
              decryptSubstCipher R2 getScore fuel' text g2 = some (.ok c') →
              c.bestCipherKey = c'.bestCipherKey ∧ c.bestScore = c'.bestScore
                ∧ c.history = c'.history)
            ∧ (∀ fuel fuel' st st',
                decryptSubstCipherCommand R getScore fuel text g = some (.ok st) →
                decryptSubstCipherCommand R2 getScore fuel' text g2 = some (.ok st') →
                st.bestCipherKey = st'.bestCipherKey
                  ∧ st.bestDescryption = st'.bestDescryption
                  ∧ st.bestScore = st'.bestScore
                  ∧ st.runs.map (fun r => (r.climb.bestCipherKey, r.descryption, r.score))
                      = st'.runs.map
                          (fun r => (r.climb.bestCipherKey, r.descryption, r.score))))
      ∧ (InRange R → RetrySucceeds R →
          (∃ fuel c, decryptSubstCipher R getScore fuel text g = some (.ok c))
            ∧ ∃ fuel st, decryptSubstCipherCommand R getScore fuel text g = some (.ok st)) := by
  refine ⟨fun _ _ _ _ h h' => decryptSubstCipher_unique h h',
    fun _ _ _ _ h h' => decryptSubstCipherCommand_unique h h', ?_, ?_⟩
  · intro G2 R2 sim g2 hsame hg
    constructor
    · intro fuel fuel' c c' hc hc'
      obtain ⟨h1, h2, _, h4, _⟩ :=
        decryptSubstCipher_same_of_returns hsame getScore text hg hc hc'
      exact ⟨h1, h2, h4⟩
    · intro fuel fuel' st st' hst hst'
      obtain ⟨h1, h2, h3, h4, _⟩ :=
        decryptSubstCipherCommand_same hsame getScore text hg hst hst'
      exact ⟨h1, h2, h3, h4⟩
  · intro hR hretry
    exact ⟨decryptSubstCipher_returns_ok hlaws hR hretry getScore text g,
      commandLoop_returns hlaws hR hretry getScore text 25 _⟩

/-- C16 on the counter source from state 30 and the cyclic source from state
4, which see the same draws: the search returns from the first, and whatever
it returns from the second has the same key and the same output text. -/
theorem breaker_is_deterministic_witness :
    ∃ st, (∃ fuel, decryptSubstCipherCommand counterSource
            (fun q => ((q.headD 'A').toNat : Int)) fuel "XLI UYMGO FVSAR JSB".toList 30
              = some (.ok st))
        ∧ (∀ fuel r, decryptSubstCipherCommand counterSource
            (fun q => ((q.headD 'A').toNat : Int)) fuel "XLI UYMGO FVSAR JSB".toList 30
              = some r → r = .ok st)
        ∧ ∀ fuel st', decryptSubstCipherCommand cyclicSource
            (fun q => ((q.headD 'A').toNat : Int)) fuel "XLI UYMGO FVSAR JSB".toList 4
              = some (.ok st') →
            st.bestCipherKey = st'.bestCipherKey
              ∧ st.bestDescryption = st'.bestDescryption := by
  have h := breaker_is_deterministic gtLaws_int counterSource
    (fun q => ((q.headD 'A').toNat : Int)) "XLI UYMGO FVSAR JSB".toList 30
  obtain ⟨_, ⟨f2, st, hst⟩⟩ := h.2.2.2 inRange_counterSource retrySucceeds_counterSource
  refine ⟨st, ⟨f2, hst⟩, fun fuel r hr => h.2.1 _ _ _ _ hr hst, ?_⟩
  intro fuel st' hst'
  have hs := (h.2.2.1 (Fin 26) cyclicSource (fun g1 g2 => g1 % 26 = g2.val) 4
    sameDraws_counter_cyclic (by decide)).2 f2 fuel st st' hst hst'
  exact ⟨hs.1, hs.2.1⟩

end Ciphers
